import Mathlib

/-!
# MCPTBlender: curve predictor, weight policy and blend compositor

A shallow embedding of `src/src/curvepredictor.cpp`, of the statistics of
`src/src/imageloader.cpp` and of the weight loop of `src/src/main.cpp`.

Modelling conventions.

* A C++ `float` is a value of `Fl α`: NaN, one of the two infinities, or a finite
  number of an ordered field `α`.  The special values follow IEEE-754 (a comparison
  with NaN is false, `inf * 0`, `inf - inf` and `0 / 0` are NaN, a non-zero number
  divided by zero is an infinity).  The sign of zero is not modelled.
* Two layers.  In the functions with the names of the source (`blend`,
  `leastSquares`, `calcCurves`, `denoisedWeight`, `calcMinWeight`, ...) finite results
  are exact: no rounding and no overflow of a finite result to an infinity.  The
  functions `blend32`, `leastSquares32`, `denoisedWeight32` and `calcMinWeight32` are
  the same functions in single precision: every sum, difference, product and quotient
  is rounded to the nearest binary32 number (ties to even, subnormal numbers, overflow
  to an infinity), each rounded on its own (no fused multiply-add), a float literal is
  the binary32 number it denotes, and a sum of `int` values wraps at 32 bits.  A
  property that depends on the arithmetic is stated on the second layer.
* The functions of the C math library (`log`, `exp`, `sqrt`, `pow`) are not code of
  the repository.  Every embedded function takes them as a record `Libm α`;
  `Libm.ideal` builds such a record from the real-valued functions, adding the
  special cases of the C standard.  All embedded functions are computable.
* The denoiser (`ImageDenoiser::run`) and the random generator are external: the
  risk estimator takes the denoiser as a function that returns a buffer or fails, and
  the draws of the standard normal distribution as a function of the index.
* An `int` is an integer of `Int`; in the exact layer sums of `int` values are taken
  without overflow, which is undefined in the source.  A conversion of a `float` to `int` truncates
  toward zero and is undefined (`none`) for NaN, the infinities and values outside
  the 32-bit range.  `size_t` arithmetic is modulo `2 ^ 64`.
* A `std::vector` is a `List`; reading past the end of a vector is undefined in the
  source and reads a zero in the model.
-/

namespace MCPT

/-- A single-precision value: NaN, plus or minus infinity, or a finite number. -/
inductive Fl (α : Type) where
  | nan : Fl α
  | pinf : Fl α
  | ninf : Fl α
  | fin (x : α) : Fl α
deriving DecidableEq, Repr

namespace Fl

variable {α : Type} [LinearOrderedField α]

/-- Negation of a float. -/
def neg : Fl α → Fl α
  | nan => nan
  | pinf => ninf
  | ninf => pinf
  | fin x => fin (-x)

/-- Float addition: `inf + (-inf)` is NaN. -/
def add : Fl α → Fl α → Fl α
  | nan, _ => nan
  | _, nan => nan
  | pinf, ninf => nan
  | ninf, pinf => nan
  | pinf, _ => pinf
  | _, pinf => pinf
  | ninf, _ => ninf
  | _, ninf => ninf
  | fin x, fin y => fin (x + y)

/-- Float subtraction. -/
def sub (a b : Fl α) : Fl α := add a (neg b)

/-- An infinity with the sign of `x`, or NaN when `x` is zero (`inf * 0`). -/
def infTimes (positive : Bool) (x : α) : Fl α :=
  if x = 0 then nan
  else if (0 < x) = positive then pinf else ninf

/-- Float multiplication: `inf * 0` is NaN. -/
def mul : Fl α → Fl α → Fl α
  | nan, _ => nan
  | _, nan => nan
  | pinf, pinf => pinf
  | pinf, ninf => ninf
  | ninf, pinf => ninf
  | ninf, ninf => pinf
  | pinf, fin y => infTimes true y
  | ninf, fin y => infTimes false y
  | fin x, pinf => infTimes true x
  | fin x, ninf => infTimes false x
  | fin x, fin y => fin (x * y)

/-- Float division: `inf / inf` and `0 / 0` are NaN, a non-zero number over zero is
an infinity (the zero divisor counts as positive). -/
def div : Fl α → Fl α → Fl α
  | nan, _ => nan
  | _, nan => nan
  | pinf, pinf => nan
  | pinf, ninf => nan
  | ninf, pinf => nan
  | ninf, ninf => nan
  | pinf, fin y => if 0 ≤ y then pinf else ninf
  | ninf, fin y => if 0 ≤ y then ninf else pinf
  | fin _, pinf => fin 0
  | fin _, ninf => fin 0
  | fin x, fin y =>
    if y = 0 then
      if x = 0 then nan else if 0 < x then pinf else ninf
    else fin (x / y)

instance : Neg (Fl α) := ⟨neg⟩
instance : Add (Fl α) := ⟨add⟩
instance : Sub (Fl α) := ⟨sub⟩
instance : Mul (Fl α) := ⟨mul⟩
instance : Div (Fl α) := ⟨div⟩

/-- The comparison `a < b` of two floats; false when either is NaN. -/
def lt : Fl α → Fl α → Bool
  | nan, _ => false
  | _, nan => false
  | pinf, _ => false
  | _, ninf => false
  | ninf, _ => true
  | _, pinf => true
  | fin x, fin y => decide (x < y)

/-- The comparison `a <= b` of two floats; false when either is NaN. -/
def le : Fl α → Fl α → Bool
  | nan, _ => false
  | _, nan => false
  | ninf, _ => true
  | _, pinf => true
  | pinf, _ => false
  | _, ninf => false
  | fin x, fin y => decide (x ≤ y)

/-- The smallest positive normal single-precision number, `2 ^ (-126)`. -/
def fltMin : α := 1 / 2 ^ 126

/-- The test `std::isnormal`: neither zero, subnormal, infinite nor NaN. -/
def isnormal : Fl α → Bool
  | fin x => decide (fltMin ≤ |x|)
  | _ => false

/-- The conversion `float(n)` of an `int`. -/
def ofInt (n : Int) : Fl α := fin (n : α)

/-- The conversion `float(n)` of a `size_t`. -/
def ofNat (n : Nat) : Fl α := fin (n : α)

/-- Whether the float is a finite number. -/
def isFinite : Fl α → Bool
  | fin _ => true
  | _ => false

/-- The function `std::abs` on a float. -/
def abs : Fl α → Fl α
  | nan => nan
  | pinf => pinf
  | ninf => pinf
  | fin x => fin |x|

variable [FloorRing α]

/-- Truncation toward zero of a number. -/
def trunc (x : α) : Int := if 0 ≤ x then ⌊x⌋ else ⌈x⌉

/-- The conversion `int(x)` of a float: truncation toward zero, undefined for NaN,
the infinities and values outside the range of a 32-bit `int`. -/
def toInt : Fl α → Option Int
  | fin x =>
    if -2147483648 ≤ trunc x ∧ trunc x ≤ 2147483647 then some (trunc x) else none
  | _ => none

/-- The function `std::round`: to the nearest integer, halves away from zero. -/
def round : Fl α → Fl α
  | fin x => fin (((if 0 ≤ x then ⌊x + 1 / 2⌋ else ⌈x - 1 / 2⌉ : Int) : α))
  | v => v

end Fl

open Fl

/-- The functions of the C math library that the source calls. -/
structure Libm (α : Type) where
  /-- The function `std::log`. -/
  log : Fl α → Fl α
  /-- The function `std::exp`. -/
  exp : Fl α → Fl α
  /-- The function `std::sqrt`. -/
  sqrt : Fl α → Fl α
  /-- The function `std::pow`. -/
  pow : Fl α → Fl α → Fl α

section Ideal

variable {α : Type} [LinearOrderedField α] [FloorRing α]

/-- Whether a number is an integer. -/
def isInt (y : α) : Bool := decide (((⌊y⌋ : Int) : α) = y)

/-- Whether a number is an odd integer. -/
def isOddInt (y : α) : Bool := isInt y && decide (⌊y⌋ % 2 = 1)

/-- The power function of the C standard on top of a real-valued power `pw`, which is
consulted for a positive base and for a negative base with an integer exponent. -/
def idealPow (pw : α → α → α) (a b : Fl α) : Fl α :=
  if b = fin 0 then fin 1
  else if a = fin 1 then fin 1
  else
    match a, b with
    | nan, _ => nan
    | _, nan => nan
    | fin x, pinf =>
      if |x| < 1 then fin 0 else if |x| = 1 then fin 1 else pinf
    | fin x, ninf =>
      if |x| < 1 then pinf else if |x| = 1 then fin 1 else fin 0
    | pinf, pinf => pinf
    | ninf, pinf => pinf
    | pinf, ninf => fin 0
    | ninf, ninf => fin 0
    | pinf, fin y => if 0 < y then pinf else fin 0
    | ninf, fin y => if 0 < y then (if isOddInt y then ninf else pinf) else fin 0
    | fin x, fin y =>
      if x = 0 then (if 0 < y then fin 0 else pinf)
      else if 0 < x then fin (pw x y)
      else if isInt y then fin (pw x y) else nan

/-- The math library in exact arithmetic: the real-valued functions `lg`, `ex`, `sq`
and `pw` on the arguments where the C functions are finite, and the special values of
the C standard elsewhere. -/
def Libm.ideal (lg ex sq : α → α) (pw : α → α → α) : Libm α where
  log := fun v =>
    match v with
    | nan => nan
    | pinf => pinf
    | ninf => nan
    | fin x => if x = 0 then ninf else if 0 < x then fin (lg x) else nan
  exp := fun v =>
    match v with
    | nan => nan
    | pinf => pinf
    | ninf => fin 0
    | fin x => fin (ex x)
  sqrt := fun v =>
    match v with
    | nan => nan
    | pinf => pinf
    | ninf => nan
    | fin x => if 0 ≤ x then fin (sq x) else nan
  pow := idealPow pw

end Ideal

/-- The pair `CurveParam` of `curvepredictor.h`. -/
abbrev CurveParam (α : Type) := Fl α × Fl α

section Code

variable {α : Type} [LinearOrderedField α]

/-- The function `CurvePredictor::blend`, returning the buffer `blended`. -/
def blend (img1 img2 : List (Fl α)) (w1 : Int) (w2 : List Int) : List (Fl α) :=
  let len := min img1.length img2.length
  let blended1 := List.zipWith (fun a b => a * ofInt b) (img2.take len) w2
  let blended2 := List.zipWith (fun a b => a * ofInt w1 + b) (img1.take len) blended1
  List.zipWith (fun a b => b / ofInt (w1 + a)) (w2.take len) blended2

/-- Subtraction of two `size_t` values, modulo `2 ^ 64`. -/
def sizeSub (a b : Nat) : Nat := (a + (2 ^ 64 - b % 2 ^ 64)) % 2 ^ 64

/-- Addition of two `size_t` values, modulo `2 ^ 64`. -/
def sizeAdd (a b : Nat) : Nat := (a + b) % 2 ^ 64

/-- The conversion `int(n)` of a `size_t`: the low 32 bits, read as two's complement. -/
def sizeToInt (n : Nat) : Int :=
  if n % 2 ^ 32 < 2 ^ 31 then ((n % 2 ^ 32 : Nat) : Int)
  else ((n % 2 ^ 32 : Nat) : Int) - 2 ^ 32

/-- The function `CurvePredictor::_leastSquares`: one pass that accumulates the four
sums, then the closed form; the result is the pair `(slope, intercept)`. -/
def leastSquares (x y : List (Fl α)) : CurveParam α :=
  let n := x.length
  let sums := (List.range n).foldl
    (fun (acc : Fl α × Fl α × Fl α × Fl α) i =>
      let xi := x.getD i (fin 0)
      let yi := y.getD i (fin 0)
      (acc.1 + xi, acc.2.1 + yi, acc.2.2.1 + xi * yi, acc.2.2.2 + xi * xi))
    (fin 0, fin 0, fin 0, fin 0)
  let sum_x := sums.1
  let sum_y := sums.2.1
  let sum_xy := sums.2.2.1
  let sum_x_squared := sums.2.2.2
  let mean_x := sum_x / ofNat n
  let mean_y := sum_y / ofNat n
  let slope := (ofNat n * sum_xy - sum_x * sum_y)
    / (ofNat n * sum_x_squared - sum_x * sum_x)
  let intercept := mean_y - slope * mean_x
  (slope, intercept)

/-- The scan of `calcCurves` (the loop over `j` from `vals.size() - 1` down to `1`):
`scanGood flag vals j goodVals idx0` runs the iterations `j, j - 1, ..., 1` from the
state `(goodVals, idx0)` and returns the final state. -/
def scanGood (useLastTwoPoint : Bool) (vals : List (Fl α)) :
    Nat → List (Fl α) → Nat → List (Fl α) × Nat
  | 0, goodVals, idx0 => (goodVals, idx0)
  | j + 1, goodVals, idx0 =>
    if lt (vals.getD (j + 1) (fin 0)) (vals.getD j (fin 0)) then
      if lt (fin 0) (vals.getD (j + 1) (fin 0)) then
        let goodVals1 := vals.getD (j + 1) (fin 0) :: goodVals
        if useLastTwoPoint && goodVals1.length == 2 then (goodVals1, j + 1)
        else scanGood useLastTwoPoint vals j goodVals1 idx0
      else scanGood useLastTwoPoint vals j goodVals idx0
    else (vals.getD (j + 1) (fin 0) :: goodVals, j + 1)

/-- The regression stage of `calcCurves`: the vectors `x` and `y` of `len` entries,
filled for `k` from `idx0` to `idx1`, the call of `_leastSquares`, and the pair
`(exp(first), second)` built from its result. -/
def fitWindow (m : Libm α) (spp : List Int) (goodVals : List (Fl α))
    (idx0 idx1 len : Nat) : CurveParam α :=
  let c : Fl α := fin 100
  let x := (List.range len).map fun t =>
    if idx0 + t ≤ idx1 then
      let A := m.log (ofInt (spp.getD (idx0 + t) 0))
      fin 1 / A
    else fin 0
  let y := (List.range len).map fun t =>
    if idx0 + t ≤ idx1 then
      let A := m.log (ofInt (spp.getD (idx0 + t) 0))
      let B := m.log (goodVals.getD t (fin 0))
      m.log (B + c) / A
    else fin 0
  let slopeIntercept := leastSquares x y
  let b := slopeIntercept.2
  let a := slopeIntercept.1
  (m.exp a, b)

/-- The vector `vals` of `calcCurves` for the pixel-channel `i`: the series across
the checkpoints, every value that is not normal replaced by zero. -/
def sanitized (vars : List (List (Fl α))) (i : Nat) : List (Fl α) :=
  vars.map fun row =>
    let v := row.getD i (fin 0)
    if isnormal v then v else fin 0

/-- The body of the loop over the pixel-channels of `calcCurves`, for the
pixel-channel `i`: sanitise the series, scan it, and fit the window. -/
def curveOf (m : Libm α) (vars : List (List (Fl α))) (spp : List Int)
    (useLastTwoPoint : Bool) (i : Nat) : CurveParam α :=
  let vals := sanitized vars i
  let scan := scanGood useLastTwoPoint vals (vals.length - 1) [] 1
  let goodVals := scan.1
  let idx0 := scan.2
  let idx1 := sizeSub goodVals.length 1
  let len := sizeAdd (sizeSub idx1 idx0) 1
  if sizeToInt len < 2 then (fin 0, fin 0)
  else fitWindow m spp goodVals idx0 idx1 len

/-- The function `CurvePredictor::calcCurves`; `spp` is the array of sample counts. -/
def calcCurves (m : Libm α) (vars : List (List (Fl α))) (spp : List Int)
    (useLastTwoPoint : Bool) : List (CurveParam α) :=
  let size0 := (vars.headD []).length
  if vars.length < 2 then List.replicate size0 (fin 0, fin 0)
  else (List.range size0).map (curveOf m vars spp useLastTwoPoint)

/-- The lambda of `ImageLoader::mse` and `ImageLoader::mseVector`: both samples are
replaced by zero when they are not normal, then the squared difference is taken. -/
def sqDiff (a b : Fl α) : Fl α :=
  let a1 := if isnormal a then a else fin 0
  let b1 := if isnormal b then b else fin 0
  (a1 - b1) * (a1 - b1)

/-- The function `ImageLoader::avg`. -/
def avg (img : List (Fl α)) : Fl α :=
  let s := img.foldl (fun s val => s + (if isnormal val then val else fin 0)) (fin 0)
  s / ofNat img.length

/-- The function `ImageLoader::mse`. -/
def mse (img1 img2 : List (Fl α)) : Fl α :=
  let len := min img1.length img2.length
  let aux := List.zipWith sqDiff (img1.take len) img2
  avg aux

/-- The function `ImageLoader::mseVector`. -/
def mseVector (img1 img2 : List (Fl α)) : List (Fl α) :=
  let len := min img1.length img2.length
  List.zipWith sqDiff (img1.take len) img2

/-- The vector `b` of `_jacobian`, of `n` entries: the draw `nrm i` of the standard
normal distribution for the index `i`, times the square root of the variance, the
variance replaced by zero when it is not normal. -/
def probe (m : Libm α) (nrm : Nat → Fl α) (var : List (Fl α)) (n : Nat) : List (Fl α) :=
  (List.range n).map fun i =>
    let v := if isnormal (var.getD i (fin 0)) then var.getD i (fin 0) else fin 0
    nrm i * m.sqrt v

/-- The vector `z` of `_jacobian`: a copy of `noisy` whose first `n` entries are
perturbed by `e * b`. -/
def perturbed (noisy b : List (Fl α)) (e : Fl α) (n : Nat) : List (Fl α) :=
  (List.range noisy.length).map fun i =>
    if i < n then noisy.getD i (fin 0) + e * b.getD i (fin 0) else noisy.getD i (fin 0)

/-- The function `CurvePredictor::_jacobian`.  The call `ImageDenoiser::run` is the
parameter `run`, which returns the buffer `fz` or fails (`none`); the random draws are
the parameter `nrm`. -/
def jacobian (m : Libm α) (run : List (Fl α) → Option (List (Fl α))) (nrm : Nat → Fl α)
    (denoised noisy var : List (Fl α)) (e : Fl α) : List (Fl α) :=
  let fy := denoised
  let b := probe m nrm var denoised.length
  let z := perturbed noisy b e denoised.length
  match run z with
  | none => []
  | some fz =>
    (List.range fy.length).map fun i =>
      b.getD i (fin 0) / e * (fz.getD i (fin 0) - fy.getD i (fin 0))

/-- The function `CurvePredictor::sure`, with `tries = 1` and `e = 1`. -/
def sure (m : Libm α) (run : List (Fl α) → Option (List (Fl α))) (nrm : Nat → Fl α)
    (denoised noisy var : List (Fl α)) : List (Fl α) :=
  let tries : Int := 1
  let e : Fl α := fin 1
  let jacob0 := jacobian m run nrm denoised noisy var e
  let jacob := (List.range denoised.length).map fun i => fin 0 + jacob0.getD i (fin 0)
  let mse := mseVector denoised noisy
  (List.range jacob.length).map fun i =>
    let j := fin 2 * jacob.getD i (fin 0) / ofInt tries
    let v := if isnormal (var.getD i (fin 0)) then var.getD i (fin 0) else fin 0
    mse.getD i (fin 0) - v + j

/-- The risk handed to `calcMinWeight` and `denoisedWeight` by `main` (steps 11 and
11a) for the entry `s` of the filtered risk buffer: `avgSure` and `avgVar` are the
means of the risk buffer `sure` and of the variance buffer `var` of the checkpoint. -/
def handedRisk (sure var : List (Fl α)) (s : Fl α) : Fl α :=
  let avgSure := avg sure
  let avgVar := avg var
  let s1 := if isnormal s then s else fin 0
  if lt avgSure avgVar then (if lt s1 (fin 0) then fin 0 else s1)
  else abs s1

/-- The sanitisation of the specification: a sample that is not normal counts as
zero. -/
def sanitize (v : Fl α) : Fl α := if isnormal v then v else fin 0

/-- The number a sample counts for once it is sanitised. -/
def sanVal : Fl α → α
  | fin x => if fltMin ≤ |x| then x else 0
  | _ => 0

/-- The slope of the least-squares line through the points `(f k, g k)`, `k < n`. -/
def olsSlope (f g : Nat → α) (n : Nat) : α :=
  ((n : α) * (∑ k in Finset.range n, f k * g k)
      - (∑ k in Finset.range n, f k) * (∑ k in Finset.range n, g k))
    / ((n : α) * (∑ k in Finset.range n, f k * f k)
      - (∑ k in Finset.range n, f k) * (∑ k in Finset.range n, f k))

/-- The intercept of the least-squares line through the points `(f k, g k)`, `k < n`. -/
def olsIntercept (f g : Nat → α) (n : Nat) : α :=
  (∑ k in Finset.range n, g k) / (n : α)
    - olsSlope f g n * ((∑ k in Finset.range n, f k) / (n : α))

variable [FloorRing α]

/-- The function `CurvePredictor::denoisedWeight`.  The literals of the two tests are the
single-precision numbers they denote: `1e-12f` is `2305843 / 2 ^ 61` and `1e-6f` is
`8796093 / 2 ^ 43`, both below the decimal numbers, so a curve parameter equal to `1e-6f`
does not pass the test `< 1e-6f`. -/
def denoisedWeight (m : Libm α) (sure : Fl α) (outs : CurveParam α) (minWeight : Int) :
    Option Int :=
  let limit : Int := 65536
  if le sure (fin (2305843 / 2 ^ 61)) then some (min minWeight limit)
  else if lt outs.1 (fin (8796093 / 2 ^ 43)) && lt outs.2 (fin (8796093 / 2 ^ 43)) then
    some (min minWeight limit)
  else
    let sureLog := m.log sure
    let c : Fl α := fin 100
    let x := m.pow ((sureLog + c) / outs.1) (fin 1 / outs.2)
    if le (ofInt limit) x then some limit
    else toInt x

/-- The weight of the specification, for comparison with `denoisedWeight`: the power
value clamped to `[0, 65536]` and truncated to an integer (nothing is said for NaN). -/
def clampTrunc : Fl α → Option Int
  | nan => none
  | pinf => some 65536
  | ninf => some 0
  | fin r => some (trunc (max 0 (min r 65536)))

/-- The function `CurvePredictor::calcMinWeight`. -/
def calcMinWeight (m : Libm α) (v s i : Fl α) (spp : Int) : Option Int :=
  let e : Fl α := fin (1 / 10 ^ 7)
  if lt v e && lt i e then some 65536
  else
    let expN := m.pow (fin 10) (ofInt 20)
    let sqrtV := m.sqrt (v + e) / (expN / ofInt spp - fin 1)
    let expV := sqrtV * sqrtV
    let a := (m.log (v + e) - m.log expV) / (m.log (ofInt spp) - m.log expN)
    let b := m.log (v + e) - a * m.log (ofInt spp)
    let minWeight :=
      m.exp (m.log (ofInt spp) * (m.log (s + e) - b) / (m.log (v + e) - b))
    (toInt (round minWeight)).map (fun w => min w 65536)

/-- The body of the weight loop of `main` (step 11) for one pixel-channel: `s` and `v`
are the entries of the filtered risk and variance buffers, `px` the entry of the noisy
image, `spp` the sample count of the checkpoint and `curve` the fitted pair. -/
def weightOf (m : Libm α) (sure var : List (Fl α)) (s v px : Fl α) (spp : Int)
    (curve : CurveParam α) : Option Int :=
  let s1 := handedRisk sure var s
  let v1 := if isnormal v then v else fin 0
  (calcMinWeight m v1 s1 px spp).bind fun minWgh => denoisedWeight m s1 curve minWgh

end Code

/-! ## Single precision -/

section Single

variable {α : Type} [LinearOrderedField α] [FloorRing α]

/-- Rounding to the nearest integer, a tie going to the even integer. -/
def roundEven (t : α) : Int :=
  if t - ⌊t⌋ < 1 / 2 then ⌊t⌋
  else if 1 / 2 < t - ⌊t⌋ then ⌊t⌋ + 1
  else if ⌊t⌋ % 2 = 0 then ⌊t⌋ else ⌊t⌋ + 1

/-- The binary exponent of the single-precision binade of a number: the exponent of
the number itself, and `-126` in the subnormal range. -/
def expo32 (x : α) : Int := max (Int.log 2 |x|) (-126)

/-- The single-precision number nearest to `x`, with an unbounded exponent range
upwards: a multiple of `2 ^ (expo32 x - 23)`. -/
def rndVal (x : α) : α :=
  (roundEven (x / 2 ^ (expo32 x - 23)) : α) * 2 ^ (expo32 x - 23)

/-- Rounding of a number to single precision (round to nearest, ties to even): an
infinity when the rounded value reaches `2 ^ 128`. -/
def rnd (x : α) : Fl α :=
  if 2 ^ 128 ≤ |rndVal x| then (if 0 < x then pinf else ninf) else fin (rndVal x)

/-- Rounding of the exact result of a float operation: the special values are kept. -/
def r32 : Fl α → Fl α
  | fin x => rnd x
  | v => v

/-- The conversion `float(n)` of an `int` in single precision. -/
def ofInt32 (n : Int) : Fl α := rnd (n : α)

/-- The sum of two `int` values in 32-bit two's complement.  An overflow is undefined in
the source; the wrapped value is what the machine addition leaves. -/
def intAdd (a b : Int) : Int := (a + b + 2 ^ 31) % 2 ^ 32 - 2 ^ 31

/-- The function `CurvePredictor::blend` in single precision: the three passes of
`blend`, every product, sum and quotient rounded, the weights converted to `float`
and the divisor `w1 + w2[i]` added as `int`. -/
def blend32 (img1 img2 : List (Fl α)) (w1 : Int) (w2 : List Int) : List (Fl α) :=
  let len := min img1.length img2.length
  let blended1 := List.zipWith (fun a b => r32 (a * ofInt32 b)) (img2.take len) w2
  let blended2 := List.zipWith (fun a b => r32 (r32 (a * ofInt32 w1) + b))
    (img1.take len) blended1
  List.zipWith (fun a b => r32 (b / ofInt32 (intAdd w1 a))) (w2.take len) blended2

/-- A math library whose results are rounded to single precision. -/
def Libm.round32 (m : Libm α) : Libm α where
  log := fun v => r32 (m.log v)
  exp := fun v => r32 (m.exp v)
  sqrt := fun v => r32 (m.sqrt v)
  pow := fun a b => r32 (m.pow a b)

/-- The function `CurvePredictor::calcMinWeight` in single precision: every sum,
difference, product and quotient is rounded, `spp` is converted to `float`, and the
literal `1e-7f` is the single-precision number `14073749 / 2 ^ 47`. -/
def calcMinWeight32 (m : Libm α) (v s i : Fl α) (spp : Int) : Option Int :=
  let e : Fl α := fin (14073749 / 2 ^ 47)
  if lt v e && lt i e then some 65536
  else
    let expN := m.pow (fin 10) (ofInt32 20)
    let sqrtV := r32 (m.sqrt (r32 (v + e)) / r32 (r32 (expN / ofInt32 spp) - fin 1))
    let expV := r32 (sqrtV * sqrtV)
    let a := r32 (r32 (m.log (r32 (v + e)) - m.log expV)
      / r32 (m.log (ofInt32 spp) - m.log expN))
    let b := r32 (m.log (r32 (v + e)) - r32 (a * m.log (ofInt32 spp)))
    let minWeight :=
      m.exp (r32 (r32 (m.log (ofInt32 spp) * r32 (m.log (r32 (s + e)) - b))
        / r32 (m.log (r32 (v + e)) - b)))
    (toInt (round minWeight)).map (fun w => min w 65536)

end Single

section SingleWeight

variable {α : Type} [LinearOrderedField α] [FloorRing α]

/-- The function `CurvePredictor::denoisedWeight` in single precision: the sum and the
two quotients are rounded, the limit is converted to `float` for the comparison, and the
literals `1e-12f` and `1e-6f` are the single-precision numbers `2305843 / 2 ^ 61` and
`8796093 / 2 ^ 43`. -/
def denoisedWeight32 (m : Libm α) (sure : Fl α) (outs : CurveParam α) (minWeight : Int) :
    Option Int :=
  let limit : Int := 65536
  if le sure (fin (2305843 / 2 ^ 61)) then some (min minWeight limit)
  else if lt outs.1 (fin (8796093 / 2 ^ 43)) && lt outs.2 (fin (8796093 / 2 ^ 43)) then
    some (min minWeight limit)
  else
    let sureLog := m.log sure
    let c : Fl α := fin 100
    let x := m.pow (r32 (r32 (sureLog + c) / outs.1)) (r32 (fin 1 / outs.2))
    if le (ofInt32 limit) x then some limit
    else toInt x

end SingleWeight

/-! ## Arithmetic of the float model -/

namespace Fl

variable {α : Type} [LinearOrderedField α]

@[simp] theorem fin_add_fin (x y : α) : (fin x + fin y : Fl α) = fin (x + y) := rfl

@[simp] theorem fin_sub_fin (x y : α) : (fin x - fin y : Fl α) = fin (x - y) := by
  show add (fin x) (neg (fin y)) = fin (x - y)
  simp [add, neg, sub_eq_add_neg]

@[simp] theorem fin_mul_fin (x y : α) : (fin x * fin y : Fl α) = fin (x * y) := rfl

theorem fin_div_fin (x y : α) :
    (fin x / fin y : Fl α) =
      if y = 0 then (if x = 0 then nan else if 0 < x then pinf else ninf)
      else fin (x / y) := rfl

@[simp] theorem fin_div_fin_of_ne (x : α) {y : α} (hy : y ≠ 0) :
    (fin x / fin y : Fl α) = fin (x / y) := by
  rw [fin_div_fin, if_neg hy]

@[simp] theorem lt_fin_fin (x y : α) : lt (fin x) (fin y) = decide (x < y) := rfl

@[simp] theorem le_fin_fin (x y : α) : le (fin x) (fin y) = decide (x ≤ y) := rfl

@[simp] theorem nan_add (a : Fl α) : (nan + a : Fl α) = nan := by
  cases a <;> rfl

@[simp] theorem add_nan (a : Fl α) : (a + nan : Fl α) = nan := by
  cases a <;> rfl

@[simp] theorem nan_mul (a : Fl α) : (nan * a : Fl α) = nan := by
  cases a <;> rfl

@[simp] theorem mul_nan (a : Fl α) : (a * nan : Fl α) = nan := by
  cases a <;> rfl

@[simp] theorem nan_div (a : Fl α) : (nan / a : Fl α) = nan := by
  cases a <;> rfl

@[simp] theorem div_nan (a : Fl α) : (a / nan : Fl α) = nan := by
  cases a <;> rfl

@[simp] theorem lt_nan_left (a : Fl α) : lt nan a = false := by
  cases a <;> rfl

@[simp] theorem lt_nan_right (a : Fl α) : lt a nan = false := by
  cases a <;> rfl

@[simp] theorem le_nan_left (a : Fl α) : le nan a = false := by
  cases a <;> rfl

@[simp] theorem le_nan_right (a : Fl α) : le a nan = false := by
  cases a <;> rfl

@[simp] theorem ofInt_eq (n : Int) : (ofInt n : Fl α) = fin (n : α) := rfl

@[simp] theorem ofNat_eq (n : Nat) : (ofNat n : Fl α) = fin (n : α) := rfl

/-- The quotient `1.0f / b` for a finite `b`. -/
theorem one_div_fin (b : α) :
    (fin 1 / fin b : Fl α) = if b = 0 then pinf else fin (1 / b) := by
  rw [fin_div_fin]
  split
  · simp
  · rfl

/-- A float below the literal `1e-6f` is below `10 ^ (-6)`. -/
theorem lt_decimal_of_lt_literal (a : Fl α) (h : lt a (fin (8796093 / 2 ^ 43)) = true) :
    lt a (fin (1 / 10 ^ 6)) = true := by
  cases a with
  | nan => simp at h
  | pinf => simp [lt] at h
  | ninf => rfl
  | fin x =>
    simp only [lt_fin_fin, decide_eq_true_eq] at h ⊢
    exact lt_trans h (by norm_num)

/-- A float above `10 ^ (-12)` is not at most the literal `1e-12f`. -/
theorem le_literal_eq_false_of_lt (a : Fl α) (h : lt (fin (1 / 10 ^ 12)) a = true) :
    le a (fin (2305843 / 2 ^ 61)) = false := by
  cases a with
  | nan => simp at h
  | pinf => rfl
  | ninf => simp [lt] at h
  | fin x =>
    simp only [lt_fin_fin, decide_eq_true_eq] at h
    have hx : (2305843 : α) / 2 ^ 61 < x := lt_trans (by norm_num) h
    simpa using hx

/-- A float that compares below another one is not above it. -/
theorem le_eq_false_of_lt {a b : Fl α} (h : lt a b = true) : le b a = false := by
  cases a <;> cases b <;> simp_all [lt, le]

end Fl

/-! ## Blend compositor -/

section Blend

variable {α : Type} [LinearOrderedField α]

/-- The output of `blend` has the length of the shorter image. -/
theorem blend_length (img1 img2 : List (Fl α)) (w1 : Int) (w2 : List Int)
    (hw : min img1.length img2.length ≤ w2.length) :
    (blend img1 img2 w1 w2).length = min img1.length img2.length := by
  simp only [blend, List.length_zipWith, List.length_take]
  omega

/-- Entry `i` of the output of `blend`. -/
theorem blend_getElem? (img1 img2 : List (Fl α)) (w1 : Int) (w2 : List Int)
    (hw : min img1.length img2.length ≤ w2.length) (i : Nat)
    (hi : i < min img1.length img2.length) :
    (blend img1 img2 w1 w2)[i]? =
      some ((img1.getD i (fin 0) * ofInt w1 + img2.getD i (fin 0) * ofInt (w2.getD i 0))
        / ofInt (w1 + w2.getD i 0)) := by
  have h1 : i < img1.length := by omega
  have h2 : i < img2.length := by omega
  have h3 : i < w2.length := by omega
  simp only [blend, List.getElem?_zipWith, List.getElem?_take, hi, if_true]
  simp [List.getD, List.getElem?_eq_getElem, h1, h2, h3]

/-- The blend of one pixel-channel with weight 0 and a finite denoised sample. -/
theorem blend_entry_zero (a : Fl α) (y : α) (w1 : Int) (h : 0 < w1) :
    (a * ofInt w1 + fin y * ofInt 0) / ofInt (w1 + 0) = a := by
  have hpos : (0 : α) < (w1 : α) := by exact_mod_cast h
  have hne : (w1 : α) ≠ 0 := ne_of_gt hpos
  cases a with
  | nan => simp
  | pinf =>
    show div (add (mul pinf (fin _)) (mul (fin y) (fin _))) (fin _) = pinf
    simp [mul, add, div, infTimes, hpos, hne, le_of_lt hpos]
  | ninf =>
    show div (add (mul ninf (fin _)) (mul (fin y) (fin _))) (fin _) = ninf
    simp [mul, add, div, infTimes, hpos, hne, le_of_lt hpos, not_lt_of_gt hpos]
  | fin x =>
    simp [hne]

/-- Claim C2: `blend` equals its reference definition.  When the weight vector has at
least as many entries as the shorter image, the output has the length of the shorter
image and its entry `i` is
`(noisy_i * noisySampleCount + denoised_i * weights_i) / (noisySampleCount + weights_i)`. -/
theorem blend_reference (img1 img2 : List (Fl α)) (w1 : Int) (w2 : List Int)
    (hw : min img1.length img2.length ≤ w2.length) :
    (blend img1 img2 w1 w2).length = min img1.length img2.length ∧
    ∀ i, i < min img1.length img2.length →
      (blend img1 img2 w1 w2)[i]? =
        some ((img1.getD i (fin 0) * ofInt w1 + img2.getD i (fin 0) * ofInt (w2.getD i 0))
          / ofInt (w1 + w2.getD i 0)) :=
  ⟨blend_length img1 img2 w1 w2 hw, fun i hi => blend_getElem? img1 img2 w1 w2 hw i hi⟩

/-- Witness of C2: a noisy buffer of three samples, a denoised buffer of two and three
weights. -/
theorem blend_reference_witness :
    min [fin (1 : ℚ), fin 2, fin 7].length [fin (3 : ℚ), fin 5].length ≤ [0, 1, 4].length ∧
    ((blend [fin (1 : ℚ), fin 2, fin 7] [fin 3, fin 5] 3 [0, 1, 4]).length =
        min [fin (1 : ℚ), fin 2, fin 7].length [fin (3 : ℚ), fin 5].length ∧
      ∀ i, i < min [fin (1 : ℚ), fin 2, fin 7].length [fin (3 : ℚ), fin 5].length →
        (blend [fin (1 : ℚ), fin 2, fin 7] [fin 3, fin 5] 3 [0, 1, 4])[i]? =
          some (([fin (1 : ℚ), fin 2, fin 7].getD i (fin 0) * ofInt 3
              + [fin (3 : ℚ), fin 5].getD i (fin 0) * ofInt ([0, 1, 4].getD i 0))
            / ofInt (3 + [0, 1, 4].getD i 0))) :=
  ⟨by decide, blend_reference [fin 1, fin 2, fin 7] [fin 3, fin 5] 3 [0, 1, 4] (by decide)⟩

/-- In exact arithmetic already, `blend` does not sanitise: with an infinite denoised
sample the product `inf * 0` is NaN, so the all-zero weight vector does not give back
the noisy buffer. -/
theorem blend_zero_weights_counterexample :
    blend [fin (1 : ℚ)] [pinf] 1 [0] = [nan] ∧ blend [fin (1 : ℚ)] [pinf] 1 [0] ≠ [fin 1] := by
  constructor <;> decide

/-- In exact arithmetic (no rounding): for equal-length buffers whose denoised samples
are all finite, a positive `noisySampleCount` and a weight vector that is zero at every
index, `blend` returns the noisy buffer, entry by entry. -/
theorem blend_zero_weights_finite (img1 img2 : List (Fl α)) (w1 : Int) (w2 : List Int)
    (hlen : img1.length = img2.length) (hw1 : 0 < w1) (hw2 : img1.length ≤ w2.length)
    (hz : ∀ w ∈ w2, w = 0) (hfin : ∀ d ∈ img2, isFinite d = true) :
    blend img1 img2 w1 w2 = img1 := by
  have hmin : min img1.length img2.length = img1.length := by omega
  apply List.ext_getElem?
  intro i
  by_cases hi : i < img1.length
  · rw [blend_getElem? img1 img2 w1 w2 (by omega) i (by omega)]
    have h2 : i < img2.length := by omega
    have h3 : i < w2.length := by omega
    have hw : w2.getD i 0 = 0 := by
      rw [List.getD_eq_getElem _ _ h3]
      exact hz _ (List.getElem_mem _)
    have hd : ∃ y, img2.getD i (fin 0) = fin y := by
      rw [List.getD_eq_getElem _ _ h2]
      have := hfin _ (List.getElem_mem h2)
      cases hv : img2[i] with
      | fin y => exact ⟨y, rfl⟩
      | nan => rw [hv] at this; simp [isFinite] at this
      | pinf => rw [hv] at this; simp [isFinite] at this
      | ninf => rw [hv] at this; simp [isFinite] at this
    obtain ⟨y, hy⟩ := hd
    rw [hw, hy, blend_entry_zero _ _ _ hw1, List.getD_eq_getElem _ _ hi,
      List.getElem?_eq_getElem hi]
  · have hlenb := blend_length img1 img2 w1 w2 (by omega)
    rw [List.getElem?_eq_none (by omega), List.getElem?_eq_none (by omega)]

/-- Example in exact arithmetic: two pixels, one of them with an infinite noisy sample. -/
theorem blend_zero_weights_finite_witness :
    blend [fin (1 : ℚ), pinf] [fin 3, fin 5] 2 [0, 0] = [fin 1, pinf] :=
  blend_zero_weights_finite [fin 1, pinf] [fin 3, fin 5] 2 [0, 0] (by decide) (by decide)
    (by decide) (by decide) (by decide)

/-- The distance to the denoised value of a blended finite pixel. -/
theorem blend_value_sub (n d : α) (w1 w : Int) (hw1 : 0 < w1) (hw : 0 ≤ w) :
    (n * (w1 : α) + d * (w : α)) / ((w1 + w : Int) : α) - d
      = (n - d) * (w1 : α) / ((w1 : α) + (w : α)) := by
  have h1 : (0 : α) < (w1 : α) := by exact_mod_cast hw1
  have h2 : (0 : α) ≤ (w : α) := by exact_mod_cast hw
  have h3 : (w1 : α) + (w : α) ≠ 0 := by positivity
  push_cast
  field_simp
  ring

/-- The distance to the denoised value does not grow with the weight. -/
theorem blend_converges_entry (n d : α) (w1 w w' : Int) (hw1 : 0 < w1) (hw : 0 ≤ w)
    (hle : w ≤ w') :
    |(n * (w1 : α) + d * (w' : α)) / ((w1 + w' : Int) : α) - d|
      ≤ |(n * (w1 : α) + d * (w : α)) / ((w1 + w : Int) : α) - d| := by
  have h1 : (0 : α) < (w1 : α) := by exact_mod_cast hw1
  have h2 : (0 : α) ≤ (w : α) := by exact_mod_cast hw
  have h3 : (w : α) ≤ (w' : α) := by exact_mod_cast hle
  rw [blend_value_sub n d w1 w hw1 hw, blend_value_sub n d w1 w' hw1 (le_trans hw hle)]
  rw [abs_div, abs_div, abs_of_pos (by positivity : (0 : α) < (w1 : α) + (w : α)),
    abs_of_pos (by linarith : (0 : α) < (w1 : α) + (w' : α))]
  apply div_le_div_of_nonneg_left (abs_nonneg _) (by positivity) (by linarith)

/-- In exact arithmetic already: with an infinite denoised sample the blend at
weight 0 is NaN and the blend at weight 1 is infinite, and the comparison of the two
distances to the denoised sample, both NaN, is false. -/
theorem blend_converges_counterexample :
    (blend [fin (0 : ℚ)] [pinf] 1 [0])[0]? = some nan ∧
    (blend [fin (0 : ℚ)] [pinf] 1 [1])[0]? = some pinf ∧
    le (abs (pinf - pinf : Fl ℚ)) (abs (nan - pinf : Fl ℚ)) = false := by
  refine ⟨by decide, by decide, by decide⟩

/-- In exact arithmetic (no rounding, `int` sums without overflow): for a pixel-channel
`i` whose noisy and denoised samples are finite numbers `n` and `d`, a positive
`noisySampleCount` and two weight vectors with `0 ≤ w_i ≤ w_i'`, both blends are finite
at `i` and the one with the larger weight is at least as close to `d`. -/
theorem blend_converges (img1 img2 : List (Fl α)) (w1 : Int) (w2 w2' : List Int) (i : Nat)
    (n d : α) (hi : i < min img1.length img2.length)
    (hl : min img1.length img2.length ≤ w2.length)
    (hl' : min img1.length img2.length ≤ w2'.length)
    (hn : img1.getD i (fin 0) = fin n) (hd : img2.getD i (fin 0) = fin d)
    (hw1 : 0 < w1) (hw : 0 ≤ w2.getD i 0) (hle : w2.getD i 0 ≤ w2'.getD i 0) :
    ∃ r r' : α, (blend img1 img2 w1 w2)[i]? = some (fin r) ∧
      (blend img1 img2 w1 w2')[i]? = some (fin r') ∧ |r' - d| ≤ |r - d| := by
  have hne : ∀ w : Int, 0 ≤ w → ((w1 + w : Int) : α) ≠ 0 := by
    intro w hw0
    have : (0 : Int) < w1 + w := by omega
    exact_mod_cast ne_of_gt this
  refine ⟨_, _, ?_, ?_, blend_converges_entry n d w1 _ _ hw1 hw hle⟩
  · rw [blend_getElem? img1 img2 w1 w2 hl i hi, hn, hd]
    simp only [ofInt_eq, fin_mul_fin, fin_add_fin]
    rw [fin_div_fin_of_ne _ (hne _ hw)]
  · rw [blend_getElem? img1 img2 w1 w2' hl' i hi, hn, hd]
    simp only [ofInt_eq, fin_mul_fin, fin_add_fin]
    rw [fin_div_fin_of_ne _ (hne _ (le_trans hw hle))]

/-- Example in exact arithmetic: noisy sample 1, denoised sample 3, sample count 4,
weights 2 and 65536. -/
theorem blend_converges_witness :
    ∃ r r' : ℚ, (blend [fin (1 : ℚ)] [fin 3] 4 [2])[0]? = some (fin r) ∧
      (blend [fin (1 : ℚ)] [fin 3] 4 [65536])[0]? = some (fin r') ∧ |r' - 3| ≤ |r - 3| :=
  blend_converges [fin 1] [fin 3] 4 [2] [65536] 0 1 3 (by decide) (by decide) (by decide)
    rfl rfl (by decide) (by decide) (by decide)

end Blend

/-! ## Weight policy -/

section Weight

variable {α : Type} [LinearOrderedField α] [FloorRing α]

/-- Truncation of a non-negative number is its floor. -/
theorem trunc_of_nonneg {x : α} (h : 0 ≤ x) : trunc x = ⌊x⌋ := by
  simp [trunc, h]

/-- Truncation of an integer. -/
theorem trunc_intCast (n : Int) : trunc (n : α) = n := by
  unfold trunc
  split <;> simp

/-- The conversion to `int` of an integer in the 32-bit range. -/
theorem toInt_intCast (n : Int) (h1 : -2147483648 ≤ n) (h2 : n ≤ 2147483647) :
    toInt (fin (n : α)) = some n := by
  simp [toInt, trunc_intCast, h1, h2]

/-- The two fallback tests of `denoisedWeight` return the capped minimum weight. -/
theorem denoisedWeight_of_fallback (m : Libm α) (sure : Fl α) (outs : CurveParam α)
    (minWeight : Int)
    (h : le sure (fin (2305843 / 2 ^ 61)) = true ∨
      (lt outs.1 (fin (8796093 / 2 ^ 43)) = true ∧
        lt outs.2 (fin (8796093 / 2 ^ 43)) = true)) :
    denoisedWeight m sure outs minWeight = some (min minWeight 65536) := by
  simp only [denoisedWeight]
  rcases h with h | ⟨ha, hb⟩
  · rw [if_pos h]
  · by_cases hs : le sure (fin (2305843 / 2 ^ 61)) = true
    · rw [if_pos hs]
    · rw [if_neg hs, ha, hb]
      rfl

/-- Outside the fallback tests `denoisedWeight` caps the power value at 65536 and
converts it to `int` otherwise. -/
theorem denoisedWeight_of_not_fallback (m : Libm α) (sure : Fl α) (outs : CurveParam α)
    (minWeight : Int) (hs : le sure (fin (2305843 / 2 ^ 61)) = false)
    (hc : ¬ (lt outs.1 (fin (8796093 / 2 ^ 43)) = true ∧
      lt outs.2 (fin (8796093 / 2 ^ 43)) = true)) :
    denoisedWeight m sure outs minWeight =
      if le (fin 65536) (m.pow ((m.log sure + fin 100) / outs.1) (fin 1 / outs.2)) = true
      then some 65536
      else toInt (m.pow ((m.log sure + fin 100) / outs.1) (fin 1 / outs.2)) := by
  simp only [denoisedWeight]
  rw [hs]
  have hc' : (lt outs.1 (fin (8796093 / 2 ^ 43)) && lt outs.2 (fin (8796093 / 2 ^ 43)))
      = false := by
    cases h1 : lt outs.1 (fin (8796093 / 2 ^ 43)) <;>
      cases h2 : lt outs.2 (fin (8796093 / 2 ^ 43)) <;>
      simp_all
  rw [hc']
  simp

/-- Capping a non-negative float at 65536 and converting it gives a weight in range. -/
theorem cap_toInt_range (x : Fl α) (hx : le (fin 0) x = true) :
    ∃ w : Int, (if le (fin 65536) x = true then some 65536 else toInt x) = some w ∧
      0 ≤ w ∧ w ≤ 65536 := by
  cases x with
  | nan => simp at hx
  | ninf => simp [le] at hx
  | pinf => exact ⟨65536, by simp [le], by decide, by decide⟩
  | fin r =>
    have h0 : 0 ≤ r := by simpa using hx
    by_cases hr : (65536 : α) ≤ r
    · exact ⟨65536, by simp [hr], by decide, by decide⟩
    · have hlt : r < 65536 := not_le.mp hr
      have hf0 : 0 ≤ ⌊r⌋ := Int.floor_nonneg.mpr h0
      have hf1 : ⌊r⌋ < 65536 := by
        rw [Int.floor_lt]
        exact_mod_cast hlt
      refine ⟨⌊r⌋, ?_, hf0, by omega⟩
      have h1 : (-2147483648 : Int) ≤ ⌊r⌋ := by omega
      have h2 : ⌊r⌋ ≤ 2147483647 := by omega
      simp [hr, toInt, trunc_of_nonneg h0, h1, h2]

/-- A power with a positive finite base and an exponent that is not NaN is a
non-negative number or plus infinity. -/
theorem idealPow_nonneg_of_pos (pw : α → α → α) (hpw : ∀ x y, 0 < x → 0 ≤ pw x y)
    (p : α) (hp : 0 < p) (e : Fl α) (he : e ≠ nan) :
    le (fin 0) (idealPow pw (fin p) e) = true := by
  unfold idealPow
  split_ifs with h1 h2
  · simp
  · simp
  · cases e with
    | nan => exact absurd rfl he
    | pinf =>
      simp only
      split_ifs <;> simp [le]
    | ninf =>
      simp only
      split_ifs <;> simp [le]
    | fin y =>
      simp only [if_neg (ne_of_gt hp), if_pos hp]
      simpa using hpw p y hp

/-- Plus infinity to a positive finite power is plus infinity. -/
theorem idealPow_pinf_of_pos (pw : α → α → α) (y : α) (hy : 0 < y) :
    idealPow pw pinf (fin y) = pinf := by
  unfold idealPow
  have h1 : (fin y : Fl α) ≠ fin 0 := by
    intro h
    injection h with h
    exact (ne_of_gt hy) h
  simp [h1, hy]

/-- With the math library in exact arithmetic, a logarithm above `-100` and a
non-negative first curve parameter, the power value of `denoisedWeight` outside the
fallback tests is a non-negative number or plus infinity. -/
theorem ideal_power_nonneg (lg ex sq : α → α) (pw : α → α → α)
    (hpw : ∀ x y, 0 < x → 0 ≤ pw x y) (risk a b : α) (hr : 0 < risk)
    (hlg : 0 < lg risk + 100) (ha : 0 ≤ a)
    (hc : ¬ (lt (fin a) (fin (8796093 / 2 ^ 43)) = true ∧
      lt (fin b) (fin (8796093 / 2 ^ 43)) = true)) :
    le (fin 0) ((Libm.ideal lg ex sq pw).pow
      (((Libm.ideal lg ex sq pw).log (fin risk) + fin 100) / fin a) (fin 1 / fin b)) = true := by
  have hlog : (Libm.ideal lg ex sq pw).log (fin risk) = fin (lg risk) := by
    simp [Libm.ideal, ne_of_gt hr, hr]
  have hpow : (Libm.ideal lg ex sq pw).pow = idealPow pw := rfl
  rw [hlog, hpow, fin_add_fin, one_div_fin]
  rcases eq_or_lt_of_le ha with ha0 | hapos
  · -- a = 0: the base is plus infinity and b is at least 1e-6
    have hb : 0 < b := by
      by_contra hb
      apply hc
      rw [← ha0]
      simp only [lt_fin_fin, decide_eq_true_eq]
      exact ⟨by positivity, lt_of_le_of_lt (not_lt.mp hb) (by positivity)⟩
    rw [← ha0, fin_div_fin, if_pos rfl, if_neg (ne_of_gt hlg), if_pos hlg,
      if_neg (ne_of_gt hb), idealPow_pinf_of_pos pw _ (by positivity)]
    rfl
  · rw [fin_div_fin_of_ne _ (ne_of_gt hapos)]
    apply idealPow_nonneg_of_pos pw hpw _ (div_pos hlg hapos)
    split <;> simp

/-- Capping a non-negative float at 65536 and converting it is the clamp to
`[0, 65536]` followed by the truncation. -/
theorem cap_toInt_eq_clampTrunc (x : Fl α) (hx : le (fin 0) x = true) :
    (if le (fin 65536) x = true then some 65536 else toInt x) = clampTrunc x := by
  cases x with
  | nan => simp at hx
  | ninf => simp [le] at hx
  | pinf => simp [le, clampTrunc]
  | fin r =>
    have h0 : 0 ≤ r := by simpa using hx
    by_cases hr : (65536 : α) ≤ r
    · have : trunc (65536 : α) = 65536 := by
        have := trunc_intCast (α := α) 65536
        simpa using this
      simp [hr, clampTrunc, min_eq_right hr, this]
    · have hlt : r < 65536 := not_le.mp hr
      have hf0 : 0 ≤ ⌊r⌋ := Int.floor_nonneg.mpr h0
      have hf1 : ⌊r⌋ < 65536 := by
        rw [Int.floor_lt]
        exact_mod_cast hlt
      have h1 : (-2147483648 : Int) ≤ ⌊r⌋ := by omega
      have h2 : ⌊r⌋ ≤ 2147483647 := by omega
      simp [hr, toInt, clampTrunc, trunc_of_nonneg h0, h1, h2, min_eq_left (le_of_lt hlt),
        max_eq_right h0]

/-- Claim C5: when the variance and the reference intensity are both below `1e-7`,
`calcMinWeight` returns 65536, for every risk and every sample count. -/
theorem calcMinWeight_converged (m : Libm α) (v s i : Fl α) (spp : Int)
    (hv : lt v (fin (1 / 10 ^ 7)) = true) (hi : lt i (fin (1 / 10 ^ 7)) = true) :
    calcMinWeight m v s i spp = some 65536 := by
  simp only [calcMinWeight, hv, hi]
  rfl

/-- Claim C6, amended: when the risk is at most the single-precision literal
`1e-12f = 2305843 / 2 ^ 61` of the code, or both curve parameters are below the
single-precision literal `1e-6f = 8796093 / 2 ^ 43` of the code (in particular for the
zero curve), `denoisedWeight` returns `min(minWeight, 65536)`, for every math library.
A single-precision risk is at most `1e-12f` exactly when it is at most `10 ^ (-12)`; a
curve parameter equal to `1e-6f` is below `10 ^ (-6)` and not below `1e-6f`. -/
theorem denoisedWeight_fallback (m : Libm α) (sure : Fl α) (outs : CurveParam α)
    (minWeight : Int)
    (h : le sure (fin (2305843 / 2 ^ 61)) = true ∨
      (lt outs.1 (fin (8796093 / 2 ^ 43)) = true ∧
        lt outs.2 (fin (8796093 / 2 ^ 43)) = true)) :
    denoisedWeight m sure outs minWeight = some (min minWeight 65536) := by
  simp only [denoisedWeight]
  rcases h with h | ⟨ha, hb⟩
  · rw [if_pos h]
  · cases hs : le sure (fin (2305843 / 2 ^ 61))
    · rw [ha, hb]
      rfl
    · rfl

/-- Claim C7, amended: for a risk above `1e-12` and a curve outside the fallback test,
`denoisedWeight` returns 65536 when the power value `((ln(risk) + 100) / a)^(1/b)` is
at least 65536 and its conversion to `int` otherwise; for a power value that is not
negative this is the clamp to `[0, 65536]` followed by the truncation (there is no
clamp from below); and the result is the same for every `minWeight`. -/
theorem denoisedWeight_power (m : Libm α) (sure : Fl α) (outs : CurveParam α)
    (minWeight minWeight' : Int) (hs : lt (fin (1 / 10 ^ 12)) sure = true)
    (hc : ¬ (lt outs.1 (fin (1 / 10 ^ 6)) = true ∧ lt outs.2 (fin (1 / 10 ^ 6)) = true)) :
    denoisedWeight m sure outs minWeight =
        (if le (fin 65536) (m.pow ((m.log sure + fin 100) / outs.1) (fin 1 / outs.2)) = true
          then some 65536
          else toInt (m.pow ((m.log sure + fin 100) / outs.1) (fin 1 / outs.2))) ∧
      (le (fin 0) (m.pow ((m.log sure + fin 100) / outs.1) (fin 1 / outs.2)) = true →
        denoisedWeight m sure outs minWeight =
          clampTrunc (m.pow ((m.log sure + fin 100) / outs.1) (fin 1 / outs.2))) ∧
      denoisedWeight m sure outs minWeight' = denoisedWeight m sure outs minWeight := by
  have hs' := le_literal_eq_false_of_lt _ hs
  have hc' : ¬ (lt outs.1 (fin (8796093 / 2 ^ 43)) = true ∧
      lt outs.2 (fin (8796093 / 2 ^ 43)) = true) :=
    fun h => hc ⟨lt_decimal_of_lt_literal _ h.1, lt_decimal_of_lt_literal _ h.2⟩
  have h1 := denoisedWeight_of_not_fallback m sure outs minWeight hs' hc'
  have h2 := denoisedWeight_of_not_fallback m sure outs minWeight' hs' hc'
  refine ⟨h1, fun hx => ?_, by rw [h1, h2]⟩
  rw [h1, cap_toInt_eq_clampTrunc _ hx]

end Weight

/-- The natural logarithm of a risk above `1e-12` is above `-100`. -/
theorem log_add_hundred_pos {r : ℝ} (hr : 1 / 10 ^ 12 < r) : 0 < Real.log r + 100 := by
  have hpos : 0 < r := lt_trans (by positivity) hr
  have h2 : (2 : ℝ) ≤ Real.exp 1 := by
    have := Real.add_one_le_exp (1 : ℝ)
    linarith
  have h100 : (2 : ℝ) ^ 100 ≤ Real.exp 100 := by
    have : Real.exp 100 = Real.exp 1 ^ 100 := by
      rw [← Real.exp_nat_mul]
      norm_num
    rw [this]
    exact pow_le_pow_left₀ (by norm_num) h2 100
  have hexp : Real.exp (-100) < r := by
    rw [Real.exp_neg]
    calc (Real.exp 100)⁻¹ ≤ ((2 : ℝ) ^ 100)⁻¹ := inv_anti₀ (by positivity) h100
      _ < 1 / 10 ^ 12 := by norm_num
      _ < r := hr
  have := (Real.lt_log_iff_exp_lt hpos).mpr hexp
  linarith

/-- Witness of C5: variance 0 and reference intensity 0 at 16 samples. -/
theorem calcMinWeight_converged_witness :
    calcMinWeight (Libm.ideal Real.log Real.exp Real.sqrt Real.rpow) (fin 0) (fin 1) (fin 0) 16 = some 65536 :=
  calcMinWeight_converged _ (fin 0) (fin 1) (fin 0) 16 (by norm_num) (by norm_num)

/-- Witness of C6: the zero curve with risk 1 and minimum weight 7. -/
theorem denoisedWeight_fallback_witness :
    denoisedWeight (Libm.ideal Real.log Real.exp Real.sqrt Real.rpow) (fin 1) (fin 0, fin 0) 7 = some (min 7 65536) :=
  denoisedWeight_fallback _ (fin 1) (fin 0, fin 0) 7 (Or.inr ⟨by norm_num, by norm_num⟩)

/-- Counterexample to C7 as stated: risk 1 and the curve `(-1, 1)`, which is outside
the fallback test.  The power value is `(-100)^1 = -100`; the code returns `-100`,
the clamp to `[0, 65536]` gives 0. -/
theorem denoisedWeight_power_counterexample :
    denoisedWeight (Libm.ideal Real.log Real.exp Real.sqrt Real.rpow)
      (fin 1) (fin (-1), fin 1) 0 = some (-100) ∧
    clampTrunc ((Libm.ideal Real.log Real.exp Real.sqrt Real.rpow).pow
      (((Libm.ideal Real.log Real.exp Real.sqrt Real.rpow).log (fin 1) + fin 100) / fin (-1))
      (fin 1 / fin 1)) = some 0 := by
  have h : (-100 : ℝ) = ((-100 : Int) : ℝ) := by norm_num
  constructor
  · norm_num [denoisedWeight, Libm.ideal, idealPow, isInt]
    rw [h, toInt_intCast _ (by decide) (by decide)]
  · norm_num [Libm.ideal, idealPow, isInt, clampTrunc, trunc]

/-- Witness of C7: risk 1 and the curve `(1, -1)`, with the minimum weights 3 and 8. -/
theorem denoisedWeight_power_witness :
    (lt (fin (1 / 10 ^ 12)) (fin (1 : ℝ)) = true ∧
      ¬ (lt (fin (1 : ℝ)) (fin (1 / 10 ^ 6)) = true ∧
        lt (fin (-1 : ℝ)) (fin (1 / 10 ^ 6)) = true)) ∧
    denoisedWeight (Libm.ideal Real.log Real.exp Real.sqrt Real.rpow) (fin 1) (fin 1, fin (-1)) 8 =
      denoisedWeight (Libm.ideal Real.log Real.exp Real.sqrt Real.rpow) (fin 1) (fin 1, fin (-1)) 3 :=
  ⟨⟨by norm_num, by norm_num⟩,
    (denoisedWeight_power _ (fin 1) (fin 1, fin (-1)) 3 8 (by norm_num) (by norm_num)).2.2⟩

/-- Counterexample to C1 as stated: risk 0, the zero curve and the minimum weight `-1`
give the weight `-1`; and risk 1 with the curve `(-1, 1)`, whose first parameter is
negative, gives the power value `(-100)^1` and the weight `-100`.  Both are below 0. -/
theorem denoisedWeight_range_counterexample :
    denoisedWeight (Libm.ideal Real.log Real.exp Real.sqrt Real.rpow)
      (fin 0) (fin 0, fin 0) (-1) = some (-1) ∧
    denoisedWeight (Libm.ideal Real.log Real.exp Real.sqrt Real.rpow)
      (fin 1) (fin (-1), fin 1) 0 = some (-100) := by
  have h : (-100 : ℝ) = ((-100 : Int) : ℝ) := by norm_num
  constructor
  · norm_num [denoisedWeight]
  · norm_num [denoisedWeight, Libm.ideal, idealPow, isInt]
    rw [h, toInt_intCast _ (by decide) (by decide)]

/-- A power with the base plus infinity and an exponent that is not NaN is a
non-negative number or plus infinity. -/
theorem idealPow_nonneg_of_pinf (pw : ℝ → ℝ → ℝ) (e : Fl ℝ) (he : e ≠ nan) :
    le (fin 0) (idealPow pw pinf e) = true := by
  cases e with
  | nan => exact absurd rfl he
  | pinf => simp [idealPow, le]
  | ninf => simp [idealPow, le]
  | fin y =>
    unfold idealPow
    split_ifs with h1 h2
    · simp
    · simp
    · simp only
      split_ifs <;> simp [le]

/-! ## Curve fitter -/

/-- The narrowed window length of `calcCurves` is the difference of the number of good
values and `idx0`, for fewer than `2 ^ 31` checkpoints. -/
theorem window_len (g idx0 : Nat) (hg : g < 2 ^ 31) (hi : idx0 < 2 ^ 31) :
    sizeToInt (sizeAdd (sizeSub (sizeSub g 1) idx0) 1) = (g : Int) - idx0 := by
  unfold sizeToInt sizeAdd sizeSub
  norm_num at hg hi ⊢
  split <;> omega

/-- Without wrap-around, `idx1` and `len` are the plain differences. -/
theorem window_idx (g idx0 : Nat) (hg : g < 2 ^ 31) (h : idx0 + 2 ≤ g) :
    sizeSub g 1 = g - 1 ∧ sizeAdd (sizeSub (sizeSub g 1) idx0) 1 = g - idx0 := by
  unfold sizeAdd sizeSub
  norm_num at hg ⊢
  omega

section Fitter

variable {α : Type} [LinearOrderedField α]

/-- The body of `calcCurves` for one pixel-channel, in terms of the result of the scan. -/
theorem curveOf_eq (m : Libm α) (vars : List (List (Fl α))) (spp : List Int) (flag : Bool)
    (i : Nat) (good : List (Fl α)) (idx0 : Nat)
    (hscan : scanGood flag (sanitized vars i) (vars.length - 1) [] 1 = (good, idx0))
    (hg : good.length < 2 ^ 31) (hi : idx0 < 2 ^ 31) :
    curveOf m vars spp flag i =
      if (good.length : Int) - idx0 < 2 then (fin 0, fin 0)
      else fitWindow m spp good idx0 (good.length - 1) (good.length - idx0) := by
  have hlen : (sanitized vars i).length = vars.length := by simp [sanitized]
  simp only [curveOf, hlen, hscan, window_len _ _ hg hi]
  split
  · rfl
  · next h =>
    have h2 : idx0 + 2 ≤ good.length := by omega
    have h3 := (window_idx _ _ hg h2).2
    rw [(window_idx _ _ hg h2).1] at h3 ⊢
    rw [h3]

/-- With two or more checkpoints, entry `i` of `calcCurves` is the fitted curve of the
pixel-channel `i`. -/
theorem calcCurves_getElem? (m : Libm α) (vars : List (List (Fl α))) (spp : List Int)
    (flag : Bool) (i : Nat) (hn : 2 ≤ vars.length) (hi : i < (vars.headD []).length) :
    (calcCurves m vars spp flag)[i]? = some (curveOf m vars spp flag i) := by
  simp only [calcCurves]
  rw [if_neg (by omega), List.getElem?_map, List.getElem?_range hi]
  rfl

/-- The result of `calcCurves` has one pair per entry of the first checkpoint. -/
theorem calcCurves_length (m : Libm α) (vars : List (List (Fl α))) (spp : List Int)
    (flag : Bool) : (calcCurves m vars spp flag).length = (vars.headD []).length := by
  simp only [calcCurves]
  split <;> simp

/-- The accumulation loop of `_leastSquares` over finite samples gives the four
sums. -/
theorem leastSquares_sums (x y : List (Fl α)) (f g : Nat → α) (k : Nat)
    (hx : ∀ i, i < k → x.getD i (fin 0) = fin (f i))
    (hy : ∀ i, i < k → y.getD i (fin 0) = fin (g i)) :
    (List.range k).foldl
      (fun (acc : Fl α × Fl α × Fl α × Fl α) i =>
        (acc.1 + x.getD i (fin 0), acc.2.1 + y.getD i (fin 0),
          acc.2.2.1 + x.getD i (fin 0) * y.getD i (fin 0),
          acc.2.2.2 + x.getD i (fin 0) * x.getD i (fin 0)))
      (fin 0, fin 0, fin 0, fin 0)
    = (fin (∑ i in Finset.range k, f i), fin (∑ i in Finset.range k, g i),
        fin (∑ i in Finset.range k, f i * g i), fin (∑ i in Finset.range k, f i * f i)) := by
  induction k with
  | zero => simp
  | succ k ih =>
    rw [List.range_succ, List.foldl_append,
      ih (fun i hi => hx i (by omega)) (fun i hi => hy i (by omega))]
    simp only [List.foldl_cons, List.foldl_nil, hx k (by omega), hy k (by omega), fin_add_fin,
      fin_mul_fin, Finset.sum_range_succ]

/-- The closed form of `_leastSquares` on finite samples with a non-zero
denominator. -/
theorem leastSquares_finite (x y : List (Fl α)) (f g : Nat → α)
    (hx : ∀ i, i < x.length → x.getD i (fin 0) = fin (f i))
    (hy : ∀ i, i < x.length → y.getD i (fin 0) = fin (g i))
    (hD : (x.length : α) * (∑ i in Finset.range x.length, f i * f i)
      - (∑ i in Finset.range x.length, f i) * (∑ i in Finset.range x.length, f i) ≠ 0) :
    leastSquares x y =
      (fin (((x.length : α) * (∑ i in Finset.range x.length, f i * g i)
          - (∑ i in Finset.range x.length, f i) * (∑ i in Finset.range x.length, g i))
        / ((x.length : α) * (∑ i in Finset.range x.length, f i * f i)
          - (∑ i in Finset.range x.length, f i) * (∑ i in Finset.range x.length, f i))),
       fin ((∑ i in Finset.range x.length, g i) / (x.length : α)
        - ((x.length : α) * (∑ i in Finset.range x.length, f i * g i)
          - (∑ i in Finset.range x.length, f i) * (∑ i in Finset.range x.length, g i))
        / ((x.length : α) * (∑ i in Finset.range x.length, f i * f i)
          - (∑ i in Finset.range x.length, f i) * (∑ i in Finset.range x.length, f i))
        * ((∑ i in Finset.range x.length, f i) / (x.length : α)))) := by
  have hn : (x.length : α) ≠ 0 := by
    intro h
    apply hD
    have h0 : x.length = 0 := by exact_mod_cast h
    simp [h0]
  simp only [leastSquares]
  rw [leastSquares_sums x y f g x.length hx hy]
  simp only [ofNat_eq, fin_mul_fin, fin_sub_fin, fin_div_fin_of_ne _ hn, fin_div_fin_of_ne _ hD]

/-- The denominator of `_leastSquares` is half the sum of the squared differences. -/
theorem sum_sq_diff (f : Nat → α) (n : Nat) :
    ∑ i in Finset.range n, ∑ j in Finset.range n, (f i - f j) ^ 2
      = 2 * ((n : α) * (∑ i in Finset.range n, f i * f i)
        - (∑ i in Finset.range n, f i) * (∑ i in Finset.range n, f i)) := by
  have hsq : ∑ j in Finset.range n, f j * f j = ∑ j in Finset.range n, f j ^ 2 :=
    Finset.sum_congr rfl (fun j _ => (pow_two (f j)).symm)
  have h : ∀ i, ∑ j in Finset.range n, (f i - f j) ^ 2
      = (n : α) * f i ^ 2 - 2 * f i * (∑ j in Finset.range n, f j)
        + ∑ j in Finset.range n, f j ^ 2 := by
    intro i
    simp only [sub_sq, Finset.sum_add_distrib, Finset.sum_sub_distrib, Finset.sum_const,
      Finset.card_range, nsmul_eq_mul, ← Finset.mul_sum]
  rw [hsq]
  simp only [h, Finset.sum_add_distrib, Finset.sum_sub_distrib, Finset.sum_const,
    Finset.card_range, nsmul_eq_mul, ← Finset.mul_sum, ← Finset.sum_mul]
  ring

/-- The denominator of `_leastSquares` is positive when two abscissas differ. -/
theorem leastSquares_denominator_pos (f : Nat → α) (n : Nat) (i j : Nat) (hi : i < n)
    (hj : j < n) (hij : f i ≠ f j) :
    0 < (n : α) * (∑ i in Finset.range n, f i * f i)
      - (∑ i in Finset.range n, f i) * (∑ i in Finset.range n, f i) := by
  have hpos : 0 < (f i - f j) ^ 2 := by
    have : f i - f j ≠ 0 := sub_ne_zero.mpr hij
    positivity
  have h1 : (f i - f j) ^ 2 ≤ ∑ j' in Finset.range n, (f i - f j') ^ 2 :=
    Finset.single_le_sum (f := fun j' => (f i - f j') ^ 2)
      (fun _ _ => sq_nonneg _) (Finset.mem_range.mpr hj)
  have h2 : ∑ j' in Finset.range n, (f i - f j') ^ 2
      ≤ ∑ i' in Finset.range n, ∑ j' in Finset.range n, (f i' - f j') ^ 2 :=
    Finset.single_le_sum (f := fun i' => ∑ j' in Finset.range n, (f i' - f j') ^ 2)
      (fun _ _ => Finset.sum_nonneg (fun _ _ => sq_nonneg _)) (Finset.mem_range.mpr hi)
  have h3 := sum_sq_diff f n
  linarith

/-- On samples that lie on the line `g = m * f + q`, with two different abscissas,
`_leastSquares` returns `(m, q)`. -/
theorem leastSquares_line (x y : List (Fl α)) (f : Nat → α) (m q : α)
    (hx : ∀ i, i < x.length → x.getD i (fin 0) = fin (f i))
    (hy : ∀ i, i < x.length → y.getD i (fin 0) = fin (m * f i + q))
    (i j : Nat) (hi : i < x.length) (hj : j < x.length) (hij : f i ≠ f j) :
    leastSquares x y = (fin m, fin q) := by
  have hD := leastSquares_denominator_pos f x.length i j hi hj hij
  have hn : (x.length : α) ≠ 0 := by
    have : 0 < x.length := by omega
    exact_mod_cast this.ne'
  rw [leastSquares_finite x y f (fun i => m * f i + q) hx hy (ne_of_gt hD)]
  have hg : ∑ i in Finset.range x.length, (m * f i + q)
      = m * (∑ i in Finset.range x.length, f i) + (x.length : α) * q := by
    simp [Finset.sum_add_distrib, Finset.mul_sum]
  have hfg : ∑ i in Finset.range x.length, f i * (m * f i + q)
      = m * (∑ i in Finset.range x.length, f i * f i)
        + q * (∑ i in Finset.range x.length, f i) := by
    simp only [mul_add, Finset.sum_add_distrib, Finset.mul_sum]
    congr 1
    · apply Finset.sum_congr rfl
      intro k _
      ring
    · apply Finset.sum_congr rfl
      intro k _
      ring
  rw [hg, hfg]
  have hslope : ((x.length : α) * (m * (∑ i in Finset.range x.length, f i * f i)
        + q * (∑ i in Finset.range x.length, f i))
      - (∑ i in Finset.range x.length, f i)
        * (m * (∑ i in Finset.range x.length, f i) + (x.length : α) * q))
      / ((x.length : α) * (∑ i in Finset.range x.length, f i * f i)
        - (∑ i in Finset.range x.length, f i) * (∑ i in Finset.range x.length, f i)) = m := by
    rw [div_eq_iff (ne_of_gt hD)]
    ring
  rw [hslope]
  congr 2
  field_simp

end Fitter

/-- The logarithm of the math library in exact arithmetic at a positive number. -/
theorem ideal_log_pos (lg ex sq : ℝ → ℝ) (pw : ℝ → ℝ → ℝ) (x : ℝ) (hx : 0 < x) :
    (Libm.ideal lg ex sq pw).log (fin x) = fin (lg x) := by
  simp [Libm.ideal, ne_of_gt hx, hx]

/-- The regression stage with the math library in exact arithmetic, on a window of
positive values and sample counts above 1: the vectors `x` and `y` are finite. -/
theorem fitWindow_ideal (spp : List Int) (good : List (Fl ℝ)) (idx0 idx1 len : Nat)
    (vf : Nat → ℝ) (hidx : idx0 + len ≤ idx1 + 1)
    (hs : ∀ t, t < len → 2 ≤ spp.getD (idx0 + t) 0)
    (hv : ∀ t, t < len → good.getD t (fin 0) = fin (vf t) ∧ 0 < vf t ∧
      0 < Real.log (vf t) + 100) :
    fitWindow (Libm.ideal Real.log Real.exp Real.sqrt Real.rpow) spp good idx0 idx1 len =
      ((Libm.ideal Real.log Real.exp Real.sqrt Real.rpow).exp
        (leastSquares
          ((List.range len).map fun t => fin (1 / Real.log (spp.getD (idx0 + t) 0 : ℝ)))
          ((List.range len).map fun t =>
            fin (Real.log (Real.log (vf t) + 100) / Real.log (spp.getD (idx0 + t) 0 : ℝ)))).1,
       (leastSquares
          ((List.range len).map fun t => fin (1 / Real.log (spp.getD (idx0 + t) 0 : ℝ)))
          ((List.range len).map fun t =>
            fin (Real.log (Real.log (vf t) + 100) / Real.log (spp.getD (idx0 + t) 0 : ℝ)))).2) := by
  have hA : ∀ t, t < len → (0 : ℝ) < Real.log (spp.getD (idx0 + t) 0 : ℝ) := by
    intro t ht
    apply Real.log_pos
    have := hs t ht
    have h2 : (2 : ℝ) ≤ (spp.getD (idx0 + t) 0 : ℝ) := by exact_mod_cast this
    linarith
  have hS : ∀ t, t < len → (0 : ℝ) < (spp.getD (idx0 + t) 0 : ℝ) := by
    intro t ht
    have := hs t ht
    have h2 : (2 : ℝ) ≤ (spp.getD (idx0 + t) 0 : ℝ) := by exact_mod_cast this
    linarith
  have hx : (List.range len).map (fun t =>
        if idx0 + t ≤ idx1 then
          (fin 1 / (Libm.ideal Real.log Real.exp Real.sqrt Real.rpow).log
            (ofInt (spp.getD (idx0 + t) 0)) : Fl ℝ)
        else fin 0)
      = (List.range len).map fun t => fin (1 / Real.log (spp.getD (idx0 + t) 0 : ℝ)) := by
    apply List.map_congr_left
    intro t ht
    have ht' : t < len := List.mem_range.mp ht
    rw [if_pos (by omega), ofInt_eq, ideal_log_pos _ _ _ _ _ (hS t ht'),
      fin_div_fin_of_ne _ (ne_of_gt (hA t ht'))]
  have hy : (List.range len).map (fun t =>
        if idx0 + t ≤ idx1 then
          ((Libm.ideal Real.log Real.exp Real.sqrt Real.rpow).log
            ((Libm.ideal Real.log Real.exp Real.sqrt Real.rpow).log (good.getD t (fin 0))
              + fin 100)
            / (Libm.ideal Real.log Real.exp Real.sqrt Real.rpow).log
              (ofInt (spp.getD (idx0 + t) 0)) : Fl ℝ)
        else fin 0)
      = (List.range len).map fun t =>
          fin (Real.log (Real.log (vf t) + 100) / Real.log (spp.getD (idx0 + t) 0 : ℝ)) := by
    apply List.map_congr_left
    intro t ht
    have ht' : t < len := List.mem_range.mp ht
    obtain ⟨h1, h2, h3⟩ := hv t ht'
    rw [if_pos (by omega), ofInt_eq, ideal_log_pos _ _ _ _ _ (hS t ht'), h1,
      ideal_log_pos _ _ _ _ _ h2, fin_add_fin, ideal_log_pos _ _ _ _ _ h3,
      fin_div_fin_of_ne _ (ne_of_gt (hA t ht'))]
  simp only [fitWindow]
  rw [hx, hy]

/-- Reading an entry of a vector of finite values. -/
theorem range_map_getD (h : Nat → ℝ) (len i : Nat) (hi : i < len) :
    ((List.range len).map fun t => (fin (h t) : Fl ℝ)).getD i (fin 0) = fin (h i) := by
  simp [List.getD, List.getElem?_map, List.getElem?_range hi]

/-- Two different sample counts above 1 give two different abscissas. -/
theorem abscissa_ne (s s' : Int) (hs : 2 ≤ s) (hs' : 2 ≤ s') (hne : s ≠ s') :
    (1 : ℝ) / Real.log (s : ℝ) ≠ 1 / Real.log (s' : ℝ) := by
  have h2 : (2 : ℝ) ≤ (s : ℝ) := by exact_mod_cast hs
  have h2' : (2 : ℝ) ≤ (s' : ℝ) := by exact_mod_cast hs'
  intro h
  rw [one_div, one_div, inv_inj] at h
  have := Real.log_injOn_pos (Set.mem_Ioi.mpr (by linarith : (0 : ℝ) < s))
    (Set.mem_Ioi.mpr (by linarith : (0 : ℝ) < s')) h
  exact hne (by exact_mod_cast this)

/-- On a window of positive values with two different sample counts above 1 the
regression stage returns a finite pair whose first entry is positive. -/
theorem fitWindow_nonzero (spp : List Int) (good : List (Fl ℝ)) (idx0 idx1 len : Nat)
    (vf : Nat → ℝ) (hidx : idx0 + len ≤ idx1 + 1)
    (hs : ∀ t, t < len → 2 ≤ spp.getD (idx0 + t) 0)
    (hv : ∀ t, t < len → good.getD t (fin 0) = fin (vf t) ∧ 0 < vf t ∧
      0 < Real.log (vf t) + 100)
    (i j : Nat) (hi : i < len) (hj : j < len)
    (hij : spp.getD (idx0 + i) 0 ≠ spp.getD (idx0 + j) 0) :
    ∃ u q : ℝ, fitWindow (Libm.ideal Real.log Real.exp Real.sqrt Real.rpow) spp good idx0 idx1 len
      = (fin u, fin q) ∧ 0 < u := by
  rw [fitWindow_ideal spp good idx0 idx1 len vf hidx hs hv]
  have hne := abscissa_ne _ _ (hs i hi) (hs j hj) hij
  have hlen : ((List.range len).map fun t =>
      (fin (1 / Real.log (spp.getD (idx0 + t) 0 : ℝ)) : Fl ℝ)).length = len := by simp
  have hD := leastSquares_denominator_pos
    (fun t => 1 / Real.log (spp.getD (idx0 + t) 0 : ℝ)) len i j hi hj hne
  rw [leastSquares_finite _ _ (fun t => 1 / Real.log (spp.getD (idx0 + t) 0 : ℝ))
    (fun t => Real.log (Real.log (vf t) + 100) / Real.log (spp.getD (idx0 + t) 0 : ℝ))
    (fun k hk => range_map_getD _ len k (by rw [hlen] at hk; exact hk))
    (fun k hk => range_map_getD _ len k (by rw [hlen] at hk; exact hk))
    (by rw [hlen]; exact ne_of_gt hD)]
  exact ⟨_, _, rfl, Real.exp_pos _⟩

/-- On a window whose points satisfy `ln(value) + 100 = a * sampleCount ^ b` the
regression stage returns `(a, b)`. -/
theorem fitWindow_round_trip (spp : List Int) (good : List (Fl ℝ)) (idx0 idx1 len : Nat)
    (a b : ℝ) (ha : 0 < a) (vf : Nat → ℝ) (hidx : idx0 + len ≤ idx1 + 1)
    (hs : ∀ t, t < len → 2 ≤ spp.getD (idx0 + t) 0)
    (hv : ∀ t, t < len → good.getD t (fin 0) = fin (vf t) ∧ 0 < vf t ∧
      Real.log (vf t) + 100 = a * (spp.getD (idx0 + t) 0 : ℝ) ^ b)
    (i j : Nat) (hi : i < len) (hj : j < len)
    (hij : spp.getD (idx0 + i) 0 ≠ spp.getD (idx0 + j) 0) :
    fitWindow (Libm.ideal Real.log Real.exp Real.sqrt Real.rpow) spp good idx0 idx1 len
      = (fin a, fin b) := by
  have hS : ∀ t, t < len → (0 : ℝ) < (spp.getD (idx0 + t) 0 : ℝ) := by
    intro t ht
    have := hs t ht
    have h2 : (2 : ℝ) ≤ (spp.getD (idx0 + t) 0 : ℝ) := by exact_mod_cast this
    linarith
  have hA : ∀ t, t < len → (0 : ℝ) < Real.log (spp.getD (idx0 + t) 0 : ℝ) := by
    intro t ht
    apply Real.log_pos
    have := hs t ht
    have h2 : (2 : ℝ) ≤ (spp.getD (idx0 + t) 0 : ℝ) := by exact_mod_cast this
    linarith
  have hv' : ∀ t, t < len → good.getD t (fin 0) = fin (vf t) ∧ 0 < vf t ∧
      0 < Real.log (vf t) + 100 := by
    intro t ht
    obtain ⟨h1, h2, h3⟩ := hv t ht
    refine ⟨h1, h2, ?_⟩
    rw [h3]
    exact mul_pos ha (Real.rpow_pos_of_pos (hS t ht) b)
  rw [fitWindow_ideal spp good idx0 idx1 len vf hidx hs hv']
  have hne := abscissa_ne _ _ (hs i hi) (hs j hj) hij
  have hlen : ((List.range len).map fun t =>
      (fin (1 / Real.log (spp.getD (idx0 + t) 0 : ℝ)) : Fl ℝ)).length = len := by simp
  have hline : ∀ t, t < len →
      Real.log (Real.log (vf t) + 100) / Real.log (spp.getD (idx0 + t) 0 : ℝ)
        = Real.log a * (1 / Real.log (spp.getD (idx0 + t) 0 : ℝ)) + b := by
    intro t ht
    rw [(hv t ht).2.2, Real.log_mul (ne_of_gt ha)
      (ne_of_gt (Real.rpow_pos_of_pos (hS t ht) b)), Real.log_rpow (hS t ht)]
    rw [add_div, mul_div_assoc, div_self (ne_of_gt (hA t ht)), mul_one, mul_one_div]
  rw [leastSquares_line _ _ (fun t => 1 / Real.log (spp.getD (idx0 + t) 0 : ℝ))
    (Real.log a) b
    (fun k hk => range_map_getD _ len k (by rw [hlen] at hk; exact hk))
    (fun k hk => by
      rw [hlen] at hk
      rw [range_map_getD _ len k hk, hline k hk])
    i j (by rw [hlen]; exact hi) (by rw [hlen]; exact hj) hne]
  simp [Libm.ideal, Real.exp_log ha]

/-- Claim C10, evaluation at the scenario of the specification: for the sample counts
16 and 64 and the single-pixel series `[0.1, 0.1, 0.1]`, `[0.02, 0.02, 0.02]`, with the
default flag, `calcCurves` returns the pair `(0, 0)` in all three channels, whatever
the math library computes; the exponent is 0 and not negative. -/
theorem calcCurves_scenario (m : Libm ℚ) :
    calcCurves m [[fin (1 / 10), fin (1 / 10), fin (1 / 10)],
        [fin (1 / 50), fin (1 / 50), fin (1 / 50)]] [16, 64] true
      = [(fin 0, fin 0), (fin 0, fin 0), (fin 0, fin 0)] := by
  have hs : ∀ i, i < 3 → sanitized [[fin (1 / 10 : ℚ), fin (1 / 10), fin (1 / 10)],
        [fin (1 / 50), fin (1 / 50), fin (1 / 50)]] i = [fin (1 / 10), fin (1 / 50)] := by
    intro i hi
    interval_cases i <;> norm_num [sanitized, isnormal, fltMin, abs_of_pos]
  have hc : ∀ i, i < 3 → curveOf m [[fin (1 / 10 : ℚ), fin (1 / 10), fin (1 / 10)],
        [fin (1 / 50), fin (1 / 50), fin (1 / 50)]] [16, 64] true i = (fin 0, fin 0) := by
    intro i hi
    rw [curveOf_eq m _ _ _ i [fin (1 / 50)] 1 _ (by norm_num) (by norm_num)]
    · simp
    · rw [hs i hi]
      norm_num [scanGood]
  simp only [calcCurves, List.length_cons, List.length_nil, List.headD_cons]
  norm_num [List.range, List.range.loop, hc]

section Degenerate

variable {α : Type} [LinearOrderedField α]

/-- When the last value of the series is not below the value before it, the scan
stops at once with that single value and `idx0` at the last index. -/
theorem scanGood_not_decreasing (flag : Bool) (vals : List (Fl α)) (j : Nat)
    (good : List (Fl α)) (idx0 : Nat)
    (h : lt (vals.getD (j + 1) (fin 0)) (vals.getD j (fin 0)) = false) :
    scanGood flag vals (j + 1) good idx0 = (vals.getD (j + 1) (fin 0) :: good, j + 1) := by
  rw [scanGood, h]
  simp

/-- Claim C9, amended: for either setting of the flag and every non-empty list of fewer
than `2 ^ 31` checkpoints, `calcCurves` returns one pair per pixel-channel of the first
checkpoint, and the pair is `(0, 0)` for every pixel-channel when there is a single
checkpoint or when the sanitized value at the highest sample count is not strictly
smaller than the value at the checkpoint before it. -/
theorem calcCurves_degenerate (m : Libm α) (vars : List (List (Fl α))) (spp : List Int)
    (flag : Bool) (_hne : vars ≠ []) (hsmall : vars.length < 2 ^ 31) :
    (calcCurves m vars spp flag).length = (vars.headD []).length ∧
    ∀ i, i < (vars.headD []).length →
      (vars.length = 1 ∨
        lt ((sanitized vars i).getD (vars.length - 1) (fin 0))
          ((sanitized vars i).getD (vars.length - 2) (fin 0)) = false) →
      (calcCurves m vars spp flag)[i]? = some (fin 0, fin 0) := by
  refine ⟨calcCurves_length m vars spp flag, fun i hi h => ?_⟩
  by_cases h1 : vars.length < 2
  · simp only [calcCurves]
    rw [if_pos h1, List.getElem?_replicate, if_pos hi]
  · have h2 : 2 ≤ vars.length := by omega
    have hc : lt ((sanitized vars i).getD (vars.length - 1) (fin 0))
          ((sanitized vars i).getD (vars.length - 2) (fin 0)) = false := by
      rcases h with h | h
      · omega
      · exact h
    rw [calcCurves_getElem? m vars spp flag i h2 hi]
    obtain ⟨k, hk⟩ : ∃ k, vars.length = k + 2 := ⟨vars.length - 2, by omega⟩
    have hscan : scanGood flag (sanitized vars i) (vars.length - 1) [] 1
        = ([(sanitized vars i).getD (k + 1) (fin 0)], k + 1) := by
      have e1 : vars.length - 1 = k + 1 := by omega
      have e2 : vars.length - 2 = k := by omega
      rw [e1, e2] at hc
      rw [e1]
      exact scanGood_not_decreasing flag _ k [] 1 hc
    rw [curveOf_eq m vars spp flag i _ _ hscan (by norm_num) (by omega)]
    rw [if_pos]
    simp only [List.length_singleton]
    push_cast
    omega

end Degenerate

/-- Witness of C9: two checkpoints with the increasing series 1, 2. -/
theorem calcCurves_degenerate_witness :
    (calcCurves (Libm.ideal Real.log Real.exp Real.sqrt Real.rpow)
      [[fin 1], [fin 2]] [16, 64] false)[0]? = some (fin 0, fin 0) :=
  (calcCurves_degenerate _ [[fin 1], [fin 2]] [16, 64] false (by simp) (by norm_num)).2 0
    (by simp) (Or.inr (by norm_num [sanitized, isnormal, fltMin]))

/-- Counterexample to C9 as stated: with the flag off and the series 9, 8, 7, 6, 0 at the
sample counts 2, 4, 8, 16, 32, the sanitized value at the highest sample count is 0,
which is not positive, and yet the scan skips it, keeps 8, 7, 6 and the regression
returns a pair that is not `(0, 0)`. -/
theorem calcCurves_degenerate_counterexample :
    (sanitized [[fin (9 : ℝ)], [fin 8], [fin 7], [fin 6], [fin 0]] 0).getD 4 (fin 0) = fin 0 ∧
    (calcCurves (Libm.ideal Real.log Real.exp Real.sqrt Real.rpow)
      [[fin 9], [fin 8], [fin 7], [fin 6], [fin 0]] [2, 4, 8, 16, 32] false)[0]?
        ≠ some (fin 0, fin 0) := by
  have hsan : sanitized [[fin (9 : ℝ)], [fin 8], [fin 7], [fin 6], [fin 0]] 0
      = [fin 9, fin 8, fin 7, fin 6, fin 0] := by
    norm_num [sanitized, isnormal, fltMin]
  have hscan : scanGood false (sanitized [[fin (9 : ℝ)], [fin 8], [fin 7], [fin 6], [fin 0]] 0)
      ([[fin (9 : ℝ)], [fin 8], [fin 7], [fin 6], [fin 0]].length - 1) [] 1
      = ([fin 8, fin 7, fin 6], 1) := by
    rw [hsan]
    norm_num [scanGood]
  refine ⟨by rw [hsan]; rfl, ?_⟩
  rw [calcCurves_getElem? _ _ _ _ 0 (by simp) (by simp),
    curveOf_eq _ _ _ _ 0 _ _ hscan (by norm_num) (by norm_num)]
  rw [if_neg (by norm_num)]
  obtain ⟨u, q, hfit, hu⟩ := fitWindow_nonzero [2, 4, 8, 16, 32] [fin 8, fin 7, fin 6] 1
    ([fin (8 : ℝ), fin 7, fin 6].length - 1) ([fin (8 : ℝ), fin 7, fin 6].length - 1)
    (fun t => if t = 0 then 8 else 7) (by simp)
    (fun t ht => by
      have ht' : t < 2 := by simpa using ht
      interval_cases t <;> simp)
    (fun t ht => by
      have ht' : t < 2 := by simpa using ht
      have h8 : (0 : ℝ) < Real.log 8 := Real.log_pos (by norm_num)
      have h7 : (0 : ℝ) < Real.log 7 := Real.log_pos (by norm_num)
      interval_cases t
      · exact ⟨rfl, by norm_num, by simpa using by linarith⟩
      · exact ⟨rfl, by norm_num, by simpa using by linarith⟩)
    0 1 (by simp) (by simp) (by simp)
  rw [hfit]
  intro h
  injection h with h
  injection h with h1 h2
  injection h1 with h1
  exact (ne_of_gt hu) h1

/-- Supporting fact for C8, in exact arithmetic only: the law that the regression
inverts.  With the math library in exact arithmetic, whenever the scan of a pixel-channel leaves
a regression window of at least two points (fewer than `2 ^ 31` good values) whose
sample counts are above 1, the first two different, and whose values satisfy
`ln(value) + 100 = a * sampleCount ^ b` with `a > 0`, `calcCurves` returns exactly
`(a, b)` for that pixel-channel. -/
theorem calcCurves_round_trip (vars : List (List (Fl ℝ))) (spp : List Int) (flag : Bool)
    (i : Nat) (a b : ℝ) (good : List (Fl ℝ)) (idx0 : Nat) (vf : Nat → ℝ)
    (hn : 2 ≤ vars.length) (hi : i < (vars.headD []).length)
    (hscan : scanGood flag (sanitized vars i) (vars.length - 1) [] 1 = (good, idx0))
    (hwin : idx0 + 2 ≤ good.length) (hsmall : good.length < 2 ^ 31) (ha : 0 < a)
    (hs : ∀ t, idx0 + t < good.length → 2 ≤ spp.getD (idx0 + t) 0)
    (hv : ∀ t, idx0 + t < good.length → good.getD t (fin 0) = fin (vf t) ∧ 0 < vf t ∧
      Real.log (vf t) + 100 = a * (spp.getD (idx0 + t) 0 : ℝ) ^ b)
    (hd : spp.getD idx0 0 ≠ spp.getD (idx0 + 1) 0) :
    (calcCurves (Libm.ideal Real.log Real.exp Real.sqrt Real.rpow) vars spp flag)[i]?
      = some (fin a, fin b) := by
  rw [calcCurves_getElem? _ vars spp flag i hn hi,
    curveOf_eq _ vars spp flag i good idx0 hscan hsmall (by omega)]
  rw [if_neg (by omega)]
  rw [fitWindow_round_trip spp good idx0 (good.length - 1) (good.length - idx0) a b ha vf
    (by omega) (fun t ht => hs t (by omega)) (fun t ht => hv t (by omega))
    0 1 (by omega) (by omega) (by simpa using hd)]

/-- A number `exp(-x)` with `x ≤ 76` is a normal single-precision value. -/
theorem isnormal_exp_neg (x : ℝ) (hx : x ≤ 76) : isnormal (fin (Real.exp (-x))) = true := by
  have h3 : Real.exp 1 ≤ 3 := by
    have := Real.exp_one_lt_d9
    linarith
  have h76 : Real.exp 76 ≤ 2 ^ 126 := by
    have : Real.exp 76 = Real.exp 1 ^ 76 := by
      rw [← Real.exp_nat_mul]
      norm_num
    rw [this]
    calc Real.exp 1 ^ 76 ≤ (3 : ℝ) ^ 76 := pow_le_pow_left₀ (Real.exp_pos 1).le h3 76
      _ ≤ 2 ^ 126 := by norm_num
  have hle : Real.exp x ≤ 2 ^ 126 := le_trans (Real.exp_le_exp.mpr hx) h76
  simp only [isnormal, fltMin, decide_eq_true_eq]
  rw [abs_of_pos (Real.exp_pos _), Real.exp_neg, one_div]
  exact inv_anti₀ (Real.exp_pos x) hle

/-- Example for the supporting fact: four checkpoints at the sample counts 1, 2, 4, 8
with the flag off;
the window holds the points `(2, exp(-50))` and `(4, exp(-75))`, which satisfy
`ln(value) + 100 = 100 * sampleCount ^ (-1)`. -/
theorem calcCurves_round_trip_witness :
    (calcCurves (Libm.ideal Real.log Real.exp Real.sqrt Real.rpow)
      [[fin 1], [fin (Real.exp (-50))], [fin (Real.exp (-75))], [fin (Real.exp (-76))]]
      [1, 2, 4, 8] false)[0]? = some ((fin 100, fin (-1)) : CurveParam ℝ) := by
  have hsan : sanitized [[fin (1 : ℝ)], [fin (Real.exp (-50))], [fin (Real.exp (-75))],
      [fin (Real.exp (-76))]] 0
      = [fin 1, fin (Real.exp (-50)), fin (Real.exp (-75)), fin (Real.exp (-76))] := by
    have h1 : isnormal (fin (1 : ℝ)) = true := by norm_num [isnormal, fltMin]
    simp [sanitized, h1, isnormal_exp_neg 50 (by norm_num), isnormal_exp_neg 75 (by norm_num),
      isnormal_exp_neg 76 (by norm_num)]
  have hscan : scanGood false (sanitized [[fin (1 : ℝ)], [fin (Real.exp (-50))],
      [fin (Real.exp (-75))], [fin (Real.exp (-76))]] 0)
      ([[fin (1 : ℝ)], [fin (Real.exp (-50))], [fin (Real.exp (-75))],
        [fin (Real.exp (-76))]].length - 1) [] 1
      = ([fin (Real.exp (-50)), fin (Real.exp (-75)), fin (Real.exp (-76))], 1) := by
    rw [hsan]
    norm_num [scanGood, Real.exp_pos]
  exact calcCurves_round_trip _ [1, 2, 4, 8] false 0 100 (-1) _ 1
    (fun t => if t = 0 then Real.exp (-50) else Real.exp (-75))
    (by simp) (by simp) hscan (by simp) (by norm_num) (by norm_num)
    (fun t ht => by
      have ht' : t < 2 := by simp at ht; omega
      interval_cases t <;> simp)
    (fun t ht => by
      have ht' : t < 2 := by simp at ht; omega
      interval_cases t
      · refine ⟨rfl, by simp [Real.exp_pos], ?_⟩
        simp [Real.rpow_neg_one]
        norm_num
      · refine ⟨rfl, by simp [Real.exp_pos], ?_⟩
        simp [Real.rpow_neg_one]
        norm_num)
    (by simp)

/-- Claim C8 (refuted by the code): the series `1/2, 1/4, 1/8` at the sample counts
2, 4, 8 follows `value = a * sampleCount ^ b` with `a = 1` and `b = -1` exactly, and
`calcCurves` with the default flag (on) returns `(0, 0)` for it, for every math library:
neither parameter is within `1e-3` of the law. -/
theorem calcCurves_round_trip_default (m : Libm ℝ) :
    ((1 / 2 : ℝ) = 1 * (2 : ℝ) ^ (-1 : ℝ) ∧ (1 / 4 : ℝ) = 1 * (4 : ℝ) ^ (-1 : ℝ) ∧
      (1 / 8 : ℝ) = 1 * (8 : ℝ) ^ (-1 : ℝ)) ∧
    calcCurves m [[fin (1 / 2)], [fin (1 / 4)], [fin (1 / 8)]] [2, 4, 8] true
      = [(fin 0, fin 0)] ∧
    ¬ (|(0 : ℝ) - 1| ≤ 1 / 10 ^ 3 * |1|) ∧ ¬ (|(0 : ℝ) - (-1)| ≤ 1 / 10 ^ 3 * |(-1)|) := by
  refine ⟨by simp [Real.rpow_neg_one], ?_, by norm_num, by norm_num⟩
  have hsan : sanitized [[fin (1 / 2 : ℝ)], [fin (1 / 4)], [fin (1 / 8)]] 0
      = [fin (1 / 2), fin (1 / 4), fin (1 / 8)] := by
    norm_num [sanitized, isnormal, fltMin, abs_of_pos]
  have hscan : scanGood true (sanitized [[fin (1 / 2 : ℝ)], [fin (1 / 4)], [fin (1 / 8)]] 0)
      ([[fin (1 / 2 : ℝ)], [fin (1 / 4)], [fin (1 / 8)]].length - 1) [] 1
      = ([fin (1 / 4), fin (1 / 8)], 1) := by
    rw [hsan]
    norm_num [scanGood]
  have hc := curveOf_eq m _ [2, 4, 8] true 0 _ _ hscan (by norm_num) (by norm_num)
  rw [if_pos (by norm_num)] at hc
  simp only [calcCurves, List.length_cons, List.length_nil, List.headD_cons]
  norm_num [List.range, List.range.loop, hc]

/-- Supporting fact for C8: the failure of the round trip is not only the window
length.  With the flag off the regression is reached for the series `1, 1/2, 1/4, 1/8`
at the sample counts 1, 2, 4, 8, which follows `value = 1 * sampleCount ^ (-1)`, and
the fitted first parameter is at least 99 instead of 1: the regression inverts
`ln(value) + 100 = a * sampleCount ^ b`, the law that `denoisedWeight` inverts too. -/
theorem calcCurves_power_law_flag_off :
    ∃ a' b' : ℝ,
      (calcCurves (Libm.ideal Real.log Real.exp Real.sqrt Real.rpow)
        [[fin 1], [fin (1 / 2)], [fin (1 / 4)], [fin (1 / 8)]] [1, 2, 4, 8] false)[0]?
          = some ((fin a', fin b') : CurveParam ℝ) ∧ 99 ≤ a' := by
  have hl2 : Real.log 2 ≤ 1 := by
    have := Real.log_le_sub_one_of_pos (by norm_num : (0 : ℝ) < 2)
    linarith
  have hl2pos : 0 < Real.log 2 := Real.log_pos (by norm_num)
  have hu : (0 : ℝ) < 100 - Real.log 2 := by linarith
  have hw : (0 : ℝ) < 100 - 2 * Real.log 2 := by linarith
  have hρ : 0 < (100 - 2 * Real.log 2) / (100 - Real.log 2) := div_pos hw hu
  have hρ1 : (100 - 2 * Real.log 2) / (100 - Real.log 2) ≤ 1 := by
    rw [div_le_one hu]
    linarith
  have h2B : (2 : ℝ) ^ Real.logb 2 ((100 - 2 * Real.log 2) / (100 - Real.log 2))
      = (100 - 2 * Real.log 2) / (100 - Real.log 2) :=
    Real.rpow_logb (by norm_num) (by norm_num) hρ
  have h4B : (4 : ℝ) ^ Real.logb 2 ((100 - 2 * Real.log 2) / (100 - Real.log 2))
      = ((100 - 2 * Real.log 2) / (100 - Real.log 2)) ^ 2 := by
    have h4 : (4 : ℝ) = 2 ^ (2 : ℝ) := by norm_num
    rw [h4, ← Real.rpow_mul (by norm_num), mul_comm, Real.rpow_mul (by norm_num), h2B]
    norm_num
  have hlog4 : Real.log 4 = 2 * Real.log 2 := by
    have h4 : (4 : ℝ) = 2 ^ 2 := by norm_num
    rw [h4, Real.log_pow]
    norm_num
  have hsan : sanitized [[fin (1 : ℝ)], [fin (1 / 2)], [fin (1 / 4)], [fin (1 / 8)]] 0
      = [fin 1, fin (1 / 2), fin (1 / 4), fin (1 / 8)] := by
    norm_num [sanitized, isnormal, fltMin, abs_of_pos]
  have hscan : scanGood false (sanitized [[fin (1 : ℝ)], [fin (1 / 2)], [fin (1 / 4)],
      [fin (1 / 8)]] 0)
      ([[fin (1 : ℝ)], [fin (1 / 2)], [fin (1 / 4)], [fin (1 / 8)]].length - 1) [] 1
      = ([fin (1 / 2), fin (1 / 4), fin (1 / 8)], 1) := by
    rw [hsan]
    norm_num [scanGood]
  refine ⟨(100 - Real.log 2) / ((100 - 2 * Real.log 2) / (100 - Real.log 2)),
    Real.logb 2 ((100 - 2 * Real.log 2) / (100 - Real.log 2)), ?_, ?_⟩
  · rw [calcCurves_getElem? _ _ _ _ 0 (by simp) (by simp),
      curveOf_eq _ _ _ _ 0 _ _ hscan (by norm_num) (by norm_num), if_neg (by norm_num)]
    rw [fitWindow_round_trip [1, 2, 4, 8] [fin (1 / 2), fin (1 / 4), fin (1 / 8)] 1 _ _ _ _
      (div_pos hu hρ) (fun t => if t = 0 then 1 / 2 else 1 / 4) (by simp)
      (fun t ht => by
        have ht' : t < 2 := by simpa using ht
        interval_cases t <;> simp)
      (fun t ht => by
        have ht' : t < 2 := by simpa using ht
        interval_cases t
        · refine ⟨rfl, by norm_num, ?_⟩
          simp only [if_true, List.getD_cons_succ, List.getD_cons_zero, Int.cast_ofNat]
          rw [h2B, div_mul_cancel₀ _ (ne_of_gt hρ), one_div, Real.log_inv]
          ring
        · refine ⟨rfl, by norm_num, ?_⟩
          simp only [one_ne_zero, if_false, List.getD_cons_succ, List.getD_cons_zero,
            Int.cast_ofNat]
          rw [h4B, one_div, Real.log_inv, hlog4]
          field_simp
          ring)
      0 1 (by simp) (by simp) (by simp)]
  · rw [le_div_iff₀ hρ]
    nlinarith

/-! ## Risk estimator -/

section Risk

variable {α : Type} [LinearOrderedField α]

/-- A sanitised sample is the finite number `sanVal`. -/
theorem sanitize_eq_fin (v : Fl α) : (if isnormal v then v else fin 0) = fin (sanVal v) := by
  cases v with
  | fin x =>
    by_cases h : fltMin ≤ |x| <;> simp [isnormal, sanVal, h]
  | nan => simp [isnormal, sanVal]
  | pinf => simp [isnormal, sanVal]
  | ninf => simp [isnormal, sanVal]

/-- A finite sample that is zero or normal is its own sanitised value. -/
theorem sanVal_of_valid (x : α) (h : x = 0 ∨ fltMin ≤ |x|) : sanVal (fin x) = x := by
  rcases h with h | h
  · subst h
    simp [sanVal]
  · simp [sanVal, h]

/-- The squared difference of the statistics, on the sanitised values. -/
theorem sqDiff_eq (a b : Fl α) :
    sqDiff a b = fin ((sanVal a - sanVal b) * (sanVal a - sanVal b)) := by
  simp only [sqDiff, sanitize_eq_fin, fin_sub_fin, fin_mul_fin]

/-- NaN minus anything is NaN. -/
@[simp] theorem nan_sub (a : Fl α) : (nan - a : Fl α) = nan := by
  cases a <;> rfl

/-- Anything minus NaN is NaN. -/
@[simp] theorem sub_nan (a : Fl α) : (a - nan : Fl α) = nan := by
  cases a <;> rfl

/-- Adding to the initial value zero of an accumulator changes nothing. -/
@[simp] theorem zero_add_fl (a : Fl α) : (fin 0 + a : Fl α) = a := by
  cases a with
  | fin x => simp
  | nan => rfl
  | pinf => rfl
  | ninf => rfl

/-- Dividing by one changes nothing. -/
@[simp] theorem div_one_fl (a : Fl α) : (a / fin 1 : Fl α) = a := by
  cases a with
  | fin x => simp
  | nan => rfl
  | pinf =>
    show div pinf (fin 1) = pinf
    simp [div]
  | ninf =>
    show div ninf (fin 1) = ninf
    simp [div]

/-- The output of `mseVector` has the length of the shorter buffer. -/
theorem mseVector_length (img1 img2 : List (Fl α)) :
    (mseVector img1 img2).length = min img1.length img2.length := by
  simp only [mseVector, List.length_zipWith, List.length_take]
  omega

/-- Entry `i` of the output of `mseVector`. -/
theorem mseVector_getD (img1 img2 : List (Fl α)) (i : Nat) (h1 : i < img1.length)
    (h2 : i < img2.length) :
    (mseVector img1 img2).getD i (fin 0)
      = sqDiff (img1.getD i (fin 0)) (img2.getD i (fin 0)) := by
  have hi : i < min img1.length img2.length := by omega
  simp only [mseVector, List.getD, List.getElem?_zipWith, List.getElem?_take, hi, if_true]
  simp [List.getElem?_eq_getElem, h1, h2]

/-- Reading an entry of a vector filled by a loop over its indices. -/
theorem range_map_getD' (h : Nat → Fl α) (len i : Nat) (hi : i < len) :
    ((List.range len).map h).getD i (fin 0) = h i := by
  simp [List.getD, List.getElem?_map, List.getElem?_range hi]

/-- Entry `i` of the output of `sure`: squared error minus variance plus twice the
entry of `_jacobian` (read as zero past its end). -/
theorem sure_getElem? (m : Libm α) (run : List (Fl α) → Option (List (Fl α)))
    (nrm : Nat → Fl α) (denoised noisy var : List (Fl α)) (i : Nat)
    (hi : i < denoised.length) :
    (sure m run nrm denoised noisy var)[i]? =
      some ((mseVector denoised noisy).getD i (fin 0) - fin (sanVal (var.getD i (fin 0)))
        + fin 2 * (jacobian m run nrm denoised noisy var (fin 1)).getD i (fin 0)) := by
  simp only [sure, List.length_map, List.length_range, List.getElem?_map,
    List.getElem?_range hi, Option.map_some', range_map_getD' _ _ _ hi, zero_add_fl,
    sanitize_eq_fin, ofInt_eq, Int.cast_one, div_one_fl]

/-- The output of `sure` has the length of the denoised buffer, whatever `_jacobian`
returns. -/
theorem sure_length (m : Libm α) (run : List (Fl α) → Option (List (Fl α)))
    (nrm : Nat → Fl α) (denoised noisy var : List (Fl α)) :
    (sure m run nrm denoised noisy var).length = denoised.length := by
  simp [sure]

/-- Entry `i` of the output of `_jacobian` when the denoiser succeeds. -/
theorem jacobian_getD (m : Libm α) (run : List (Fl α) → Option (List (Fl α)))
    (nrm : Nat → Fl α) (denoised noisy var fz : List (Fl α)) (e : Fl α) (i : Nat)
    (hi : i < denoised.length)
    (hrun : run (perturbed noisy (probe m nrm var denoised.length) e denoised.length) = some fz) :
    (jacobian m run nrm denoised noisy var e).getD i (fin 0)
      = (probe m nrm var denoised.length).getD i (fin 0) / e
        * (fz.getD i (fin 0) - denoised.getD i (fin 0)) := by
  simp only [jacobian, hrun]
  rw [range_map_getD' _ _ _ hi]

/-- Claim C12: with the probe vector `b` and the denoiser output `f(z)` given, one trial
and `e = 1`, for a pixel-channel `i` whose noisy and denoised samples are finite (zero
or normal) numbers `n` and `d`, whose probe entry is the finite number `β` and whose
denoiser output is the finite number `φ`, the perturbed input is `z_i = n + e * β` and
`sure` returns `risk_i = (n - d)^2 - v_i + 2 * (β / e) * (φ - d)`, where `v_i` is the
variance when it is a normal number and 0 otherwise. -/
theorem sure_formula (m : Libm α) (run : List (Fl α) → Option (List (Fl α)))
    (nrm : Nat → Fl α) (denoised noisy var fz : List (Fl α)) (i : Nat) (n d β φ : α)
    (hi : i < denoised.length) (hi2 : i < noisy.length)
    (hrun : run (perturbed noisy (probe m nrm var denoised.length) (fin 1) denoised.length)
      = some fz)
    (hn : noisy.getD i (fin 0) = fin n) (hnv : n = 0 ∨ fltMin ≤ |n|)
    (hd : denoised.getD i (fin 0) = fin d) (hdv : d = 0 ∨ fltMin ≤ |d|)
    (hb : (probe m nrm var denoised.length).getD i (fin 0) = fin β)
    (hφ : fz.getD i (fin 0) = fin φ) :
    (perturbed noisy (probe m nrm var denoised.length) (fin 1) denoised.length).getD i (fin 0)
        = fin (n + 1 * β) ∧
    (sure m run nrm denoised noisy var)[i]? =
      some (fin ((n - d) ^ 2 - sanVal (var.getD i (fin 0)) + 2 * (β / 1) * (φ - d))) := by
  constructor
  · simp only [perturbed]
    rw [range_map_getD' _ _ _ hi2, if_pos hi, hn, hb, fin_mul_fin, fin_add_fin]
  · rw [sure_getElem? m run nrm denoised noisy var i hi,
      jacobian_getD m run nrm denoised noisy var fz (fin 1) i hi hrun,
      mseVector_getD denoised noisy i hi hi2, sqDiff_eq, hn, hd, hb, hφ,
      sanVal_of_valid n hnv, sanVal_of_valid d hdv]
    simp only [fin_sub_fin, fin_mul_fin, fin_add_fin, fin_div_fin_of_ne _ (one_ne_zero)]
    congr 2
    ring

end Risk

/-- Witness of C12: one pixel-channel with noisy 1, denoised 2, variance 4, draw 1 and
denoiser output 3. -/
theorem sure_formula_witness :
    (sure (Libm.ideal Real.log Real.exp Real.sqrt Real.rpow) (fun _ => some [fin 3])
      (fun _ => fin 1) [fin 2] [fin 1] [fin 4])[0]? =
      some (fin (((1 : ℝ) - 2) ^ 2 - sanVal (([fin 4] : List (Fl ℝ)).getD 0 (fin 0))
        + 2 * ((1 * Real.sqrt 4) / 1) * (3 - 2))) :=
  (sure_formula (Libm.ideal Real.log Real.exp Real.sqrt Real.rpow) (fun _ => some [fin 3])
    (fun _ => fin 1) [fin 2] [fin 1] [fin 4] [fin 3] 0 1 2 (1 * Real.sqrt 4) 3
    (by simp) (by simp) rfl rfl (Or.inr (by norm_num [fltMin])) rfl
    (Or.inr (by norm_num [fltMin]))
    (by norm_num [probe, isnormal, fltMin, Libm.ideal]) rfl).2

/-- Claim C13, evaluation at a failing denoiser: `sure` does not return an empty buffer.
For the denoised buffer `[2, 3]`, the noisy buffer `[1, 1]` and the variance `[1, 4]` it
returns two entries (the squared error minus the variance, the entries of the empty
result of `_jacobian` read as zero), and for every input its output has the length of
the denoised buffer. -/
theorem sure_denoiser_failure (m : Libm ℚ) (nrm : Nat → Fl ℚ) :
    sure m (fun _ => none) nrm [fin 2, fin 3] [fin 1, fin 1] [fin 1, fin 4]
        = [fin 0, fin 0] ∧
    ∀ denoised noisy var : List (Fl ℚ),
      (sure m (fun _ => none) nrm denoised noisy var).length = denoised.length := by
  refine ⟨?_, fun denoised noisy var => sure_length m _ nrm denoised noisy var⟩
  norm_num [sure, jacobian, mseVector, sqDiff, isnormal, fltMin, List.range, List.range.loop]

/-- Claim C15, evaluation at an invalid denoised sample: for the denoised buffer `[NaN]`,
the noisy buffer `[1]`, the variance `[1]` and the finite denoiser output `[1]`, `sure`
returns `[NaN]`, whatever the draw and the math library: `_jacobian` subtracts the
denoised sample without sanitising it. -/
theorem sure_propagates_nan (m : Libm ℚ) (nrm : Nat → Fl ℚ) :
    sure m (fun _ => some [fin 1]) nrm [nan] [fin 1] [fin 1] = [nan] := by
  simp [sure, jacobian, mseVector, sqDiff, isnormal, List.range, List.range.loop]

/-! ## Statistics of the image loader -/

section Statistics

variable {α : Type} [LinearOrderedField α]

/-- Sanitising twice is sanitising once. -/
theorem sanVal_sanitize (v : Fl α) : sanVal (sanitize v) = sanVal v := by
  unfold sanitize
  rw [sanitize_eq_fin]
  cases v with
  | fin x =>
    by_cases h : fltMin ≤ |x|
    · simp [sanVal, h]
    · simp [sanVal, h]
  | nan => simp [sanVal]
  | pinf => simp [sanVal]
  | ninf => simp [sanVal]

/-- The squared difference does not change when its arguments are sanitised first. -/
theorem sqDiff_sanitize (a b : Fl α) : sqDiff (sanitize a) (sanitize b) = sqDiff a b := by
  rw [sqDiff_eq, sqDiff_eq, sanVal_sanitize, sanVal_sanitize]

/-- The accumulation loop of `avg` adds up the sanitised values. -/
theorem avg_foldl (img : List (Fl α)) (a : α) :
    img.foldl (fun s val => s + (if isnormal val then val else fin 0)) (fin a)
      = fin (a + (img.map sanVal).sum) := by
  induction img generalizing a with
  | nil => simp
  | cons v rest ih =>
    rw [List.foldl_cons, sanitize_eq_fin, fin_add_fin, ih]
    simp [add_assoc]

/-- The mean of a non-empty buffer is the sum of the sanitised values over the length. -/
theorem avg_eq (img : List (Fl α)) (h : img ≠ []) :
    avg img = fin ((img.map sanVal).sum / (img.length : α)) := by
  have hlen : (img.length : α) ≠ 0 := by
    have : img.length ≠ 0 := fun h0 => h (List.length_eq_zero.mp h0)
    exact_mod_cast this
  simp only [avg, avg_foldl, zero_add, ofNat_eq, fin_div_fin_of_ne _ hlen]

/-- The mean does not change when the buffer is sanitised first. -/
theorem avg_sanitize (img : List (Fl α)) : avg (img.map sanitize) = avg img := by
  have h : img.map (sanVal ∘ sanitize) = img.map sanVal :=
    List.map_congr_left (fun v _ => sanVal_sanitize v)
  simp only [avg, avg_foldl, List.length_map, List.map_map, h]

/-- The vector of squared differences does not change when the buffers are sanitised
first. -/
theorem zipWith_sqDiff_sanitize (a b : List (Fl α)) (len : Nat) :
    List.zipWith sqDiff ((a.map sanitize).take len) (b.map sanitize)
      = List.zipWith sqDiff (a.take len) b := by
  rw [← List.map_take, List.zipWith_map]
  congr 1
  funext x y
  exact sqDiff_sanitize x y

/-- Claim C14: `avg`, `mse` and `mseVector` treat every sample that is not normal (NaN,
infinite or denormal) as zero.  Each result equals the result on the sanitised buffers;
the mean of a non-empty buffer is the sum of the sanitised samples over the length, and
entry `i` of `mseVector` is the square of the difference of the sanitised samples. -/
theorem statistics_sanitize (x a b : List (Fl α)) (hx : x ≠ []) :
    (avg x = avg (x.map sanitize) ∧ avg x = fin ((x.map sanVal).sum / (x.length : α))) ∧
    mse a b = mse (a.map sanitize) (b.map sanitize) ∧
    mseVector a b = mseVector (a.map sanitize) (b.map sanitize) ∧
    ∀ i, i < min a.length b.length →
      (mseVector a b)[i]? =
        some ((sanitize (a.getD i (fin 0)) - sanitize (b.getD i (fin 0)))
          * (sanitize (a.getD i (fin 0)) - sanitize (b.getD i (fin 0)))) := by
  refine ⟨⟨(avg_sanitize x).symm, avg_eq x hx⟩, ?_, ?_, ?_⟩
  · simp only [mse, List.length_map, zipWith_sqDiff_sanitize]
  · simp only [mseVector, List.length_map, zipWith_sqDiff_sanitize]
  · intro i hi
    have h1 : i < a.length := by omega
    have h2 : i < b.length := by omega
    have hl := mseVector_length a b
    rw [List.getElem?_eq_getElem (by omega)]
    have := mseVector_getD a b i h1 h2
    rw [List.getD_eq_getElem _ _ (by omega)] at this
    rw [this]
    rfl

end Statistics

/-- Witness of C14: the mean of the buffer `[1, NaN, +inf, 3]`. -/
theorem statistics_sanitize_witness :
    avg [fin (1 : ℚ), nan, pinf, fin 3] = fin (([fin (1 : ℚ), nan, pinf, fin 3].map sanVal).sum
      / (([fin (1 : ℚ), nan, pinf, fin 3].length : ℕ) : ℚ)) :=
  (statistics_sanitize [fin 1, nan, pinf, fin 3] [fin 1, nan] [fin 3, fin 2] (by simp)).1.2

/-! ## Orchestrator risk policy -/

section Policy

variable {α : Type} [LinearOrderedField α] [FloorRing α]

/-- Claim C20, amended: the risk handed to `calcMinWeight` and `denoisedWeight` is the
sanitised risk `s` clamped to `max(s, 0)` when the mean variance of the checkpoint
exceeds its mean risk, and `|s|` otherwise (the two cases are the other way round in
the claim). -/
theorem handedRisk_policy (m : Libm α) (sure var : List (Fl α)) (s v px : Fl α) (spp : Int)
    (curve : CurveParam α) :
    handedRisk sure var s =
        (if lt (avg sure) (avg var) = true then fin (max (sanVal s) 0)
          else fin |sanVal s|) ∧
    weightOf m sure var s v px spp curve =
      (calcMinWeight m (sanitize v) (handedRisk sure var s) px spp).bind
        fun minWgh => denoisedWeight m (handedRisk sure var s) curve minWgh := by
  refine ⟨?_, rfl⟩
  simp only [handedRisk, sanitize_eq_fin, lt_fin_fin, decide_eq_true_eq, Fl.abs]
  split
  · by_cases h : sanVal s < 0
    · rw [if_pos h, max_eq_right (le_of_lt h)]
    · rw [if_neg h, max_eq_left (not_lt.mp h)]
  · rfl

end Policy

/-- Counterexample to C20 as stated: the mean risk 2 exceeds the mean variance 1, and
the risk `-3` is handed on as `|-3| = 3`, not as `max(-3, 0) = 0`. -/
theorem handedRisk_policy_counterexample :
    avg [fin (2 : ℚ)] = fin 2 ∧ avg [fin (1 : ℚ)] = fin 1 ∧
    handedRisk [fin (2 : ℚ)] [fin 1] (fin (-3)) = fin 3 := by
  refine ⟨?_, ?_, ?_⟩ <;>
    norm_num [handedRisk, avg, isnormal, fltMin, Fl.abs, abs_of_pos]

/-! ## Curve fitter: the regression window -/

section Window

variable {α : Type} [LinearOrderedField α]

/-- With the flag on, the scan ends with at most two good values and `idx0` at least 1. -/
theorem scanGood_flag_on (vals : List (Fl α)) (j : Nat) (good : List (Fl α)) (idx0 : Nat)
    (hg : good.length ≤ 1) (h1 : 1 ≤ idx0) :
    (scanGood true vals j good idx0).1.length ≤ 2 ∧ 1 ≤ (scanGood true vals j good idx0).2 ∧
      (scanGood true vals j good idx0).2 ≤ max idx0 j := by
  induction j generalizing good with
  | zero => simp [scanGood, h1]; omega
  | succ j ih =>
    rw [scanGood]
    split
    · split
      · dsimp only
        split
        · next h =>
          simp only [Bool.true_and, beq_iff_eq, List.length_cons] at h
          simp only [List.length_cons]
          omega
        · next h =>
          simp only [Bool.true_and, beq_iff_eq, List.length_cons] at h
          have := ih (vals.getD (j + 1) (fin 0) :: good) (by simp only [List.length_cons]; omega)
          omega
      · have := ih good hg
        omega
    · simp only [List.length_cons]
      omega

/-- Claim C17: with the use-last-two-points flag on, for fewer than `2 ^ 31` checkpoints,
the window length `goodVals.size() - idx0` is at most 1 for every pixel-channel, and
`calcCurves` returns the pair `(0, 0)` for every pixel-channel, whatever the series, the
sample counts and the math library. -/
theorem calcCurves_flag_on (m : Libm α) (vars : List (List (Fl α))) (spp : List Int)
    (hsmall : vars.length < 2 ^ 31) :
    (∀ i, (((scanGood true (sanitized vars i) (vars.length - 1) [] 1).1.length : Int)
        - ((scanGood true (sanitized vars i) (vars.length - 1) [] 1).2 : Int) ≤ 1)) ∧
    calcCurves m vars spp true = List.replicate (vars.headD []).length (fin 0, fin 0) := by
  have hinv := fun i => scanGood_flag_on (sanitized vars i) (vars.length - 1) [] 1
    (by simp) (le_refl 1)
  refine ⟨fun i => by have := hinv i; omega, ?_⟩
  simp only [calcCurves]
  split
  · rfl
  · rw [List.eq_replicate_iff]
    refine ⟨by simp, ?_⟩
    intro c hc
    rw [List.mem_map] at hc
    obtain ⟨i, _, rfl⟩ := hc
    have := hinv i
    rw [curveOf_eq m vars spp true i _ _ rfl (by omega) (by omega)]
    rw [if_pos (by omega)]

end Window

/-- Witness of C17: three checkpoints of two pixel-channels, one series decreasing and
one increasing. -/
theorem calcCurves_flag_on_witness :
    calcCurves (Libm.ideal Real.log Real.exp Real.sqrt Real.rpow)
      [[fin 5, fin 7], [fin 3, fin 8], [fin 1, fin 9]] [16, 32, 64] true
      = List.replicate ([[fin (5 : ℝ), fin 7], [fin 3, fin 8], [fin 1, fin 9]].headD []).length
          (fin 0, fin 0) :=
  (calcCurves_flag_on _ [[fin 5, fin 7], [fin 3, fin 8], [fin 1, fin 9]] [16, 32, 64]
    (by norm_num)).2

/-- Claim C18, evaluation at a failing input: for the series `9, 4, 2, 1` at the sample
counts 8, 16, 32, 64 the scan in use-last-two-points mode keeps exactly the two trailing
values `2, 1` with `idx0 = 2`, and `calcCurves` still returns `(0, 0)`; with the flag off
the regression runs on the window `(16, 4), (32, 2)`, which does not end at the highest
sample count. -/
theorem calcCurves_last_two (m : Libm ℚ) :
    scanGood true (sanitized [[fin (9 : ℚ)], [fin 4], [fin 2], [fin 1]] 0) 3 [] 1
        = ([fin 2, fin 1], 2) ∧
    calcCurves m [[fin 9], [fin 4], [fin 2], [fin 1]] [8, 16, 32, 64] true = [(fin 0, fin 0)] ∧
    curveOf m [[fin 9], [fin 4], [fin 2], [fin 1]] [8, 16, 32, 64] false 0
        = fitWindow m [8, 16, 32, 64] [fin 4, fin 2, fin 1] 1 2 2 := by
  have hsan : sanitized [[fin (9 : ℚ)], [fin 4], [fin 2], [fin 1]] 0
      = [fin 9, fin 4, fin 2, fin 1] := by
    norm_num [sanitized, isnormal, fltMin]
  have hon : scanGood true (sanitized [[fin (9 : ℚ)], [fin 4], [fin 2], [fin 1]] 0)
      ([[fin (9 : ℚ)], [fin 4], [fin 2], [fin 1]].length - 1) [] 1 = ([fin 2, fin 1], 2) := by
    rw [hsan]
    norm_num [scanGood]
  have hoff : scanGood false (sanitized [[fin (9 : ℚ)], [fin 4], [fin 2], [fin 1]] 0)
      ([[fin (9 : ℚ)], [fin 4], [fin 2], [fin 1]].length - 1) [] 1
      = ([fin 4, fin 2, fin 1], 1) := by
    rw [hsan]
    norm_num [scanGood]
  refine ⟨hon, ?_, ?_⟩
  · have hc := curveOf_eq m _ [8, 16, 32, 64] true 0 _ _ hon (by norm_num) (by norm_num)
    rw [if_pos (by norm_num)] at hc
    simp only [calcCurves, List.length_cons, List.length_nil, List.headD_cons]
    norm_num [List.range, List.range.loop, hc]
  · rw [curveOf_eq m _ [8, 16, 32, 64] false 0 _ _ hoff (by norm_num) (by norm_num)]
    rw [if_neg (by norm_num)]
    rfl

/-- On a window of positive values with two different sample counts above 1, the
regression stage returns `(exp(slope), intercept)` of the least-squares line through
the points `(1 / ln n_k, ln(ln v_k + 100) / ln n_k)`. -/
theorem fitWindow_ols (spp : List Int) (good : List (Fl ℝ)) (idx0 idx1 len : Nat)
    (vf : Nat → ℝ) (hidx : idx0 + len ≤ idx1 + 1)
    (hs : ∀ t, t < len → 2 ≤ spp.getD (idx0 + t) 0)
    (hv : ∀ t, t < len → good.getD t (fin 0) = fin (vf t) ∧ 0 < vf t ∧
      0 < Real.log (vf t) + 100)
    (i j : Nat) (hi : i < len) (hj : j < len)
    (hij : spp.getD (idx0 + i) 0 ≠ spp.getD (idx0 + j) 0) :
    fitWindow (Libm.ideal Real.log Real.exp Real.sqrt Real.rpow) spp good idx0 idx1 len
      = (fin (Real.exp (olsSlope
            (fun t => 1 / Real.log (spp.getD (idx0 + t) 0 : ℝ))
            (fun t => Real.log (Real.log (vf t) + 100) / Real.log (spp.getD (idx0 + t) 0 : ℝ))
            len)),
         fin (olsIntercept
            (fun t => 1 / Real.log (spp.getD (idx0 + t) 0 : ℝ))
            (fun t => Real.log (Real.log (vf t) + 100) / Real.log (spp.getD (idx0 + t) 0 : ℝ))
            len)) := by
  rw [fitWindow_ideal spp good idx0 idx1 len vf hidx hs hv]
  have hne := abscissa_ne _ _ (hs i hi) (hs j hj) hij
  have hlen : ((List.range len).map fun t =>
      (fin (1 / Real.log (spp.getD (idx0 + t) 0 : ℝ)) : Fl ℝ)).length = len := by simp
  have hD := leastSquares_denominator_pos
    (fun t => 1 / Real.log (spp.getD (idx0 + t) 0 : ℝ)) len i j hi hj hne
  rw [leastSquares_finite _ _ (fun t => 1 / Real.log (spp.getD (idx0 + t) 0 : ℝ))
    (fun t => Real.log (Real.log (vf t) + 100) / Real.log (spp.getD (idx0 + t) 0 : ℝ))
    (fun k hk => range_map_getD _ len k (by rw [hlen] at hk; exact hk))
    (fun k hk => range_map_getD _ len k (by rw [hlen] at hk; exact hk))
    (by rw [hlen]; exact ne_of_gt hD)]
  simp only [List.length_map, List.length_range]
  rfl

/-- Claim C19, amended: whenever `calcCurves` runs the regression for a pixel-channel
(either flag), on a window of fewer than `2 ^ 31` good values that are positive, with
sample counts above 1, the first two different, the pair it returns is
`a = exp(slope)` and `b = intercept` of the least-squares line through the points
`x_k = 1 / ln(sampleCount_k)`, `y_k = ln(ln(value_k) + 100) / ln(sampleCount_k)` (math
library in exact arithmetic). -/
theorem calcCurves_regression (vars : List (List (Fl ℝ))) (spp : List Int) (flag : Bool)
    (i : Nat) (good : List (Fl ℝ)) (idx0 : Nat) (vf : Nat → ℝ)
    (hn : 2 ≤ vars.length) (hi : i < (vars.headD []).length)
    (hscan : scanGood flag (sanitized vars i) (vars.length - 1) [] 1 = (good, idx0))
    (hwin : idx0 + 2 ≤ good.length) (hsmall : good.length < 2 ^ 31)
    (hs : ∀ t, idx0 + t < good.length → 2 ≤ spp.getD (idx0 + t) 0)
    (hv : ∀ t, idx0 + t < good.length → good.getD t (fin 0) = fin (vf t) ∧ 0 < vf t ∧
      0 < Real.log (vf t) + 100)
    (hd : spp.getD idx0 0 ≠ spp.getD (idx0 + 1) 0) :
    (calcCurves (Libm.ideal Real.log Real.exp Real.sqrt Real.rpow) vars spp flag)[i]?
      = some ((fin (Real.exp (olsSlope
            (fun t => 1 / Real.log (spp.getD (idx0 + t) 0 : ℝ))
            (fun t => Real.log (Real.log (vf t) + 100) / Real.log (spp.getD (idx0 + t) 0 : ℝ))
            (good.length - idx0))),
         fin (olsIntercept
            (fun t => 1 / Real.log (spp.getD (idx0 + t) 0 : ℝ))
            (fun t => Real.log (Real.log (vf t) + 100) / Real.log (spp.getD (idx0 + t) 0 : ℝ))
            (good.length - idx0))) : CurveParam ℝ) := by
  rw [calcCurves_getElem? _ vars spp flag i hn hi,
    curveOf_eq _ vars spp flag i good idx0 hscan hsmall (by omega)]
  rw [if_neg (by omega)]
  rw [fitWindow_ols spp good idx0 (good.length - 1) (good.length - idx0) vf
    (by omega) (fun t ht => hs t (by omega)) (fun t ht => hv t (by omega))
    0 1 (by omega) (by omega) (by simpa using hd)]

/-- The scan, with the flag off, of the series `2, 1, exp(-50), exp(-60)`. -/
theorem scan_example :
    scanGood false (sanitized [[fin (2 : ℝ)], [fin 1], [fin (Real.exp (-50))],
      [fin (Real.exp (-60))]] 0)
      ([[fin (2 : ℝ)], [fin 1], [fin (Real.exp (-50))], [fin (Real.exp (-60))]].length - 1) [] 1
      = ([fin 1, fin (Real.exp (-50)), fin (Real.exp (-60))], 1) := by
  have hsan : sanitized [[fin (2 : ℝ)], [fin 1], [fin (Real.exp (-50))],
      [fin (Real.exp (-60))]] 0
      = [fin 2, fin 1, fin (Real.exp (-50)), fin (Real.exp (-60))] := by
    have h1 : isnormal (fin (1 : ℝ)) = true := by norm_num [isnormal, fltMin]
    have h2 : isnormal (fin (2 : ℝ)) = true := by norm_num [isnormal, fltMin]
    simp [sanitized, h1, h2, isnormal_exp_neg 50 (by norm_num),
      isnormal_exp_neg 60 (by norm_num)]
  rw [hsan]
  norm_num [scanGood, Real.exp_pos]

/-- The window of `scan_example` has sample counts above 1. -/
theorem scan_example_counts (t : Nat) (ht : t < 2) :
    2 ≤ ([1, 2, 4, 8] : List Int).getD (1 + t) 0 := by
  interval_cases t <;> simp

/-- Witness of C19: the series `2, 1, exp(-50), exp(-60)` at the sample counts
1, 2, 4, 8 with the flag off; the window holds `(2, 1)` and `(4, exp(-50))`. -/
theorem calcCurves_regression_witness :
    (calcCurves (Libm.ideal Real.log Real.exp Real.sqrt Real.rpow)
      [[fin 2], [fin 1], [fin (Real.exp (-50))], [fin (Real.exp (-60))]] [1, 2, 4, 8] false)[0]?
      = some ((fin (Real.exp (olsSlope
            (fun t => 1 / Real.log (([1, 2, 4, 8] : List Int).getD (1 + t) 0 : ℝ))
            (fun t => Real.log (Real.log (if t = 0 then 1 else Real.exp (-50)) + 100)
              / Real.log (([1, 2, 4, 8] : List Int).getD (1 + t) 0 : ℝ)) 2)),
         fin (olsIntercept
            (fun t => 1 / Real.log (([1, 2, 4, 8] : List Int).getD (1 + t) 0 : ℝ))
            (fun t => Real.log (Real.log (if t = 0 then 1 else Real.exp (-50)) + 100)
              / Real.log (([1, 2, 4, 8] : List Int).getD (1 + t) 0 : ℝ)) 2)) : CurveParam ℝ) := by
  have h := calcCurves_regression _ [1, 2, 4, 8] false 0 _ 1
    (fun t => if t = 0 then 1 else Real.exp (-50))
    (by simp) (by simp) scan_example (by simp) (by norm_num)
    (fun t ht => scan_example_counts t (by simp at ht; omega))
    (fun t ht => by
      have ht' : t < 2 := by simp at ht; omega
      interval_cases t
      · exact ⟨rfl, by norm_num, by norm_num⟩
      · exact ⟨rfl, by simp [Real.exp_pos], by simp; norm_num⟩)
    (by simp)
  simp only [List.length_cons, List.length_nil, Nat.reduceAdd, Nat.add_one_sub_one] at h
  exact h

/-- Counterexample to C19 as stated: for the series `2, 1, exp(-50), exp(-60)` at the
sample counts 1, 2, 4, 8 with the flag off, `calcCurves` returns `(200, -1)`; the
least-squares line has `exp(slope) = 200` and `intercept = -1`, so the first parameter
is `exp(slope)` and not `exp(intercept)`. -/
theorem calcCurves_regression_counterexample :
    (calcCurves (Libm.ideal Real.log Real.exp Real.sqrt Real.rpow)
      [[fin 2], [fin 1], [fin (Real.exp (-50))], [fin (Real.exp (-60))]] [1, 2, 4, 8] false)[0]?
      = some ((fin 200, fin (-1)) : CurveParam ℝ) ∧
    Real.exp (olsSlope
        (fun t => 1 / Real.log (([1, 2, 4, 8] : List Int).getD (1 + t) 0 : ℝ))
        (fun t => Real.log (Real.log (if t = 0 then 1 else Real.exp (-50)) + 100)
          / Real.log (([1, 2, 4, 8] : List Int).getD (1 + t) 0 : ℝ)) 2) = 200 ∧
    olsIntercept
        (fun t => 1 / Real.log (([1, 2, 4, 8] : List Int).getD (1 + t) 0 : ℝ))
        (fun t => Real.log (Real.log (if t = 0 then 1 else Real.exp (-50)) + 100)
          / Real.log (([1, 2, 4, 8] : List Int).getD (1 + t) 0 : ℝ)) 2 = -1 ∧
    Real.exp (olsIntercept
        (fun t => 1 / Real.log (([1, 2, 4, 8] : List Int).getD (1 + t) 0 : ℝ))
        (fun t => Real.log (Real.log (if t = 0 then 1 else Real.exp (-50)) + 100)
          / Real.log (([1, 2, 4, 8] : List Int).getD (1 + t) 0 : ℝ)) 2) ≠ 200 := by
  have hcurve := calcCurves_getElem? (Libm.ideal Real.log Real.exp Real.sqrt Real.rpow)
    [[fin 2], [fin 1], [fin (Real.exp (-50))], [fin (Real.exp (-60))]] [1, 2, 4, 8] false 0
    (by simp) (by simp)
  rw [curveOf_eq _ _ _ _ 0 _ _ scan_example (by norm_num) (by norm_num),
    if_neg (by norm_num)] at hcurve
  have hrt := fitWindow_round_trip [1, 2, 4, 8]
    [fin 1, fin (Real.exp (-50)), fin (Real.exp (-60))] 1
    ([fin (1 : ℝ), fin (Real.exp (-50)), fin (Real.exp (-60))].length - 1)
    ([fin (1 : ℝ), fin (Real.exp (-50)), fin (Real.exp (-60))].length - 1) 200 (-1)
    (by norm_num) (fun t => if t = 0 then 1 else Real.exp (-50)) (by simp)
    (fun t ht => scan_example_counts t (by simpa using ht))
    (fun t ht => by
      have ht' : t < 2 := by simpa using ht
      interval_cases t
      · refine ⟨rfl, by norm_num, ?_⟩
        simp [Real.rpow_neg_one]
        norm_num
      · refine ⟨rfl, by simp [Real.exp_pos], ?_⟩
        simp [Real.rpow_neg_one]
        norm_num)
    0 1 (by simp) (by simp) (by simp)
  have hols := fitWindow_ols [1, 2, 4, 8]
    [fin 1, fin (Real.exp (-50)), fin (Real.exp (-60))] 1
    ([fin (1 : ℝ), fin (Real.exp (-50)), fin (Real.exp (-60))].length - 1)
    ([fin (1 : ℝ), fin (Real.exp (-50)), fin (Real.exp (-60))].length - 1)
    (fun t => if t = 0 then 1 else Real.exp (-50)) (by simp)
    (fun t ht => scan_example_counts t (by simpa using ht))
    (fun t ht => by
      have ht' : t < 2 := by simpa using ht
      interval_cases t
      · exact ⟨rfl, by norm_num, by norm_num⟩
      · exact ⟨rfl, by simp [Real.exp_pos], by simp; norm_num⟩)
    0 1 (by simp) (by simp) (by simp)
  have heq := hols.symm.trans hrt
  injection heq with ha hb
  injection ha with ha
  injection hb with hb
  simp only [List.length_cons, List.length_nil, Nat.reduceAdd, Nat.add_one_sub_one] at ha hb
  refine ⟨?_, ha, hb, ?_⟩
  · rw [hcurve]
    exact congrArg some hrt
  · rw [hb]
    have : Real.exp (-1) < 1 := by
      calc Real.exp (-1) < Real.exp 0 := Real.exp_lt_exp.mpr (by norm_num)
        _ = 1 := Real.exp_zero
    linarith

/-! ## Weight policy: monotonicity and the range of the minimum weight -/

section Exponent

variable {α : Type} [LinearOrderedField α]

/-- With `log(spp) = 0` the exponent of `calcMinWeight` is `0 / 0`: NaN, whatever the
other logarithms are. -/
theorem exponent_nan (L A X : Fl α) :
    (fin 0 * (X - (L - A * fin 0)) / (L - (L - A * fin 0)) : Fl α) = nan := by
  have hsub : ∀ a b : Fl α, a - b = Fl.add a (Fl.neg b) := fun _ _ => rfl
  have hmul : ∀ a b : Fl α, a * b = Fl.mul a b := fun _ _ => rfl
  have hdiv : ∀ a b : Fl α, a / b = Fl.div a b := fun _ _ => rfl
  cases L <;> cases A <;> cases X <;>
    simp [hsub, hmul, hdiv, Fl.add, Fl.neg, Fl.mul, Fl.div, infTimes]

end Exponent

section WeightMore

variable {α : Type} [LinearOrderedField α] [FloorRing α]

/-- Capping at 65536 and converting to `int` is monotone on the non-negative numbers. -/
theorem cap_toInt_mono (x1 x2 : α) (h0 : 0 ≤ x2) (h : x2 ≤ x1) :
    ∃ w1 w2 : Int,
      (if le (fin 65536) (fin x1) = true then some 65536 else toInt (fin x1)) = some w1 ∧
      (if le (fin 65536) (fin x2) = true then some 65536 else toInt (fin x2)) = some w2 ∧
      w2 ≤ w1 := by
  have h01 : 0 ≤ x1 := le_trans h0 h
  have key : ∀ x : α, 0 ≤ x → ¬ (65536 : α) ≤ x →
      toInt (fin x) = some ⌊x⌋ ∧ 0 ≤ ⌊x⌋ ∧ ⌊x⌋ < 65536 := by
    intro x hx hr
    have hlt : x < 65536 := not_le.mp hr
    have hf0 : 0 ≤ ⌊x⌋ := Int.floor_nonneg.mpr hx
    have hf1 : ⌊x⌋ < 65536 := by
      rw [Int.floor_lt]
      exact_mod_cast hlt
    have h1 : (-2147483648 : Int) ≤ ⌊x⌋ := by omega
    have h2 : ⌊x⌋ ≤ 2147483647 := by omega
    exact ⟨by simp [toInt, trunc_of_nonneg hx, h1, h2], hf0, hf1⟩
  by_cases hr1 : (65536 : α) ≤ x1
  · by_cases hr2 : (65536 : α) ≤ x2
    · exact ⟨65536, 65536, by simp [hr1], by simp [hr2], le_refl _⟩
    · obtain ⟨e2, _, hlt⟩ := key x2 h0 hr2
      exact ⟨65536, ⌊x2⌋, by simp [hr1], by simp [hr2, e2], by omega⟩
  · have hr2 : ¬ (65536 : α) ≤ x2 := fun h2 => hr1 (le_trans h2 h)
    obtain ⟨e1, _, _⟩ := key x1 h01 hr1
    obtain ⟨e2, _, _⟩ := key x2 h0 hr2
    exact ⟨⌊x1⌋, ⌊x2⌋, by simp [hr1, e1], by simp [hr2, e2], Int.floor_le_floor h⟩

/-- At one sample per pixel, outside the early return, `calcMinWeight` converts NaN to
`int`, which is undefined. -/
theorem calcMinWeight_one_sample (m : Libm α) (v s i : Fl α)
    (hlog : m.log (fin 1) = fin 0) (hexp : m.exp nan = nan)
    (he : (lt v (fin (1 / 10 ^ 7)) && lt i (fin (1 / 10 ^ 7))) = false) :
    calcMinWeight m v s i 1 = none := by
  simp only [calcMinWeight, he, ofInt_eq, Int.cast_one, hlog, exponent_nan, hexp]
  rfl

end WeightMore

/-- The power of the math library in exact arithmetic, for a positive base and a finite
exponent that is not zero. -/
theorem idealPow_rpow_pos (p y : ℝ) (hp : 0 < p) (hy : y ≠ 0) :
    idealPow Real.rpow (fin p) (fin y) = fin (p ^ y) := by
  unfold idealPow
  have h1 : (fin y : Fl ℝ) ≠ fin 0 := by
    intro h
    injection h with h
    exact hy h
  rw [if_neg h1]
  by_cases h2 : (fin p : Fl ℝ) = fin 1
  · rw [if_pos h2]
    injection h2 with h2
    rw [h2, Real.one_rpow]
  · rw [if_neg h2]
    simp only [if_neg (ne_of_gt hp), if_pos hp]
    rfl

/-- Counterexample to C6 as stated: the single-precision number `1e-6f = 8796093 / 2 ^ 43`
is below `10 ^ (-6)`, yet the curve `(1e-6f, 1e-6f)` does not pass the test
`a < 1e-6f && b < 1e-6f`: at risk 1 the power path is taken, the power value is at
least `100 / 1e-6f`, and the result is 65536, not `min(7, 65536) = 7`. -/
theorem denoisedWeight_fallback_counterexample :
    lt (fin (8796093 / 2 ^ 43 : ℝ)) (fin (1 / 10 ^ 6)) = true ∧
    denoisedWeight (Libm.ideal Real.log Real.exp Real.sqrt Real.rpow)
      (fin 1) (fin (8796093 / 2 ^ 43), fin (8796093 / 2 ^ 43)) 7 = some 65536 ∧
    min (7 : Int) 65536 = 7 := by
  refine ⟨by norm_num, ?_, by decide⟩
  rw [denoisedWeight_of_not_fallback _ _ _ _ (by norm_num) (by norm_num)]
  have hlog : (Libm.ideal Real.log Real.exp Real.sqrt Real.rpow).log (fin 1) = fin 0 := by
    simp [Libm.ideal]
  have hpow : (Libm.ideal Real.log Real.exp Real.sqrt Real.rpow).pow = idealPow Real.rpow := rfl
  simp only [hlog, hpow, fin_add_fin, zero_add]
  rw [fin_div_fin_of_ne _ (by norm_num), fin_div_fin_of_ne _ (by norm_num),
    idealPow_rpow_pos _ _ (by norm_num) (by norm_num)]
  have h1 : (65536 : ℝ) ≤ 100 / (8796093 / 2 ^ 43) := by norm_num
  have h2 : (100 / (8796093 / 2 ^ 43) : ℝ) ^ (1 : ℝ)
      ≤ (100 / (8796093 / 2 ^ 43) : ℝ) ^ (1 / (8796093 / 2 ^ 43) : ℝ) :=
    Real.rpow_le_rpow_of_exponent_le (by norm_num) (by norm_num)
  rw [Real.rpow_one] at h2
  rw [if_pos (by simpa using le_trans h1 h2)]

/-- Claim C11: with the curve held fixed, a lower risk never gets a lower weight.  With
the math library in exact arithmetic, for every curve `(a, b)` with `a > 0` and `b < 0`,
every `minWeight` and every two risks `1e-12 < r1 ≤ r2`, `denoisedWeight` returns an
integer for both risks and the weight of `r1` is at least the weight of `r2`. -/
theorem denoisedWeight_monotone (r1 r2 a b : ℝ) (minWeight : Int) (ha : 0 < a) (hb : b < 0)
    (hr1 : 1 / 10 ^ 12 < r1) (hr : r1 ≤ r2) :
    ∃ w1 w2 : Int,
      denoisedWeight (Libm.ideal Real.log Real.exp Real.sqrt Real.rpow)
        (fin r1) (fin a, fin b) minWeight = some w1 ∧
      denoisedWeight (Libm.ideal Real.log Real.exp Real.sqrt Real.rpow)
        (fin r2) (fin a, fin b) minWeight = some w2 ∧ w2 ≤ w1 := by
  have hr2 : (1 : ℝ) / 10 ^ 12 < r2 := lt_of_lt_of_le hr1 hr
  have hpos1 : 0 < r1 := lt_trans (by positivity) hr1
  have hpos2 : 0 < r2 := lt_trans (by positivity) hr2
  by_cases hc : lt (fin a) (fin (8796093 / 2 ^ 43)) = true ∧
      lt (fin b) (fin (8796093 / 2 ^ 43)) = true
  · exact ⟨min minWeight 65536, min minWeight 65536,
      denoisedWeight_of_fallback _ _ (fin a, fin b) _ (Or.inr hc),
      denoisedWeight_of_fallback _ _ (fin a, fin b) _ (Or.inr hc), le_refl _⟩
  · have hs1 : le (fin r1) (fin (2305843 / 2 ^ 61 : ℝ)) = false :=
      le_literal_eq_false_of_lt _ (by simpa using hr1)
    have hs2 : le (fin r2) (fin (2305843 / 2 ^ 61 : ℝ)) = false :=
      le_literal_eq_false_of_lt _ (by simpa using hr2)
    rw [denoisedWeight_of_not_fallback _ _ (fin a, fin b) _ hs1 hc,
      denoisedWeight_of_not_fallback _ _ (fin a, fin b) _ hs2 hc]
    have hpow : (Libm.ideal Real.log Real.exp Real.sqrt Real.rpow).pow = idealPow Real.rpow := rfl
    have hl1 := log_add_hundred_pos hr1
    have hl2 := log_add_hundred_pos hr2
    have hb0 : b ≠ 0 := ne_of_lt hb
    have hy : (1 : ℝ) / b ≠ 0 := one_div_ne_zero hb0
    have hy' : (1 : ℝ) / b ≤ 0 := le_of_lt (one_div_neg.mpr hb)
    have hp1 : 0 < (Real.log r1 + 100) / a := div_pos hl1 ha
    have hp2 : 0 < (Real.log r2 + 100) / a := div_pos hl2 ha
    have hple : (Real.log r1 + 100) / a ≤ (Real.log r2 + 100) / a := by
      apply div_le_div_of_nonneg_right _ (le_of_lt ha)
      have := Real.log_le_log hpos1 hr
      linarith
    simp only [hpow, ideal_log_pos _ _ _ _ _ hpos1, ideal_log_pos _ _ _ _ _ hpos2, fin_add_fin,
      fin_div_fin_of_ne _ (ne_of_gt ha), one_div_fin, if_neg hb0,
      idealPow_rpow_pos _ _ hp1 hy, idealPow_rpow_pos _ _ hp2 hy]
    exact cap_toInt_mono _ _ (Real.rpow_nonneg (le_of_lt hp2) _)
      (Real.rpow_le_rpow_of_exponent_nonpos hp1 hple hy')

/-- Witness of C11: the risks 0.01 and 0.05 of the scenario of the specification, with
the curve `(1, -1)`. -/
theorem denoisedWeight_monotone_witness :
    ∃ w1 w2 : Int,
      denoisedWeight (Libm.ideal Real.log Real.exp Real.sqrt Real.rpow)
        (fin (1 / 100)) (fin 1, fin (-1)) 0 = some w1 ∧
      denoisedWeight (Libm.ideal Real.log Real.exp Real.sqrt Real.rpow)
        (fin (1 / 20)) (fin 1, fin (-1)) 0 = some w2 ∧ w2 ≤ w1 :=
  denoisedWeight_monotone (1 / 100) (1 / 20) 1 (-1) 0 (by norm_num) (by norm_num)
    (by norm_num) (by norm_num)

/-- Claim C16, evaluation at a failing input: for the variance 1, the risk 1, the
reference intensity 1 and the sample count 1, `calcMinWeight` has no defined result.
The logarithm of the sample count is 0, the exponent is `0 / 0`, and NaN is converted
to `int` before the cap at 65536 is applied. -/
theorem calcMinWeight_undefined :
    calcMinWeight (Libm.ideal Real.log Real.exp Real.sqrt Real.rpow) (fin 1) (fin 1) (fin 1) 1
      = none := by
  apply calcMinWeight_one_sample
  · simp [Libm.ideal]
  · rfl
  · norm_num

/-! ## Least squares and the convexity of the blend -/

section Exact

variable {α : Type} [LinearOrderedField α]

/-- In exact arithmetic `_leastSquares` is ordinary least squares in closed form.  For `n ≥ 2`
finite points that lie on the line `y = m * x + q`, two of them with different
abscissas, it returns `(slope, intercept) = (m, q)`; in particular, for two points with
different abscissas the returned line passes through both. -/
theorem leastSquares_exact (x y : List (Fl α)) (f : Nat → α) (m q : α)
    (_hn : 2 ≤ x.length)
    (hx : ∀ i, i < x.length → x.getD i (fin 0) = fin (f i))
    (hy : ∀ i, i < x.length → y.getD i (fin 0) = fin (m * f i + q))
    (i j : Nat) (hi : i < x.length) (hj : j < x.length) (hij : f i ≠ f j) :
    leastSquares x y = (fin m, fin q) ∧
    ∀ x0 x1 y0 y1 : α, x0 ≠ x1 →
      ∃ s c : α, leastSquares [fin x0, fin x1] [fin y0, fin y1] = (fin s, fin c) ∧
        s * x0 + c = y0 ∧ s * x1 + c = y1 := by
  refine ⟨leastSquares_line x y f m q hx hy i j hi hj hij, ?_⟩
  intro x0 x1 y0 y1 hne
  have hd : x1 - x0 ≠ 0 := sub_ne_zero.mpr (Ne.symm hne)
  refine ⟨(y1 - y0) / (x1 - x0), y0 - (y1 - y0) / (x1 - x0) * x0, ?_, by ring, ?_⟩
  · apply leastSquares_line [fin x0, fin x1] [fin y0, fin y1]
      (fun k => if k = 0 then x0 else x1) _ _ _ _ 0 1 (by simp) (by simp) (by simpa using hne)
    · intro k hk
      have hk' : k < 2 := by simpa using hk
      interval_cases k <;> simp
    · intro k hk
      have hk' : k < 2 := by simpa using hk
      interval_cases k
      · simp
      · simp only [List.getD_cons_succ, List.getD_cons_zero, one_ne_zero, if_false]
        congr 1
        field_simp
        ring
  · field_simp
    ring

/-- A blended finite pixel lies between the noisy and the denoised sample. -/
theorem blend_convex_entry (n d : α) (w1 w : Int) (hw1 : 0 < w1) (hw : 0 ≤ w) :
    min n d ≤ (n * (w1 : α) + d * (w : α)) / ((w1 + w : Int) : α) ∧
      (n * (w1 : α) + d * (w : α)) / ((w1 + w : Int) : α) ≤ max n d := by
  have h1 : (0 : α) < (w1 : α) := by exact_mod_cast hw1
  have h2 : (0 : α) ≤ (w : α) := by exact_mod_cast hw
  have h3 : (0 : α) < ((w1 + w : Int) : α) := by
    push_cast
    linarith
  constructor
  · rw [le_div_iff₀ h3]
    push_cast
    have ha := mul_le_mul_of_nonneg_right (min_le_left n d) (le_of_lt h1)
    have hb := mul_le_mul_of_nonneg_right (min_le_right n d) h2
    linarith
  · rw [div_le_iff₀ h3]
    push_cast
    have ha := mul_le_mul_of_nonneg_right (le_max_left n d) (le_of_lt h1)
    have hb := mul_le_mul_of_nonneg_right (le_max_right n d) h2
    linarith

/-- In exact arithmetic (no rounding, `int` sums without overflow): for a pixel-channel
whose noisy and denoised samples are finite numbers, a positive `noisySampleCount` and a
weight `w_i ≥ 0`, the divisor `noisySampleCount + w_i` is not zero and the blended value
is a finite number between the minimum and the maximum of the two samples. -/
theorem blend_convex (img1 img2 : List (Fl α)) (w1 : Int) (w2 : List Int) (i : Nat)
    (n d : α) (hi : i < min img1.length img2.length)
    (hl : min img1.length img2.length ≤ w2.length)
    (hn : img1.getD i (fin 0) = fin n) (hd : img2.getD i (fin 0) = fin d)
    (hw1 : 0 < w1) (hw : 0 ≤ w2.getD i 0) :
    w1 + w2.getD i 0 ≠ 0 ∧
    ∃ r : α, (blend img1 img2 w1 w2)[i]? = some (fin r) ∧ min n d ≤ r ∧ r ≤ max n d := by
  have hne : ((w1 + w2.getD i 0 : Int) : α) ≠ 0 := by
    have : (0 : Int) < w1 + w2.getD i 0 := by omega
    exact_mod_cast ne_of_gt this
  refine ⟨by omega, _, ?_, blend_convex_entry n d w1 _ hw1 hw⟩
  rw [blend_getElem? img1 img2 w1 w2 hl i hi, hn, hd]
  simp only [ofInt_eq, fin_mul_fin, fin_add_fin]
  rw [fin_div_fin_of_ne _ hne]

end Exact

/-- Example in exact arithmetic: the three points `(1, 5), (2, 8), (4, 14)` of the line
`y = 3 * x + 2`. -/
theorem leastSquares_exact_witness :
    leastSquares [fin (1 : ℚ), fin 2, fin 4] [fin 5, fin 8, fin 14] = (fin 3, fin 2) :=
  (leastSquares_exact [fin 1, fin 2, fin 4] [fin 5, fin 8, fin 14]
    (fun k => if k = 0 then 1 else if k = 1 then 2 else 4) 3 2 (by simp)
    (fun k hk => by
      have hk' : k < 3 := by simpa using hk
      interval_cases k <;> simp)
    (fun k hk => by
      have hk' : k < 3 := by simpa using hk
      interval_cases k <;> norm_num)
    0 1 (by simp) (by simp) (by norm_num)).1

/-- Example in exact arithmetic: noisy sample 1, denoised sample 9, sample count 3 and
weight 5. -/
theorem blend_convex_witness :
    (3 : Int) + ([5] : List Int).getD 0 0 ≠ 0 ∧
    ∃ r : ℚ, (blend [fin (1 : ℚ)] [fin 9] 3 [5])[0]? = some (fin r) ∧
      min 1 9 ≤ r ∧ r ≤ max 1 9 :=
  blend_convex [fin 1] [fin 9] 3 [5] 0 1 9 (by decide) (by decide) rfl rfl (by decide)
    (by decide)

/-- In exact arithmetic already: with the denoised sample minus infinity and the
weight 0, the product `-inf * 0` is NaN and the blended value is NaN, which is neither
above the minimum of the two samples nor below their maximum. -/
theorem blend_convex_counterexample :
    (blend [fin (2 : ℚ)] [ninf] 3 [0])[0]? = some nan ∧
    le (ninf : Fl ℚ) nan = false ∧ le (nan : Fl ℚ) (fin 2) = false := by
  refine ⟨by decide, by decide, by decide⟩

/-! ## Risk estimator at a zero or invalid variance -/

section ZeroVariance

variable {α : Type} [LinearOrderedField α]

/-- Supporting fact for C25: where the variance is not normal, the draw is finite, the
square root of zero is zero and the denoised sample and the denoiser output are finite,
the probe and the divergence term are zero and `sure` returns the squared difference of
the sanitised samples, which is not negative. -/
theorem sure_zero_variance (m : Libm α) (run : List (Fl α) → Option (List (Fl α)))
    (nrm : Nat → Fl α) (denoised noisy var fz : List (Fl α)) (i : Nat) (d δ φ : α)
    (hi : i < denoised.length) (hi2 : i < noisy.length)
    (hrun : run (perturbed noisy (probe m nrm var denoised.length) (fin 1) denoised.length)
      = some fz)
    (hvar : isnormal (var.getD i (fin 0)) = false) (hsqrt : m.sqrt (fin 0) = fin 0)
    (hdraw : nrm i = fin δ) (hd : denoised.getD i (fin 0) = fin d)
    (hφ : fz.getD i (fin 0) = fin φ) :
    (probe m nrm var denoised.length).getD i (fin 0) = fin 0 ∧
    (jacobian m run nrm denoised noisy var (fin 1)).getD i (fin 0) = fin 0 ∧
    (sure m run nrm denoised noisy var)[i]? =
      some (fin ((sanVal (noisy.getD i (fin 0)) - sanVal (fin d)) ^ 2)) ∧
    0 ≤ (sanVal (noisy.getD i (fin 0)) - sanVal (fin d)) ^ 2 := by
  have hb : (probe m nrm var denoised.length).getD i (fin 0) = fin 0 := by
    simp only [probe]
    rw [range_map_getD' _ _ _ hi]
    simp only [hvar, Bool.false_eq_true, if_false, hsqrt, hdraw, fin_mul_fin, mul_zero]
  have hj : (jacobian m run nrm denoised noisy var (fin 1)).getD i (fin 0) = fin 0 := by
    rw [jacobian_getD m run nrm denoised noisy var fz (fin 1) i hi hrun, hb, hd, hφ]
    simp
  have hv : sanVal (var.getD i (fin 0)) = 0 := by
    have h := sanitize_eq_fin (var.getD i (fin 0))
    rw [hvar] at h
    simp only [Bool.false_eq_true, if_false] at h
    injection h with h
    exact h.symm
  refine ⟨hb, hj, ?_, sq_nonneg _⟩
  rw [sure_getElem? m run nrm denoised noisy var i hi, hj,
    mseVector_getD denoised noisy i hi hi2, sqDiff_eq, hd, hv]
  simp only [fin_sub_fin, fin_mul_fin, fin_add_fin]
  congr 2
  ring

end ZeroVariance

/-- Claim C25, evaluation at a failing input: for the variance `[0]`, the denoised buffer
`[NaN]`, the noisy buffer `[1]` and the finite denoiser output `[1]`, the divergence term
is NaN and `sure` returns `[NaN]`, whatever the draw and the math library, instead of the
squared error `(1 - 0)^2 = 1` of the sanitised samples. -/
theorem sure_zero_variance_nan (m : Libm ℚ) (nrm : Nat → Fl ℚ) :
    isnormal (([fin 0] : List (Fl ℚ)).getD 0 (fin 0)) = false ∧
    jacobian m (fun _ => some [fin 1]) nrm [nan] [fin 1] [fin 0] (fin 1) = [nan] ∧
    sure m (fun _ => some [fin 1]) nrm [nan] [fin 1] [fin 0] = [nan] := by
  refine ⟨by simp [isnormal, fltMin], ?_, ?_⟩
  · simp [jacobian, List.range, List.range.loop]
  · simp [sure, jacobian, mseVector, sqDiff, isnormal, List.range, List.range.loop]

/-! ## Minimum weight: the two-point power law in exact arithmetic -/

/-- The square root of the math library in exact arithmetic at a non-negative number. -/
theorem ideal_sqrt_nonneg (lg ex sq : ℝ → ℝ) (pw : ℝ → ℝ → ℝ) (x : ℝ) (hx : 0 ≤ x) :
    (Libm.ideal lg ex sq pw).sqrt (fin x) = fin (sq x) := by
  simp [Libm.ideal, hx]

/-- The value `std::pow(10.0f, 20)` in exact arithmetic. -/
theorem ideal_pow_ten :
    (Libm.ideal Real.log Real.exp Real.sqrt Real.rpow).pow (fin 10) (fin ((20 : Int) : ℝ))
      = fin ((10 : ℝ) ^ 20) := by
  have h : (Libm.ideal Real.log Real.exp Real.sqrt Real.rpow).pow = idealPow Real.rpow := rfl
  have h20 : ((20 : Int) : ℝ) = 20 := by norm_num
  rw [h, h20, idealPow_rpow_pos 10 20 (by norm_num) (by norm_num)]
  congr 1
  have : ((20 : ℝ)) = ((20 : ℕ) : ℝ) := by norm_num
  rw [this, Real.rpow_natCast]

/-- The exponent `a` of the two-point power law of `calcMinWeight` lies in `(-2, 0)`. -/
theorem minWeight_slope (x P : ℝ) (hx : 0 < x) (hP2 : 2 ≤ P) (hPmax : P ≤ 2147483647) :
    -2 < (Real.log x - Real.log (√x / ((10 : ℝ) ^ 20 / P - 1) * (√x / ((10 : ℝ) ^ 20 / P - 1))))
        / (Real.log P - Real.log ((10 : ℝ) ^ 20)) ∧
    (Real.log x - Real.log (√x / ((10 : ℝ) ^ 20 / P - 1) * (√x / ((10 : ℝ) ^ 20 / P - 1))))
        / (Real.log P - Real.log ((10 : ℝ) ^ 20)) < 0 := by
  have hPpos : (0 : ℝ) < P := by linarith
  have hN : (0 : ℝ) < (10 : ℝ) ^ 20 := by positivity
  have hNP : (2 : ℝ) < (10 : ℝ) ^ 20 / P := by
    rw [lt_div_iff₀ hPpos]
    nlinarith
  have hK : (1 : ℝ) < (10 : ℝ) ^ 20 / P - 1 := by linarith
  have hKpos : (0 : ℝ) < (10 : ℝ) ^ 20 / P - 1 := by linarith
  have hden : Real.log P - Real.log ((10 : ℝ) ^ 20) < 0 := by
    have : Real.log P < Real.log ((10 : ℝ) ^ 20) := Real.log_lt_log hPpos (by nlinarith)
    linarith
  have hqq : √x / ((10 : ℝ) ^ 20 / P - 1) * (√x / ((10 : ℝ) ^ 20 / P - 1))
      = x / (((10 : ℝ) ^ 20 / P - 1) ^ 2) := by
    rw [div_mul_div_comm, Real.mul_self_sqrt (le_of_lt hx), pow_two]
  have hnum : Real.log x
      - Real.log (√x / ((10 : ℝ) ^ 20 / P - 1) * (√x / ((10 : ℝ) ^ 20 / P - 1)))
      = 2 * Real.log ((10 : ℝ) ^ 20 / P - 1) := by
    rw [hqq, Real.log_div (ne_of_gt hx) (by positivity), Real.log_pow]
    push_cast
    ring
  have hlogK : 0 < Real.log ((10 : ℝ) ^ 20 / P - 1) := Real.log_pos hK
  have hlogK' : Real.log ((10 : ℝ) ^ 20 / P - 1) < Real.log ((10 : ℝ) ^ 20) - Real.log P := by
    rw [← Real.log_div (ne_of_gt hN) (ne_of_gt hPpos)]
    exact Real.log_lt_log hKpos (by linarith)
  rw [hnum]
  constructor
  · rw [lt_div_iff_of_neg hden]
    linarith
  · exact div_neg_of_pos_of_neg (by linarith) hden

/-- Rounding leaves an integer as it is. -/
theorem round_intCast (n : Int) : round (fin (n : ℝ)) = fin (n : ℝ) := by
  have h1 : ⌊(n : ℝ) + 1 / 2⌋ = n := by
    rw [Int.floor_eq_iff]
    constructor <;> linarith
  have h2 : ⌈(n : ℝ) - 1 / 2⌉ = n := by
    rw [Int.ceil_eq_iff]
    constructor <;> linarith
  simp only [Fl.round]
  rw [h1, h2, ite_self]

/-- The conversion `int(std::round(x))` of a non-negative number. -/
theorem toInt_round_nonneg (x : ℝ) (hx : 0 ≤ x) :
    toInt (round (fin x))
      = if ⌊x + 1 / 2⌋ ≤ 2147483647 then some ⌊x + 1 / 2⌋ else none := by
  have h0 : (0 : Int) ≤ ⌊x + 1 / 2⌋ := Int.floor_nonneg.mpr (by linarith)
  have hlow : (-2147483648 : Int) ≤ ⌊x + 1 / 2⌋ := by omega
  simp only [Fl.round, if_pos hx, toInt, trunc_intCast, hlow, true_and]

/-- The exact value of `calcMinWeight` outside the early return, for a finite variance and
at least two samples: with `a` the exponent of the fitted power law, a number of
`(-2, 0)` that does not depend on the risk, the weight is the conversion of
`exp (ln spp + (ln (s + e) - ln (v + e)) / a)`. -/
theorem calcMinWeight_ideal (v : ℝ) (i : Fl ℝ) (spp : Int) (hv : 0 ≤ v)
    (he : (lt (fin v) (fin (1 / 10 ^ 7)) && lt i (fin (1 / 10 ^ 7))) = false)
    (h2 : 2 ≤ spp) (hmax : spp ≤ 2147483647) :
    ∃ A : ℝ, -2 < A ∧ A < 0 ∧ ∀ s : ℝ, 0 ≤ s →
      calcMinWeight (Libm.ideal Real.log Real.exp Real.sqrt Real.rpow) (fin v) (fin s) i spp
        = (toInt (round (fin (Real.exp (Real.log (spp : ℝ)
            + (Real.log (s + 1 / 10 ^ 7) - Real.log (v + 1 / 10 ^ 7)) / A))))).map
          (fun w => min w 65536) := by
  have hP2 : (2 : ℝ) ≤ (spp : ℝ) := by exact_mod_cast h2
  have hPmax : (spp : ℝ) ≤ 2147483647 := by exact_mod_cast hmax
  have hP : (spp : ℝ) ≠ 0 := by linarith
  have hPpos : (0 : ℝ) < (spp : ℝ) := by linarith
  have hK : (1 : ℝ) < (10 : ℝ) ^ 20 / (spp : ℝ) - 1 := by
    have : (2 : ℝ) < (10 : ℝ) ^ 20 / (spp : ℝ) := by
      rw [lt_div_iff₀ hPpos]
      nlinarith
    linarith
  have hK0 : (10 : ℝ) ^ 20 / (spp : ℝ) - 1 ≠ 0 := by linarith
  have hve : 0 < v + 1 / 10 ^ 7 := by positivity
  have hq : 0 < √(v + 1 / 10 ^ 7) / ((10 : ℝ) ^ 20 / (spp : ℝ) - 1) :=
    div_pos (Real.sqrt_pos.mpr hve) (by linarith)
  have hN : (0 : ℝ) < (10 : ℝ) ^ 20 := by positivity
  have hden : Real.log (spp : ℝ) - Real.log ((10 : ℝ) ^ 20) < 0 := by
    have : Real.log (spp : ℝ) < Real.log ((10 : ℝ) ^ 20) :=
      Real.log_lt_log hPpos (by nlinarith)
    linarith
  obtain ⟨hA2, hA0⟩ := minWeight_slope (v + 1 / 10 ^ 7) (spp : ℝ) hve hP2 hPmax
  have hlogP : 0 < Real.log (spp : ℝ) := Real.log_pos (by linarith)
  generalize hAdef : (Real.log (v + 1 / 10 ^ 7)
      - Real.log (√(v + 1 / 10 ^ 7) / ((10 : ℝ) ^ 20 / (spp : ℝ) - 1)
        * (√(v + 1 / 10 ^ 7) / ((10 : ℝ) ^ 20 / (spp : ℝ) - 1))))
      / (Real.log (spp : ℝ) - Real.log ((10 : ℝ) ^ 20)) = A at hA2 hA0
  refine ⟨A, hA2, hA0, ?_⟩
  intro s hs
  have hse : 0 < s + 1 / 10 ^ 7 := by positivity
  have hLB : Real.log (v + 1 / 10 ^ 7)
      - (Real.log (v + 1 / 10 ^ 7) - A * Real.log (spp : ℝ)) ≠ 0 := by
    have : A * Real.log (spp : ℝ) < 0 := mul_neg_of_neg_of_pos hA0 hlogP
    intro h
    linarith
  simp only [calcMinWeight, he, Bool.false_eq_true, if_false, ofInt_eq, ideal_pow_ten,
    fin_add_fin, ideal_sqrt_nonneg _ _ _ _ _ (le_of_lt hve), fin_div_fin_of_ne _ hP,
    fin_sub_fin, fin_div_fin_of_ne _ hK0, fin_mul_fin,
    ideal_log_pos _ _ _ _ _ hPpos, ideal_log_pos _ _ _ _ _ hse,
    ideal_log_pos _ _ _ _ _ hve, ideal_log_pos _ _ _ _ _ (mul_pos hq hq),
    ideal_log_pos _ _ _ _ _ hN, fin_div_fin_of_ne _ (ne_of_lt hden), hAdef,
    fin_div_fin_of_ne _ hLB]
  have hE : Real.log (spp : ℝ)
      * (Real.log (s + 1 / 10 ^ 7) - (Real.log (v + 1 / 10 ^ 7) - A * Real.log (spp : ℝ)))
      / (Real.log (v + 1 / 10 ^ 7) - (Real.log (v + 1 / 10 ^ 7) - A * Real.log (spp : ℝ)))
      = Real.log (spp : ℝ) + (Real.log (s + 1 / 10 ^ 7) - Real.log (v + 1 / 10 ^ 7)) / A := by
    have hA : A ≠ 0 := ne_of_lt hA0
    have hl : Real.log (spp : ℝ) ≠ 0 := ne_of_gt hlogP
    have h1 : Real.log (v + 1 / 10 ^ 7) - (Real.log (v + 1 / 10 ^ 7) - A * Real.log (spp : ℝ))
        = A * Real.log (spp : ℝ) := by ring
    rw [h1]
    field_simp
    ring
  rw [hE]
  rfl

/-- In exact arithmetic, when the risk equals the variance, the minimum weight is the
sample count itself.  With the math library in exact arithmetic, for every finite variance `v ≥ 0`,
every reference intensity `i` that does not take the early return with `v`, and every
sample count `spp ≥ 2` of an `int`, `calcMinWeight v v i spp` is `min spp 65536`. -/
theorem calcMinWeight_equal_risk (v : ℝ) (i : Fl ℝ) (spp : Int) (hv : 0 ≤ v)
    (he : (lt (fin v) (fin (1 / 10 ^ 7)) && lt i (fin (1 / 10 ^ 7))) = false)
    (h2 : 2 ≤ spp) (hmax : spp ≤ 2147483647) :
    calcMinWeight (Libm.ideal Real.log Real.exp Real.sqrt Real.rpow) (fin v) (fin v) i spp
      = some (min spp 65536) := by
  obtain ⟨A, -, -, h⟩ := calcMinWeight_ideal v i spp hv he h2 hmax
  have hPpos : (0 : ℝ) < (spp : ℝ) := by exact_mod_cast (by omega : (0 : Int) < spp)
  rw [h v hv, sub_self, zero_div, add_zero, Real.exp_log hPpos, round_intCast,
    toInt_intCast _ (by omega) hmax]
  rfl

/-- Example in exact arithmetic: variance and risk 1, reference intensity 1 and 16
samples. -/
theorem calcMinWeight_equal_risk_witness :
    calcMinWeight (Libm.ideal Real.log Real.exp Real.sqrt Real.rpow)
      (fin 1) (fin 1) (fin 1) 16 = some 16 :=
  calcMinWeight_equal_risk 1 (fin 1) 16 (by norm_num) (by norm_num [lt]) (by decide)
    (by decide)

/-- In exact arithmetic already: an infinite variance is not below `1e-7`, the
difference `ln (v + e) - ln expV` is `inf - inf`, and the conversion of NaN to `int` is
undefined. -/
theorem calcMinWeight_equal_risk_counterexample :
    lt (pinf : Fl ℝ) (fin (1 / 10 ^ 7)) = false ∧
    calcMinWeight (Libm.ideal Real.log Real.exp Real.sqrt Real.rpow)
      pinf pinf (fin 1) 2 = none := by
  constructor
  · rfl
  · have hsub : ∀ a b : Fl ℝ, a - b = Fl.add a (Fl.neg b) := fun _ _ => rfl
    have hadd : ∀ a b : Fl ℝ, a + b = Fl.add a b := fun _ _ => rfl
    have hmul : ∀ a b : Fl ℝ, a * b = Fl.mul a b := fun _ _ => rfl
    have hdiv : ∀ a b : Fl ℝ, a / b = Fl.div a b := fun _ _ => rfl
    norm_num [calcMinWeight, Libm.ideal, idealPow, lt, toInt, Fl.round, hsub, hadd, hmul, hdiv,
      Fl.add, Fl.neg, Fl.mul, Fl.div, infTimes]

/-- Claim C23 (refuted by the code): `calcMinWeight` is not non-increasing in the risk.
At variance 1, reference intensity 1 and 999999 samples the risk 1 gets the weight
65536, while at the lower risk 0 the value `exp (...)` is at least `2 ^ 31`, so its
conversion to `int`, done before the cap, is undefined. -/
theorem calcMinWeight_risk_overflow :
    calcMinWeight (Libm.ideal Real.log Real.exp Real.sqrt Real.rpow)
      (fin 1) (fin 0) (fin 1) 999999 = none ∧
    calcMinWeight (Libm.ideal Real.log Real.exp Real.sqrt Real.rpow)
      (fin 1) (fin 1) (fin 1) 999999 = some 65536 := by
  obtain ⟨A, hA2, hA0, h⟩ := calcMinWeight_ideal 1 (fin 1) 999999 (by norm_num)
    (by norm_num [lt]) (by decide) (by decide)
  constructor
  · have hx : (2147483648 : ℝ) ≤ Real.exp (Real.log ((999999 : Int) : ℝ)
        + (Real.log (0 + 1 / 10 ^ 7) - Real.log (1 + 1 / 10 ^ 7)) / A) := by
      have hD : Real.log ((2147483648 : ℝ) ^ 2 * (1 / 10 ^ 7))
          ≤ Real.log ((999999 : ℝ) ^ 2 * (1 + 1 / 10 ^ 7)) :=
        Real.log_le_log (by positivity) (by norm_num)
      rw [Real.log_mul (by norm_num) (by norm_num), Real.log_mul (by norm_num) (by norm_num),
        Real.log_pow, Real.log_pow] at hD
      have hlt : Real.log ((0 : ℝ) + 1 / 10 ^ 7) < Real.log (1 + 1 / 10 ^ 7) :=
        Real.log_lt_log (by norm_num) (by norm_num)
      have ht : 0 < (Real.log ((0 : ℝ) + 1 / 10 ^ 7) - Real.log (1 + 1 / 10 ^ 7)) / A :=
        div_pos_of_neg_of_neg (by linarith) hA0
      have htA : (Real.log ((0 : ℝ) + 1 / 10 ^ 7) - Real.log (1 + 1 / 10 ^ 7)) / A * A
          = Real.log ((0 : ℝ) + 1 / 10 ^ 7) - Real.log (1 + 1 / 10 ^ 7) :=
        div_mul_cancel₀ _ (ne_of_lt hA0)
      have hc : ((999999 : Int) : ℝ) = 999999 := by norm_num
      have h0 : ((0 : ℝ) + 1 / 10 ^ 7) = 1 / 10 ^ 7 := by norm_num
      rw [h0] at hlt ht htA ⊢
      rw [hc]
      have hE : Real.log 2147483648 ≤ Real.log 999999
          + (Real.log (1 / 10 ^ 7) - Real.log (1 + 1 / 10 ^ 7)) / A := by
        push_cast at hD
        nlinarith
      calc (2147483648 : ℝ) = Real.exp (Real.log 2147483648) :=
            (Real.exp_log (by norm_num)).symm
        _ ≤ _ := Real.exp_le_exp.mpr hE
    have hfl : (2147483648 : Int) ≤ ⌊Real.exp (Real.log ((999999 : Int) : ℝ)
        + (Real.log (0 + 1 / 10 ^ 7) - Real.log (1 + 1 / 10 ^ 7)) / A) + 1 / 2⌋ := by
      rw [Int.le_floor]
      push_cast
      linarith
    rw [h 0 (le_refl _), toInt_round_nonneg _ (by linarith), if_neg (by omega)]
    rfl
  · rw [h 1 (by norm_num), sub_self, zero_div, add_zero]
    have hc : ((999999 : Int) : ℝ) = 999999 := by norm_num
    rw [Real.exp_log (by norm_num), round_intCast, toInt_intCast _ (by decide) (by decide)]
    rfl

/-- Supporting C23: where the conversion to `int` is defined the claim holds.  With the
math library in exact arithmetic, for every finite variance `v ≥ 0`, every `spp ≥ 2` and
risks `0 ≤ s1 ≤ s2`, if `calcMinWeight` returns an integer at the lower risk `s1` then it
returns an integer at `s2` too, and that one is not larger. -/
theorem calcMinWeight_antitone_of_defined (v s1 s2 : ℝ) (i : Fl ℝ) (spp w1 : Int)
    (hv : 0 ≤ v) (hs1 : 0 ≤ s1) (hs : s1 ≤ s2) (h2 : 2 ≤ spp) (hmax : spp ≤ 2147483647)
    (h1 : calcMinWeight (Libm.ideal Real.log Real.exp Real.sqrt Real.rpow)
      (fin v) (fin s1) i spp = some w1) :
    ∃ w2 : Int,
      calcMinWeight (Libm.ideal Real.log Real.exp Real.sqrt Real.rpow)
        (fin v) (fin s2) i spp = some w2 ∧ w2 ≤ w1 := by
  by_cases he : (lt (fin v) (fin (1 / 10 ^ 7)) && lt i (fin (1 / 10 ^ 7))) = true
  · have h : ∀ s : Fl ℝ, calcMinWeight (Libm.ideal Real.log Real.exp Real.sqrt Real.rpow)
        (fin v) s i spp = some 65536 := by
      intro s
      simp only [calcMinWeight, he, if_true]
    rw [h] at h1
    exact ⟨65536, h _, by simp only [Option.some.injEq] at h1; omega⟩
  · have he' : (lt (fin v) (fin (1 / 10 ^ 7)) && lt i (fin (1 / 10 ^ 7))) = false := by
      simpa using he
    obtain ⟨A, -, hA0, h⟩ := calcMinWeight_ideal v i spp hv he' h2 hmax
    have hve : 0 < v + 1 / 10 ^ 7 := by positivity
    have hse1 : 0 < s1 + 1 / 10 ^ 7 := by positivity
    have hlog : Real.log (s1 + 1 / 10 ^ 7) ≤ Real.log (s2 + 1 / 10 ^ 7) :=
      Real.log_le_log hse1 (by linarith)
    have hx : Real.exp (Real.log (spp : ℝ)
          + (Real.log (s2 + 1 / 10 ^ 7) - Real.log (v + 1 / 10 ^ 7)) / A)
        ≤ Real.exp (Real.log (spp : ℝ)
          + (Real.log (s1 + 1 / 10 ^ 7) - Real.log (v + 1 / 10 ^ 7)) / A) := by
      apply Real.exp_le_exp.mpr
      have := div_le_div_of_nonpos_of_le (le_of_lt hA0)
        (sub_le_sub_right hlog (Real.log (v + 1 / 10 ^ 7)))
      linarith
    have hfl := Int.floor_le_floor (add_le_add_right hx (1 / 2))
    rw [h s1 hs1, toInt_round_nonneg _ (le_of_lt (Real.exp_pos _))] at h1
    rw [h s2 (le_trans hs1 hs), toInt_round_nonneg _ (le_of_lt (Real.exp_pos _))]
    split at h1
    · rename_i hr
      simp only [Option.map_some', Option.some.injEq] at h1
      rw [if_pos (le_trans hfl hr)]
      refine ⟨_, rfl, ?_⟩
      rw [← h1]
      exact min_le_min_right _ hfl
    · simp at h1

/-! ## Rounding to single precision -/

/-- A power of two is positive. -/
theorem two_zpow_pos {α : Type} [LinearOrderedField α] (e : Int) : (0 : α) < 2 ^ e :=
  zpow_pos (by norm_num) e

section Rounding

variable {α : Type} [LinearOrderedField α] [FloorRing α]

/-- Rounding to the nearest integer moves a number by at most one half. -/
theorem roundEven_err (t : α) : |((roundEven t : Int) : α) - t| ≤ 1 / 2 := by
  have h1 := Int.floor_le t
  have h2 := Int.lt_floor_add_one t
  unfold roundEven
  split_ifs with a b c
  · rw [abs_le]
    constructor <;> linarith
  · rw [abs_le]
    push_cast
    constructor <;> linarith
  · rw [abs_le]
    constructor <;> linarith
  · rw [abs_le]
    push_cast
    constructor <;> linarith

/-- A number closer than one half to an integer rounds to that integer. -/
theorem roundEven_eq_of_near (t : α) (k : Int) (h : |t - (k : α)| < 1 / 2) :
    roundEven t = k := by
  rw [abs_lt] at h
  obtain ⟨h1, h2⟩ := h
  by_cases hk : (k : α) ≤ t
  · have hf : ⌊t⌋ = k := by
      rw [Int.floor_eq_iff]
      constructor <;> linarith
    unfold roundEven
    rw [hf, if_pos (by linarith)]
  · have hf : ⌊t⌋ = k - 1 := by
      rw [Int.floor_eq_iff]
      push_cast
      constructor <;> linarith
    unfold roundEven
    rw [hf]
    push_cast
    rw [if_neg (by linarith), if_pos (by linarith)]
    ring

/-- An integer rounds to itself. -/
theorem roundEven_intCast (z : Int) : roundEven (z : α) = z :=
  roundEven_eq_of_near _ z (by simp)

/-- The exponent of a binade is at least `-126`. -/
theorem expo32_ge (x : α) : -126 ≤ expo32 x := le_max_right _ _

/-- In the normal range the exponent of the binade is the binary logarithm. -/
theorem expo32_eq_log {x : α} (hx : 1 / 2 ^ 126 ≤ |x|) : expo32 x = Int.log 2 |x| := by
  have hpos : (0 : α) < |x| := lt_of_lt_of_le (by positivity) hx
  have h : (-126 : Int) ≤ Int.log 2 |x| := by
    rw [← Int.zpow_le_iff_le_log (by norm_num) hpos]
    have : ((2 : Nat) : α) ^ (-126 : Int) = 1 / 2 ^ 126 := by
      rw [zpow_neg, one_div]
      norm_num
    rw [this]
    exact hx
  exact max_eq_left h

/-- In the subnormal range the exponent of the binade is `-126`. -/
theorem expo32_eq_min {x : α} (hx0 : x ≠ 0) (hx : |x| < 1 / 2 ^ 126) : expo32 x = -126 := by
  have hpos : (0 : α) < |x| := abs_pos.mpr hx0
  have h : Int.log 2 |x| < -126 := by
    rw [← Int.lt_zpow_iff_log_lt (by norm_num) hpos]
    have : ((2 : Nat) : α) ^ (-126 : Int) = 1 / 2 ^ 126 := by
      rw [zpow_neg, one_div]
      norm_num
    rw [this]
    exact hx
  exact max_eq_right (le_of_lt h)

/-- The exponent of the binade of a number between two consecutive powers of two. -/
theorem expo32_eq_of {x : α} (e : Int) (he : -126 ≤ e) (hlo : (2 : α) ^ e ≤ |x|)
    (hhi : |x| < (2 : α) ^ (e + 1)) : expo32 x = e := by
  have hpos : (0 : α) < |x| := lt_of_lt_of_le (two_zpow_pos e) hlo
  have h1 : e ≤ Int.log 2 |x| := by
    rw [← Int.zpow_le_iff_le_log (by norm_num) hpos]
    exact_mod_cast hlo
  have h2 : Int.log 2 |x| < e + 1 := by
    rw [← Int.lt_zpow_iff_log_lt (by norm_num) hpos]
    exact_mod_cast hhi
  unfold expo32
  rw [max_eq_left (by omega)]
  omega

/-- In the normal range the power of two of the binade is at most the number. -/
theorem zpow_expo32_le {x : α} (hx : 1 / 2 ^ 126 ≤ |x|) : (2 : α) ^ expo32 x ≤ |x| := by
  have hpos : (0 : α) < |x| := lt_of_lt_of_le (by positivity) hx
  rw [expo32_eq_log hx]
  have := Int.zpow_log_le_self (b := 2) (by norm_num) hpos
  exact_mod_cast this

/-- The nearest single-precision number is within half a unit in the last place. -/
theorem rndVal_err_quantum (x : α) :
    |rndVal x - x| ≤ (2 : α) ^ (expo32 x - 23) / 2 := by
  have hq : (0 : α) < 2 ^ (expo32 x - 23) := two_zpow_pos _
  have h := roundEven_err (x / 2 ^ (expo32 x - 23))
  have e1 : rndVal x - x
      = (((roundEven (x / 2 ^ (expo32 x - 23)) : Int) : α) - x / 2 ^ (expo32 x - 23))
        * 2 ^ (expo32 x - 23) := by
    unfold rndVal
    field_simp
  rw [e1, abs_mul, abs_of_pos hq]
  calc _ ≤ 1 / 2 * (2 : α) ^ (expo32 x - 23) := mul_le_mul_of_nonneg_right h (le_of_lt hq)
    _ = _ := by ring

/-- Zero is a single-precision number. -/
theorem rndVal_zero : rndVal (0 : α) = 0 := by
  unfold rndVal
  rw [zero_div]
  have := roundEven_intCast (α := α) 0
  simp only [Int.cast_zero] at this
  rw [this]
  simp

/-- In the normal range the relative error of rounding is at most `2 ^ (-24)`. -/
theorem rndVal_err_rel {x : α} (hx : 1 / 2 ^ 126 ≤ |x|) : |rndVal x - x| ≤ |x| / 2 ^ 24 := by
  have h := rndVal_err_quantum x
  have h2 := zpow_expo32_le hx
  have e : (2 : α) ^ (expo32 x - 23) = 2 ^ expo32 x / 2 ^ 23 := by
    rw [zpow_sub₀ (by norm_num)]
    norm_num
  rw [e] at h
  calc |rndVal x - x| ≤ 2 ^ expo32 x / 2 ^ 23 / 2 := h
    _ = 2 ^ expo32 x / 2 ^ 24 := by ring
    _ ≤ |x| / 2 ^ 24 := by gcongr

/-- In the subnormal range the error of rounding is at most `2 ^ (-150)`. -/
theorem rndVal_err_abs {x : α} (hx : |x| < 1 / 2 ^ 126) : |rndVal x - x| ≤ 1 / 2 ^ 150 := by
  by_cases hx0 : x = 0
  · rw [hx0, rndVal_zero]
    simp
  · have h := rndVal_err_quantum x
    rw [expo32_eq_min hx0 hx] at h
    have e : (2 : α) ^ ((-126 : Int) - 23) / 2 = 1 / 2 ^ 150 := by
      have : ((-126 : Int) - 23) = -(149 : Int) := by norm_num
      rw [this, zpow_neg]
      norm_num
    rw [e] at h
    exact h

/-- The error of rounding, in the normal and the subnormal range together. -/
theorem rndVal_err (x : α) : |rndVal x - x| ≤ |x| / 2 ^ 24 + 1 / 2 ^ 150 := by
  by_cases hx : 1 / 2 ^ 126 ≤ |x|
  · have := rndVal_err_rel hx
    have : (0 : α) ≤ 1 / 2 ^ 150 := by positivity
    linarith [rndVal_err_rel hx]
  · have := rndVal_err_abs (not_le.mp hx)
    have : (0 : α) ≤ |x| / 2 ^ 24 := by positivity
    linarith [rndVal_err_abs (not_le.mp hx)]

/-- A number of magnitude at most `2 ^ 127` does not round to an infinity. -/
theorem rnd_of_le {x : α} (hx : |x| ≤ 2 ^ 127) : rnd x = fin (rndVal x) := by
  have h := rndVal_err x
  have h1 : |rndVal x| ≤ |x| + |rndVal x - x| := by
    have := abs_add (rndVal x - x) x
    simp only [sub_add_cancel] at this
    linarith
  have h2 : |rndVal x| < 2 ^ 128 := by
    have : |x| / 2 ^ 24 + 1 / 2 ^ 150 ≤ (2 : α) ^ 127 / 2 ^ 24 + 1 / 2 ^ 150 := by gcongr
    have : (2 : α) ^ 127 + 2 ^ 127 / 2 ^ 24 + 1 / 2 ^ 150 < 2 ^ 128 := by norm_num
    linarith
  unfold rnd
  rw [if_neg (not_le.mpr h2)]

/-- The rounding of a number whose scaled value is closer than one half to the integer `k`. -/
theorem rnd_eq (x : α) (e k : Int) (he : -126 ≤ e)
    (hlo : (2 : α) ^ e ≤ |x| ∨ (e = -126 ∧ x ≠ 0))
    (hhi : |x| < (2 : α) ^ (e + 1))
    (hk : |x / 2 ^ (e - 23) - (k : α)| < 1 / 2) :
    rndVal x = (k : α) * 2 ^ (e - 23) := by
  have hexp : expo32 x = e := by
    rcases hlo with hlo | ⟨h1, h2⟩
    · exact expo32_eq_of e he hlo hhi
    · by_cases hc : (2 : α) ^ e ≤ |x|
      · exact expo32_eq_of e he hc hhi
      · rw [h1]
        apply expo32_eq_min h2
        have : (2 : α) ^ (-126 : Int) = 1 / 2 ^ 126 := by
          rw [zpow_neg, one_div]
          norm_num
        rw [← this, ← h1]
        exact not_le.mp hc
  unfold rndVal
  rw [hexp, roundEven_eq_of_near _ k hk]

/-- A tie above an even integer rounds down to it. -/
theorem roundEven_tie_even (t : α) (k : Int) (h : t = (k : α) + 1 / 2) (hk : k % 2 = 0) :
    roundEven t = k := by
  have hf : ⌊t⌋ = k := by
    rw [Int.floor_eq_iff, h]
    constructor <;> linarith
  unfold roundEven
  rw [hf, if_neg (by rw [h]; linarith), if_neg (by rw [h]; linarith), if_pos hk]

/-- A tie below an even integer rounds up to it. -/
theorem roundEven_tie_odd (t : α) (k : Int) (h : t = (k : α) - 1 / 2) (hk : k % 2 = 0) :
    roundEven t = k := by
  have hf : ⌊t⌋ = k - 1 := by
    rw [Int.floor_eq_iff, h]
    push_cast
    constructor <;> linarith
  unfold roundEven
  rw [hf]
  push_cast
  rw [if_neg (by rw [h]; linarith), if_neg (by rw [h]; linarith), if_neg (by omega)]
  ring

/-- The exponent of the binade, the subnormal range included. -/
theorem expo32_eq_of_lt {x : α} (e : Int) (he : -126 ≤ e)
    (hlo : (2 : α) ^ e ≤ |x| ∨ (e = -126 ∧ x ≠ 0))
    (hhi : |x| < (2 : α) ^ (e + 1)) : expo32 x = e := by
  rcases hlo with hlo | ⟨h1, h2⟩
  · exact expo32_eq_of e he hlo hhi
  · by_cases hc : (2 : α) ^ e ≤ |x|
    · exact expo32_eq_of e he hc hhi
    · rw [h1]
      apply expo32_eq_min h2
      have : (2 : α) ^ (-126 : Int) = 1 / 2 ^ 126 := by
        rw [zpow_neg, one_div]
        norm_num
      rw [← this, ← h1]
      exact not_le.mp hc

/-- Evaluation of a rounding: `x` lies in the binade of exponent `e` and `k` is the
integer nearest to `x / 2 ^ (e - 23)`. -/
theorem rnd_eval (x y : α) (e k : Int) (he : -126 ≤ e)
    (hlo : (2 : α) ^ e ≤ |x| ∨ (e = -126 ∧ x ≠ 0))
    (hhi : |x| < (2 : α) ^ (e + 1))
    (hk : |x / 2 ^ (e - 23) - (k : α)| < 1 / 2)
    (hy : (k : α) * 2 ^ (e - 23) = y) (hmax : |x| ≤ 2 ^ 127) : rnd x = fin y := by
  rw [rnd_of_le hmax, ← hy]
  unfold rndVal
  rw [expo32_eq_of_lt e he hlo hhi, roundEven_eq_of_near _ k hk]

/-- Evaluation of a rounding at a tie, `x / 2 ^ (e - 23) = k + 1/2` or `k - 1/2` with
`k` even. -/
theorem rnd_eval_tie (x y : α) (e k : Int) (he : -126 ≤ e)
    (hlo : (2 : α) ^ e ≤ |x| ∨ (e = -126 ∧ x ≠ 0))
    (hhi : |x| < (2 : α) ^ (e + 1))
    (hk : x / 2 ^ (e - 23) = (k : α) + 1 / 2 ∨ x / 2 ^ (e - 23) = (k : α) - 1 / 2)
    (heven : k % 2 = 0)
    (hy : (k : α) * 2 ^ (e - 23) = y) (hmax : |x| ≤ 2 ^ 127) : rnd x = fin y := by
  rw [rnd_of_le hmax, ← hy]
  unfold rndVal
  rw [expo32_eq_of_lt e he hlo hhi]
  rcases hk with hk | hk
  · rw [roundEven_tie_even _ k hk heven]
  · rw [roundEven_tie_odd _ k hk heven]

/-- Zero rounds to zero. -/
theorem rnd_zero : rnd (0 : α) = fin 0 := by
  rw [rnd_of_le (by simp), rndVal_zero]

/-- A number `k * 2 ^ j` with `|k| < 2 ^ 24` and `j ≥ -149` is a single-precision
number: rounding leaves it as it is. -/
theorem rndVal_dyadic (k j : Int) (hk : |k| < 2 ^ 24) (hj : -149 ≤ j) :
    rndVal ((k : α) * 2 ^ j) = (k : α) * 2 ^ j := by
  by_cases hk0 : k = 0
  · rw [hk0]
    simp only [Int.cast_zero, zero_mul]
    exact rndVal_zero
  · have hkpos : (0 : α) < |(k : α)| := abs_pos.mpr (by exact_mod_cast hk0)
    have h2j : |(2 : α) ^ j| = 2 ^ j := abs_of_pos (two_zpow_pos j)
    have hxpos : (0 : α) < |(k : α) * 2 ^ j| := by
      rw [abs_mul, h2j]
      exact mul_pos hkpos (two_zpow_pos j)
    have hklt : |(k : α)| < 2 ^ 24 := by
      have : ((|k| : Int) : α) < ((2 ^ 24 : Int) : α) := by exact_mod_cast hk
      rw [Int.cast_abs] at this
      exact lt_of_lt_of_le this (by norm_num)
    have hlog : Int.log 2 |(k : α) * 2 ^ j| < j + 24 := by
      rw [← Int.lt_zpow_iff_log_lt (by norm_num) hxpos]
      rw [abs_mul, h2j]
      have : ((2 : Nat) : α) ^ (j + 24) = 2 ^ 24 * 2 ^ j := by
        rw [zpow_add₀ (by norm_num)]
        norm_num
        ring
      rw [this]
      exact mul_lt_mul_of_pos_right hklt (two_zpow_pos j)
    have he : expo32 ((k : α) * 2 ^ j) ≤ j + 23 := by
      unfold expo32
      apply max_le <;> omega
    obtain ⟨p, hp⟩ : ∃ p : Nat, (p : Int) = j + 23 - expo32 ((k : α) * 2 ^ j) :=
      ⟨(j + 23 - expo32 ((k : α) * 2 ^ j)).toNat, Int.toNat_of_nonneg (by omega)⟩
    have hdiv : (k : α) * 2 ^ j / 2 ^ (expo32 ((k : α) * 2 ^ j) - 23)
        = ((k * 2 ^ p : Int) : α) := by
      rw [mul_div_assoc, ← zpow_sub₀ (by norm_num)]
      have : j - (expo32 ((k : α) * 2 ^ j) - 23) = (p : Int) := by omega
      rw [this, zpow_natCast]
      push_cast
      ring
    unfold rndVal
    rw [hdiv, roundEven_intCast]
    push_cast
    rw [mul_assoc, ← zpow_natCast, ← zpow_add₀ (by norm_num)]
    congr 2
    omega

/-- An integer of magnitude below `2 ^ 24` is a single-precision number. -/
theorem rnd_int (k : Int) (hk : |k| < 2 ^ 24) : rnd (k : α) = fin (k : α) := by
  have hklt : |(k : α)| < 2 ^ 24 := by
    have : ((|k| : Int) : α) < ((2 ^ 24 : Int) : α) := by exact_mod_cast hk
    rw [Int.cast_abs] at this
    exact lt_of_lt_of_le this (by norm_num)
  have h := rndVal_dyadic (α := α) k 0 hk (by norm_num)
  simp only [zpow_zero, mul_one] at h
  rw [rnd_of_le (le_trans (le_of_lt hklt) (by norm_num)), h]

end Rounding

/-! ## Blend compositor in single precision -/

section Blend32

variable {α : Type} [LinearOrderedField α] [FloorRing α]

/-- The rounding of the exact result `fin x` of an operation. -/
theorem r32_fin (x : α) : r32 (fin x) = rnd x := rfl

/-- The conversion to `float` of a non-negative `int` is a number within the relative
error `2 ^ (-24)` of it. -/
theorem ofInt32_err (k : Int) (hk0 : 0 ≤ k) (hk : k ≤ 2147483647) :
    ∃ W : α, ofInt32 k = fin W ∧ |W - (k : α)| ≤ (k : α) / 2 ^ 24 := by
  have hle : |(k : α)| ≤ 2 ^ 127 := by
    have h1 : (0 : α) ≤ (k : α) := by exact_mod_cast hk0
    have h2 : (k : α) ≤ 2147483647 := by exact_mod_cast hk
    rw [abs_of_nonneg h1]
    exact le_trans h2 (by norm_num)
  refine ⟨rndVal (k : α), rnd_of_le hle, ?_⟩
  rcases eq_or_lt_of_le hk0 with h0 | hpos
  · rw [← h0]
    simp [rndVal_zero]
  · have h1 : (1 : α) ≤ (k : α) := by exact_mod_cast hpos
    have hk_abs : |(k : α)| = (k : α) := abs_of_pos (by linarith)
    have h := rndVal_err_rel (x := (k : α)) (by rw [hk_abs]; exact le_trans (by norm_num) h1)
    rw [hk_abs] at h
    exact h

/-- The sum of two `int` values whose sum is in the `int` range. -/
theorem intAdd_eq (a b : Int) (h1 : -2147483648 ≤ a + b) (h2 : a + b ≤ 2147483647) :
    intAdd a b = a + b := by
  unfold intAdd
  omega

/-- Entry `i` of the output of `blend32`. -/
theorem blend32_getElem? (img1 img2 : List (Fl α)) (w1 : Int) (w2 : List Int)
    (hw : min img1.length img2.length ≤ w2.length) (i : Nat)
    (hi : i < min img1.length img2.length) :
    (blend32 img1 img2 w1 w2)[i]? =
      some (r32 (r32 (r32 (img1.getD i (fin 0) * ofInt32 w1)
          + r32 (img2.getD i (fin 0) * ofInt32 (w2.getD i 0)))
        / ofInt32 (intAdd w1 (w2.getD i 0)))) := by
  have h1 : i < img1.length := by omega
  have h2 : i < img2.length := by omega
  have h3 : i < w2.length := by omega
  simp only [blend32, List.getElem?_zipWith, List.getElem?_take, hi, if_true]
  simp [List.getD, List.getElem?_eq_getElem, h1, h2, h3]

set_option maxHeartbeats 2000000 in
/-- The single-precision blend of a finite pixel-channel is within `2 ^ (-20)` of the
magnitude of the samples, plus `2 ^ (-146)`, of the exact blend. -/
theorem blend32_entry_err (n d M : α) (w1 w : Int) (hw1 : 0 < w1) (hw : 0 ≤ w)
    (hsum : w1 + w ≤ 2147483647) (hn : |n| ≤ M) (hd : |d| ≤ M)
    (hM : M * ((w1 : α) + (w : α)) ≤ 2 ^ 125) :
    ∃ Q : α,
      r32 (r32 (r32 (fin n * ofInt32 w1) + r32 (fin d * ofInt32 w))
        / ofInt32 (intAdd w1 w)) = fin Q ∧
      |Q - (n * (w1 : α) + d * (w : α)) / ((w1 : α) + (w : α))|
        ≤ M / 2 ^ 20 + 1 / 2 ^ 146 := by
  have ha : (1 : α) ≤ (w1 : α) := by exact_mod_cast hw1
  have hb : (0 : α) ≤ (w : α) := by exact_mod_cast hw
  have hM0 : 0 ≤ M := le_trans (abs_nonneg n) hn
  obtain ⟨W1, hW1e, hW1⟩ := ofInt32_err (α := α) w1 (le_of_lt hw1) (by omega)
  obtain ⟨Wb, hWbe, hWb⟩ := ofInt32_err (α := α) w hw (by omega)
  obtain ⟨S, hSe, hS⟩ := ofInt32_err (α := α) (w1 + w) (by omega) hsum
  push_cast at hS
  rw [intAdd_eq w1 w (by omega) hsum, hW1e, hWbe, hSe]
  generalize (w1 : α) = a at *
  generalize (w : α) = b at *
  have hsg : 1 ≤ a + b := by linarith
  have hMa : M * a ≤ M * (a + b) := by nlinarith
  have hMb : M * b ≤ M * (a + b) := by nlinarith
  have hMab0 : 0 ≤ M * (a + b) := by positivity
  have hMa0 : 0 ≤ M * a := by positivity
  have hMb0 : 0 ≤ M * b := by positivity
  have hMle : M ≤ M * (a + b) := by nlinarith
  -- the two conversions
  have hW1abs : |W1| ≤ 2 * a := by
    have := abs_le.mp hW1
    rw [abs_le]
    have h24 : a / 2 ^ 24 ≤ a := div_le_self (by linarith) (by norm_num)
    constructor <;> linarith
  have hWbabs : |Wb| ≤ 2 * b := by
    have := abs_le.mp hWb
    rw [abs_le]
    have h24 : b / 2 ^ 24 ≤ b := div_le_self hb (by norm_num)
    constructor <;> linarith
  -- the two products
  have hnW1 : |n * W1| ≤ 2 * (M * a) := by
    rw [abs_mul]
    calc |n| * |W1| ≤ M * (2 * a) := mul_le_mul hn hW1abs (abs_nonneg _) hM0
      _ = 2 * (M * a) := by ring
  have hdWb : |d * Wb| ≤ 2 * (M * b) := by
    rw [abs_mul]
    calc |d| * |Wb| ≤ M * (2 * b) := mul_le_mul hd hWbabs (abs_nonneg _) hM0
      _ = 2 * (M * b) := by ring
  have hP1e : rnd (n * W1) = fin (rndVal (n * W1)) :=
    rnd_of_le (by have : (2 : α) ^ 125 * 2 ≤ 2 ^ 127 := by norm_num
                  linarith)
  have hP2e : rnd (d * Wb) = fin (rndVal (d * Wb)) :=
    rnd_of_le (by have : (2 : α) ^ 125 * 2 ≤ 2 ^ 127 := by norm_num
                  linarith)
  have hP1 := rndVal_err (n * W1)
  have hP2 := rndVal_err (d * Wb)
  generalize rndVal (n * W1) = P1 at *
  generalize rndVal (d * Wb) = P2 at *
  have hP1' : |P1 - n * a| ≤ 3 * (M * a) / 2 ^ 24 + 1 / 2 ^ 150 := by
    have e : P1 - n * a = (P1 - n * W1) + n * (W1 - a) := by ring
    have h2 : |n * (W1 - a)| ≤ M * (a / 2 ^ 24) := by
      rw [abs_mul]
      exact mul_le_mul hn hW1 (abs_nonneg _) hM0
    have h3 : |n * W1| / 2 ^ 24 ≤ 2 * (M * a) / 2 ^ 24 := by gcongr
    rw [e]
    calc |P1 - n * W1 + n * (W1 - a)| ≤ |P1 - n * W1| + |n * (W1 - a)| := abs_add _ _
      _ ≤ (2 * (M * a) / 2 ^ 24 + 1 / 2 ^ 150) + M * (a / 2 ^ 24) := by linarith
      _ = 3 * (M * a) / 2 ^ 24 + 1 / 2 ^ 150 := by ring
  have hP2' : |P2 - d * b| ≤ 3 * (M * b) / 2 ^ 24 + 1 / 2 ^ 150 := by
    have e : P2 - d * b = (P2 - d * Wb) + d * (Wb - b) := by ring
    have h2 : |d * (Wb - b)| ≤ M * (b / 2 ^ 24) := by
      rw [abs_mul]
      exact mul_le_mul hd hWb (abs_nonneg _) hM0
    have h3 : |d * Wb| / 2 ^ 24 ≤ 2 * (M * b) / 2 ^ 24 := by gcongr
    rw [e]
    calc |P2 - d * Wb + d * (Wb - b)| ≤ |P2 - d * Wb| + |d * (Wb - b)| := abs_add _ _
      _ ≤ (2 * (M * b) / 2 ^ 24 + 1 / 2 ^ 150) + M * (b / 2 ^ 24) := by linarith
      _ = 3 * (M * b) / 2 ^ 24 + 1 / 2 ^ 150 := by ring
  -- the sum
  have hN : |n * a + d * b| ≤ M * (a + b) := by
    have h1 : |n * a| ≤ M * a := by
      rw [abs_mul, abs_of_pos (by linarith : (0 : α) < a)]
      exact mul_le_mul_of_nonneg_right hn (by linarith)
    have h2 : |d * b| ≤ M * b := by
      rw [abs_mul, abs_of_nonneg hb]
      exact mul_le_mul_of_nonneg_right hd hb
    calc |n * a + d * b| ≤ |n * a| + |d * b| := abs_add _ _
      _ ≤ M * (a + b) := by linarith
  have h12 : |P1 + P2 - (n * a + d * b)| ≤ 3 * (M * (a + b)) / 2 ^ 24 + 2 / 2 ^ 150 := by
    have e : P1 + P2 - (n * a + d * b) = (P1 - n * a) + (P2 - d * b) := by ring
    rw [e]
    calc |P1 - n * a + (P2 - d * b)| ≤ |P1 - n * a| + |P2 - d * b| := abs_add _ _
      _ ≤ (3 * (M * a) / 2 ^ 24 + 1 / 2 ^ 150) + (3 * (M * b) / 2 ^ 24 + 1 / 2 ^ 150) := by
        linarith
      _ = 3 * (M * (a + b)) / 2 ^ 24 + 2 / 2 ^ 150 := by ring
  have hsum12 : |P1 + P2| ≤ 2 * (M * (a + b)) + 2 / 2 ^ 150 := by
    have e : P1 + P2 = (P1 + P2 - (n * a + d * b)) + (n * a + d * b) := by ring
    have h3 : 3 * (M * (a + b)) / 2 ^ 24 ≤ M * (a + b) := by
      rw [div_le_iff₀ (by norm_num)]
      nlinarith
    rw [e]
    calc _ ≤ |P1 + P2 - (n * a + d * b)| + |n * a + d * b| := abs_add _ _
      _ ≤ _ := by linarith
  have hTe : rnd (P1 + P2) = fin (rndVal (P1 + P2)) :=
    rnd_of_le (by have : (2 : α) * 2 ^ 125 + 2 / 2 ^ 150 ≤ 2 ^ 127 := by norm_num
                  linarith)
  have hT := rndVal_err (P1 + P2)
  generalize rndVal (P1 + P2) = T at *
  have hT' : |T - (n * a + d * b)| ≤ 5 * (M * (a + b)) / 2 ^ 24 + 4 / 2 ^ 150 := by
    have e : T - (n * a + d * b) = (T - (P1 + P2)) + (P1 + P2 - (n * a + d * b)) := by ring
    have h3 : |P1 + P2| / 2 ^ 24 ≤ (2 * (M * (a + b)) + 2 / 2 ^ 150) / 2 ^ 24 := by gcongr
    have h4 : (2 * (M * (a + b)) + 2 / 2 ^ 150) / 2 ^ 24
        ≤ 2 * (M * (a + b)) / 2 ^ 24 + 1 / 2 ^ 150 := by
      rw [add_div]
      have : (2 / 2 ^ 150 : α) / 2 ^ 24 ≤ 1 / 2 ^ 150 := by norm_num
      linarith
    rw [e]
    calc _ ≤ |T - (P1 + P2)| + |P1 + P2 - (n * a + d * b)| := abs_add _ _
      _ ≤ _ := by linarith
  -- the divisor
  have hSlow : (a + b) / 2 ≤ S := by
    have := abs_le.mp hS
    have h24 : (a + b) / 2 ^ 24 ≤ (a + b) / 2 := by
      apply div_le_div_of_nonneg_left (by linarith) (by norm_num) (by norm_num)
    linarith
  have hSpos : 0 < S := by linarith
  rw [fin_mul_fin, fin_mul_fin, r32_fin, r32_fin, hP1e, hP2e, fin_add_fin, r32_fin, hTe,
    fin_div_fin_of_ne _ (ne_of_gt hSpos), r32_fin]
  -- the quotient
  have hB : |(n * a + d * b) / (a + b)| ≤ M := by
    rw [abs_div, abs_of_pos (by linarith : (0 : α) < a + b), div_le_iff₀ (by linarith)]
    exact hN
  have hquot : |T / S - (n * a + d * b) / (a + b)| ≤ 12 * M / 2 ^ 24 + 8 / 2 ^ 150 := by
    have e : T / S - (n * a + d * b) / (a + b)
        = ((T - (n * a + d * b)) - (n * a + d * b) / (a + b) * (S - (a + b))) / S := by
      field_simp
      ring
    have hnum : |(T - (n * a + d * b)) - (n * a + d * b) / (a + b) * (S - (a + b))|
        ≤ 6 * (M * (a + b)) / 2 ^ 24 + 4 / 2 ^ 150 := by
      have h5 : |(n * a + d * b) / (a + b) * (S - (a + b))| ≤ M * ((a + b) / 2 ^ 24) := by
        rw [abs_mul]
        exact mul_le_mul hB hS (abs_nonneg _) hM0
      calc _ ≤ |T - (n * a + d * b)| + |(n * a + d * b) / (a + b) * (S - (a + b))| :=
            abs_sub _ _
        _ ≤ (5 * (M * (a + b)) / 2 ^ 24 + 4 / 2 ^ 150) + M * ((a + b) / 2 ^ 24) := by linarith
        _ = 6 * (M * (a + b)) / 2 ^ 24 + 4 / 2 ^ 150 := by ring
    rw [e, abs_div, abs_of_pos hSpos]
    calc _ ≤ (6 * (M * (a + b)) / 2 ^ 24 + 4 / 2 ^ 150) / S := by gcongr
      _ ≤ (6 * (M * (a + b)) / 2 ^ 24 + 4 / 2 ^ 150) / ((a + b) / 2) := by
        apply div_le_div_of_nonneg_left (by positivity) (by linarith) hSlow
      _ = 12 * M / 2 ^ 24 + 8 / 2 ^ 150 / (a + b) := by
        field_simp
        ring
      _ ≤ 12 * M / 2 ^ 24 + 8 / 2 ^ 150 := by
        have : (8 / 2 ^ 150 : α) / (a + b) ≤ 8 / 2 ^ 150 := div_le_self (by norm_num) hsg
        linarith
  have hTS : |T / S| ≤ 2 * M + 8 / 2 ^ 150 := by
    have e : T / S = (T / S - (n * a + d * b) / (a + b)) + (n * a + d * b) / (a + b) := by
      ring
    have h3 : 12 * M / 2 ^ 24 ≤ M := by
      rw [div_le_iff₀ (by norm_num)]
      nlinarith
    rw [e]
    calc _ ≤ |T / S - (n * a + d * b) / (a + b)| + |(n * a + d * b) / (a + b)| := abs_add _ _
      _ ≤ _ := by linarith
  have hQe : rnd (T / S) = fin (rndVal (T / S)) :=
    rnd_of_le (by have : (2 : α) * 2 ^ 125 + 8 / 2 ^ 150 ≤ 2 ^ 127 := by norm_num
                  linarith)
  have hQ := rndVal_err (T / S)
  refine ⟨rndVal (T / S), hQe, ?_⟩
  generalize rndVal (T / S) = Q at *
  have e : Q - (n * a + d * b) / (a + b)
      = (Q - T / S) + (T / S - (n * a + d * b) / (a + b)) := by ring
  have h3 : |T / S| / 2 ^ 24 ≤ (2 * M + 8 / 2 ^ 150) / 2 ^ 24 := by gcongr
  have h4 : (2 * M + 8 / 2 ^ 150) / 2 ^ 24 ≤ 2 * M / 2 ^ 24 + 1 / 2 ^ 150 := by
    rw [add_div]
    have : (8 / 2 ^ 150 : α) / 2 ^ 24 ≤ 1 / 2 ^ 150 := by norm_num
    linarith
  rw [e]
  calc _ ≤ |Q - T / S| + |T / S - (n * a + d * b) / (a + b)| := abs_add _ _
    _ ≤ (2 * M / 2 ^ 24 + 1 / 2 ^ 150 + 1 / 2 ^ 150) + (12 * M / 2 ^ 24 + 8 / 2 ^ 150) := by
      linarith
    _ ≤ M / 2 ^ 20 + 1 / 2 ^ 146 := by
      have h5 : 2 * M / 2 ^ 24 + 12 * M / 2 ^ 24 ≤ M / 2 ^ 20 := by
        rw [div_add_div_same, div_le_div_iff₀ (by norm_num) (by norm_num)]
        nlinarith
      have h6 : (1 / 2 ^ 150 + 1 / 2 ^ 150 + 8 / 2 ^ 150 : α) ≤ 1 / 2 ^ 146 := by norm_num
      linarith

set_option maxHeartbeats 2000000 in
/-- With the weight 0 the single-precision blend of a finite noisy sample `n` is within
`|n| / 2 ^ 21 + 2 ^ (-147)` of `n`, whatever the finite denoised sample. -/
theorem blend32_zero_entry (n d : α) (w1 : Int) (hw1 : 0 < w1) (hmax : w1 ≤ 2147483647)
    (hM : |n| * (w1 : α) ≤ 2 ^ 125) :
    ∃ Q : α,
      r32 (r32 (r32 (fin n * ofInt32 w1) + r32 (fin d * ofInt32 0))
        / ofInt32 (intAdd w1 0)) = fin Q ∧
      |Q - n| ≤ |n| / 2 ^ 21 + 1 / 2 ^ 147 := by
  have ha : (1 : α) ≤ (w1 : α) := by exact_mod_cast hw1
  obtain ⟨W1, hW1e, hW1⟩ := ofInt32_err (α := α) w1 (le_of_lt hw1) hmax
  have h0 : (ofInt32 0 : Fl α) = fin 0 := by
    simp [ofInt32, rnd_zero]
  rw [intAdd_eq w1 0 (by omega) (by omega), add_zero, hW1e, h0, fin_mul_fin, fin_mul_fin,
    mul_zero, r32_fin, r32_fin, rnd_zero]
  generalize (w1 : α) = a at *
  have hn0 : 0 ≤ |n| := abs_nonneg n
  have hnle : |n| ≤ |n| * a := le_mul_of_one_le_right hn0 ha
  have hWlow : a / 2 ≤ W1 := by
    have := abs_le.mp hW1
    have h24 : a / 2 ^ 24 ≤ a / 2 :=
      div_le_div_of_nonneg_left (by linarith) (by norm_num) (by norm_num)
    linarith
  have hWhigh : W1 ≤ 2 * a := by
    have := abs_le.mp hW1
    have h24 : a / 2 ^ 24 ≤ a := div_le_self (by linarith) (by norm_num)
    linarith
  have hWpos : 0 < W1 := by linarith
  have hnW1 : |n * W1| ≤ 2 * (|n| * a) := by
    rw [abs_mul, abs_of_pos hWpos]
    calc |n| * W1 ≤ |n| * (2 * a) := mul_le_mul_of_nonneg_left hWhigh hn0
      _ = 2 * (|n| * a) := by ring
  have hP1e : rnd (n * W1) = fin (rndVal (n * W1)) :=
    rnd_of_le (by have : (2 : α) * 2 ^ 125 ≤ 2 ^ 127 := by norm_num
                  linarith)
  have hP1 := rndVal_err (n * W1)
  generalize hX : |n * W1| = X at *
  generalize rndVal (n * W1) = P1 at *
  have hX0 : 0 ≤ X := by rw [← hX]; exact abs_nonneg _
  have hXn : X / W1 = |n| := by
    rw [← hX, abs_mul, abs_of_pos hWpos, mul_div_assoc, div_self (ne_of_gt hWpos), mul_one]
  have hP1abs : |P1| ≤ 2 * X + 1 / 2 ^ 150 := by
    have e : P1 = (P1 - n * W1) + n * W1 := by ring
    have h24 : X / 2 ^ 24 ≤ X := div_le_self hX0 (by norm_num)
    rw [e]
    calc _ ≤ |P1 - n * W1| + |n * W1| := abs_add _ _
      _ ≤ _ := by rw [hX]; linarith
  rw [hP1e, fin_add_fin, add_zero, r32_fin]
  have hP1max : |P1| ≤ 2 ^ 127 := by
    have e : P1 = (P1 - n * W1) + n * W1 := by ring
    have h24 : X / 2 ^ 24 ≤ 2 * 2 ^ 125 / 2 ^ 24 := by
      apply div_le_div_of_nonneg_right _ (by norm_num)
      linarith
    have h127 : (2 : α) * 2 ^ 125 / 2 ^ 24 + 1 / 2 ^ 150 + 2 * 2 ^ 125 ≤ 2 ^ 127 := by norm_num
    rw [e]
    calc _ ≤ |P1 - n * W1| + |n * W1| := abs_add _ _
      _ ≤ _ := by rw [hX]; linarith
  have hTe : rnd P1 = fin (rndVal P1) := rnd_of_le hP1max
  have hT := rndVal_err P1
  generalize rndVal P1 = T at *
  have hT' : |T - n * W1| ≤ 3 * X / 2 ^ 24 + 3 / 2 ^ 150 := by
    have e : T - n * W1 = (T - P1) + (P1 - n * W1) := by ring
    have h3 : |P1| / 2 ^ 24 ≤ (2 * X + 1 / 2 ^ 150) / 2 ^ 24 := by gcongr
    have h4 : (2 * X + 1 / 2 ^ 150) / 2 ^ 24 ≤ 2 * X / 2 ^ 24 + 1 / 2 ^ 150 := by
      rw [add_div]
      have : (1 / 2 ^ 150 : α) / 2 ^ 24 ≤ 1 / 2 ^ 150 := by norm_num
      linarith
    rw [e]
    calc _ ≤ |T - P1| + |P1 - n * W1| := abs_add _ _
      _ ≤ _ := by linarith
  rw [hTe, fin_div_fin_of_ne _ (ne_of_gt hWpos), r32_fin]
  have hquot : |T / W1 - n| ≤ 3 * |n| / 2 ^ 24 + 6 / 2 ^ 150 := by
    have e : T / W1 - n = (T - n * W1) / W1 := by
      field_simp
      ring
    rw [e, abs_div, abs_of_pos hWpos]
    calc _ ≤ (3 * X / 2 ^ 24 + 3 / 2 ^ 150) / W1 := by gcongr
      _ = 3 * (X / W1) / 2 ^ 24 + 3 / 2 ^ 150 / W1 := by
        field_simp
        ring
      _ ≤ 3 * |n| / 2 ^ 24 + 6 / 2 ^ 150 := by
        rw [hXn]
        have : (3 / 2 ^ 150 : α) / W1 ≤ 3 / 2 ^ 150 / (1 / 2) :=
          div_le_div_of_nonneg_left (by norm_num) (by norm_num) (by linarith)
        have h6 : (3 / 2 ^ 150 : α) / (1 / 2) = 6 / 2 ^ 150 := by norm_num
        linarith
  have hTS : |T / W1| ≤ 2 * |n| + 6 / 2 ^ 150 := by
    have e : T / W1 = (T / W1 - n) + n := by ring
    have h3 : 3 * |n| / 2 ^ 24 ≤ |n| := by
      rw [div_le_iff₀ (by norm_num)]
      linarith
    rw [e]
    calc _ ≤ |T / W1 - n| + |n| := abs_add _ _
      _ ≤ _ := by linarith
  have hQe : rnd (T / W1) = fin (rndVal (T / W1)) :=
    rnd_of_le (by have : (2 : α) * 2 ^ 125 + 6 / 2 ^ 150 ≤ 2 ^ 127 := by norm_num
                  linarith)
  have hQ := rndVal_err (T / W1)
  refine ⟨rndVal (T / W1), hQe, ?_⟩
  generalize rndVal (T / W1) = Q at *
  have e : Q - n = (Q - T / W1) + (T / W1 - n) := by ring
  have h3 : |T / W1| / 2 ^ 24 ≤ (2 * |n| + 6 / 2 ^ 150) / 2 ^ 24 := by gcongr
  have h4 : (2 * |n| + 6 / 2 ^ 150) / 2 ^ 24 ≤ 2 * |n| / 2 ^ 24 + 1 / 2 ^ 150 := by
    rw [add_div]
    have : (6 / 2 ^ 150 : α) / 2 ^ 24 ≤ 1 / 2 ^ 150 := by norm_num
    linarith
  rw [e]
  calc _ ≤ |Q - T / W1| + |T / W1 - n| := abs_add _ _
    _ ≤ (2 * |n| / 2 ^ 24 + 1 / 2 ^ 150 + 1 / 2 ^ 150) + (3 * |n| / 2 ^ 24 + 6 / 2 ^ 150) := by
      linarith
    _ ≤ |n| / 2 ^ 21 + 1 / 2 ^ 147 := by
      have h5 : 2 * |n| / 2 ^ 24 + 3 * |n| / 2 ^ 24 ≤ |n| / 2 ^ 21 := by
        rw [div_add_div_same, div_le_div_iff₀ (by norm_num) (by norm_num)]
        linarith
      have h6 : (1 / 2 ^ 150 + 1 / 2 ^ 150 + 6 / 2 ^ 150 : α) ≤ 1 / 2 ^ 147 := by norm_num
      linarith

end Blend32

section BlendClaims

variable {α : Type} [LinearOrderedField α] [FloorRing α]

/-- The output of `blend32` has the length of the shorter image. -/
theorem blend32_length (img1 img2 : List (Fl α)) (w1 : Int) (w2 : List Int)
    (hw : min img1.length img2.length ≤ w2.length) :
    (blend32 img1 img2 w1 w2).length = min img1.length img2.length := by
  simp only [blend32, List.length_zipWith, List.length_take]
  omega

/-- Claim C3, amended: for equal-length buffers, a positive `noisySampleCount` and a
weight vector that is zero at every index, `blend` in single precision returns a buffer
of the same length, and its entry `i`, where the noisy sample `n` and the denoised
sample are finite and `|n| * noisySampleCount ≤ 2 ^ 125`, is the noisy sample up to the
rounding of the product and of the quotient: it differs from `n` by at most
`|n| / 2 ^ 21 + 2 ^ (-147)`. -/
theorem blend32_zero_weights (img1 img2 : List (Fl α)) (w1 : Int) (w2 : List Int)
    (hlen : img1.length = img2.length) (hw1 : 0 < w1) (hmax : w1 ≤ 2147483647)
    (hw2 : img1.length ≤ w2.length) (hz : ∀ w ∈ w2, w = 0) :
    (blend32 img1 img2 w1 w2).length = img1.length ∧
    ∀ (i : Nat) (n d : α), i < img1.length → img1.getD i (fin 0) = fin n →
      img2.getD i (fin 0) = fin d → |n| * (w1 : α) ≤ 2 ^ 125 →
      ∃ Q : α, (blend32 img1 img2 w1 w2)[i]? = some (fin Q) ∧
        |Q - n| ≤ |n| / 2 ^ 21 + 1 / 2 ^ 147 := by
  have hmin : min img1.length img2.length = img1.length := by omega
  refine ⟨by rw [blend32_length _ _ _ _ (by omega), hmin], ?_⟩
  intro i n d hi hn hd hM
  have h3 : i < w2.length := by omega
  have hw : w2.getD i 0 = 0 := by
    rw [List.getD_eq_getElem _ _ h3]
    exact hz _ (List.getElem_mem _)
  rw [blend32_getElem? img1 img2 w1 w2 (by omega) i (by omega), hn, hd, hw]
  obtain ⟨Q, hQ, hb⟩ := blend32_zero_entry n d w1 hw1 hmax hM
  exact ⟨Q, by rw [hQ], hb⟩

/-- Claim C4, amended: for a pixel-channel whose noisy and denoised samples are the
finite numbers `n` and `d`, a positive `noisySampleCount` and two weights
`0 ≤ w ≤ w' ≤ 65536` with `noisySampleCount + w'` in the `int` range and
`max(|n|, |d|) * (noisySampleCount + w') ≤ 2 ^ 125`, both blends in single precision
are finite and the one with the larger weight is at least as close to `d` up to the
rounding of the operations:
`|blended(w') - d| ≤ |blended(w) - d| + max(|n|, |d|) / 2 ^ 19 + 2 ^ (-145)`. -/
theorem blend32_converges (img1 img2 : List (Fl α)) (w1 : Int) (w2 w2' : List Int)
    (i : Nat) (n d : α) (hi : i < min img1.length img2.length)
    (hl : min img1.length img2.length ≤ w2.length)
    (hl' : min img1.length img2.length ≤ w2'.length)
    (hn : img1.getD i (fin 0) = fin n) (hd : img2.getD i (fin 0) = fin d)
    (hw1 : 0 < w1) (hw : 0 ≤ w2.getD i 0) (hle : w2.getD i 0 ≤ w2'.getD i 0)
    (_hcap : w2'.getD i 0 ≤ 65536) (hsum : w1 + w2'.getD i 0 ≤ 2147483647)
    (hM : max |n| |d| * ((w1 : α) + (w2'.getD i 0 : α)) ≤ 2 ^ 125) :
    ∃ r r' : α, (blend32 img1 img2 w1 w2)[i]? = some (fin r) ∧
      (blend32 img1 img2 w1 w2')[i]? = some (fin r') ∧
      |r' - d| ≤ |r - d| + max |n| |d| / 2 ^ 19 + 1 / 2 ^ 145 := by
  have hM0 : 0 ≤ max |n| |d| := le_trans (abs_nonneg n) (le_max_left _ _)
  have hww : (w2.getD i 0 : α) ≤ (w2'.getD i 0 : α) := by exact_mod_cast hle
  have hMw : max |n| |d| * ((w1 : α) + (w2.getD i 0 : α)) ≤ 2 ^ 125 :=
    le_trans (mul_le_mul_of_nonneg_left (by linarith) hM0) hM
  obtain ⟨r, hr, hrb⟩ := blend32_entry_err n d (max |n| |d|) w1 (w2.getD i 0) hw1 hw
    (by omega) (le_max_left _ _) (le_max_right _ _) hMw
  obtain ⟨r', hr', hrb'⟩ := blend32_entry_err n d (max |n| |d|) w1 (w2'.getD i 0) hw1
    (le_trans hw hle) hsum (le_max_left _ _) (le_max_right _ _) hM
  refine ⟨r, r', ?_, ?_, ?_⟩
  · rw [blend32_getElem? img1 img2 w1 w2 hl i hi, hn, hd, hr]
  · rw [blend32_getElem? img1 img2 w1 w2' hl' i hi, hn, hd, hr']
  · have hex := blend_converges_entry n d w1 (w2.getD i 0) (w2'.getD i 0) hw1 hw hle
    push_cast at hex
    generalize (n * (w1 : α) + d * (w2.getD i 0 : α)) / ((w1 : α) + (w2.getD i 0 : α)) = B
      at hex hrb
    generalize (n * (w1 : α) + d * (w2'.getD i 0 : α)) / ((w1 : α) + (w2'.getD i 0 : α)) = B'
      at hex hrb'
    have h1 : |r' - d| ≤ |r' - B'| + |B' - d| := by
      have e : r' - d = (r' - B') + (B' - d) := by ring
      rw [e]
      exact abs_add _ _
    have h2 : |B - d| ≤ |r - B| + |r - d| := by
      have e : B - d = (r - d) - (r - B) := by ring
      rw [e]
      have := abs_sub (r - d) (r - B)
      linarith
    have h3 : max |n| |d| / 2 ^ 20 + max |n| |d| / 2 ^ 20 = max |n| |d| / 2 ^ 19 := by ring
    have h4 : (1 / 2 ^ 146 + 1 / 2 ^ 146 : α) = 1 / 2 ^ 145 := by norm_num
    linarith

/-- Claim C24, amended: for a positive `noisySampleCount` and a weight `w_i ≥ 0` the
divisor `noisySampleCount + w_i`, added as `int`, is never zero; and when the sum is in
the `int` range, the noisy and denoised samples are the finite numbers `n` and `d` and
`max(|n|, |d|) * (noisySampleCount + w_i) ≤ 2 ^ 125`, the blended value in single
precision is a finite number between the minimum and the maximum of the two samples up
to the rounding of the operations, `max(|n|, |d|) / 2 ^ 20 + 2 ^ (-146)`. -/
theorem blend32_convex (img1 img2 : List (Fl α)) (w1 : Int) (w2 : List Int) (i : Nat)
    (n d : α) (hi : i < min img1.length img2.length)
    (hl : min img1.length img2.length ≤ w2.length)
    (hn : img1.getD i (fin 0) = fin n) (hd : img2.getD i (fin 0) = fin d)
    (hw1 : 0 < w1) (hmax1 : w1 ≤ 2147483647) (hw : 0 ≤ w2.getD i 0)
    (hmax : w2.getD i 0 ≤ 2147483647) :
    intAdd w1 (w2.getD i 0) ≠ 0 ∧
    (w1 + w2.getD i 0 ≤ 2147483647 →
      max |n| |d| * ((w1 : α) + (w2.getD i 0 : α)) ≤ 2 ^ 125 →
      ∃ Q : α, (blend32 img1 img2 w1 w2)[i]? = some (fin Q) ∧
        min n d - (max |n| |d| / 2 ^ 20 + 1 / 2 ^ 146) ≤ Q ∧
        Q ≤ max n d + (max |n| |d| / 2 ^ 20 + 1 / 2 ^ 146)) := by
  constructor
  · unfold intAdd
    omega
  · intro hsum hM
    obtain ⟨Q, hQ, hb⟩ := blend32_entry_err n d (max |n| |d|) w1 (w2.getD i 0) hw1 hw hsum
      (le_max_left _ _) (le_max_right _ _) hM
    have hex := blend_convex_entry n d w1 (w2.getD i 0) hw1 hw
    push_cast at hex
    refine ⟨Q, ?_, ?_, ?_⟩
    · rw [blend32_getElem? img1 img2 w1 w2 hl i hi, hn, hd, hQ]
    · have := (abs_le.mp hb).1
      linarith [hex.1]
    · have := (abs_le.mp hb).2
      linarith [hex.2]

end BlendClaims

section BlendEval

/-- The blend of one pixel-channel. -/
theorem blend32_single {α : Type} [LinearOrderedField α] [FloorRing α] (a b : Fl α)
    (w1 w : Int) :
    blend32 [a] [b] w1 [w]
      = [r32 (r32 (r32 (a * ofInt32 w1) + r32 (b * ofInt32 w)) / ofInt32 (intAdd w1 w))] := by
  simp [blend32]

/-- Evaluation of the blend of one finite pixel-channel from the values of its seven
roundings. -/
theorem blend32_single_eval {α : Type} [LinearOrderedField α] [FloorRing α]
    (n d W1 Wb P1 P2 T S Q : α) (w1 w s : Int)
    (h1 : ofInt32 w1 = fin W1) (h2 : ofInt32 w = fin Wb) (h3 : rnd (n * W1) = fin P1)
    (h4 : rnd (d * Wb) = fin P2) (h5 : rnd (P1 + P2) = fin T) (hs : intAdd w1 w = s)
    (h6 : ofInt32 s = fin S) (hS : S ≠ 0) (h7 : rnd (T / S) = fin Q) :
    blend32 [fin n] [fin d] w1 [w] = [fin Q] := by
  rw [blend32_single, h1, h2, hs, h6, fin_mul_fin, fin_mul_fin, r32_fin, r32_fin, h3, h4,
    fin_add_fin, r32_fin, h5, fin_div_fin_of_ne _ hS, r32_fin, h7]

/-- The noisy sample `1.5774467f`, the denoised sample `0.5`, the sample count 3 and the weight 0: the product by 3 and the quotient by 3 round, and the blend is one unit in the last place below the noisy sample. -/
theorem blend32_eval_zero_weight :
    blend32 [fin ((6616291 / 4194304) : ℚ)] [fin (1 / 2)] 3 [0] = [fin (13232581 / 8388608)] :=
  blend32_single_eval (6616291 / 4194304) (1 / 2) 3 0 (2481109 / 524288) 0 (2481109 / 524288) 3 (13232581 / 8388608)
    3 0 3
    (by rw [ofInt32]; push_cast; exact (rnd_eval _ _ 1 12582912 (by norm_num) (Or.inl (by norm_num [le_abs])) (by norm_num [abs_lt])
      (by norm_num [abs_lt]) (by norm_num) (by norm_num [abs_le])))
    (by rw [ofInt32]; push_cast; exact (by norm_num [rnd_zero]))
    (rnd_eval_tie _ _ 2 9924436 (by norm_num) (Or.inl (by norm_num [le_abs])) (by norm_num [abs_lt])
      (Or.inl (by norm_num)) (by norm_num) (by norm_num) (by norm_num [abs_le]))
    (by norm_num [rnd_zero])
    (rnd_eval _ _ 2 9924436 (by norm_num) (Or.inl (by norm_num [le_abs])) (by norm_num [abs_lt])
      (by norm_num [abs_lt]) (by norm_num) (by norm_num [abs_le]))
    (by norm_num [intAdd])
    (by rw [ofInt32]; push_cast; exact (rnd_eval _ _ 1 12582912 (by norm_num) (Or.inl (by norm_num [le_abs])) (by norm_num [abs_lt])
      (by norm_num [abs_lt]) (by norm_num) (by norm_num [abs_le])))
    (by norm_num)
    (rnd_eval _ _ 0 13232581 (by norm_num) (Or.inl (by norm_num [le_abs])) (by norm_num [abs_lt])
      (by norm_num [abs_lt]) (by norm_num) (by norm_num [abs_le]))

/-- Noisy and denoised sample `0.226005286f`, sample count 1 and weight 0: the blend is the sample. -/
theorem blend32_eval_equal_zero :
    blend32 [fin ((7583479 / 33554432) : ℚ)] [fin (7583479 / 33554432)] 1 [0] = [fin (7583479 / 33554432)] :=
  blend32_single_eval (7583479 / 33554432) (7583479 / 33554432) 1 0 (7583479 / 33554432) 0 (7583479 / 33554432) 1 (7583479 / 33554432)
    1 0 1
    (by rw [ofInt32]; push_cast; exact (rnd_eval _ _ 0 8388608 (by norm_num) (Or.inl (by norm_num [le_abs])) (by norm_num [abs_lt])
      (by norm_num [abs_lt]) (by norm_num) (by norm_num [abs_le])))
    (by rw [ofInt32]; push_cast; exact (by norm_num [rnd_zero]))
    (rnd_eval _ _ (-3) 15166958 (by norm_num) (Or.inl (by norm_num [le_abs])) (by norm_num [abs_lt])
      (by norm_num [abs_lt]) (by norm_num) (by norm_num [abs_le]))
    (by norm_num [rnd_zero])
    (rnd_eval _ _ (-3) 15166958 (by norm_num) (Or.inl (by norm_num [le_abs])) (by norm_num [abs_lt])
      (by norm_num [abs_lt]) (by norm_num) (by norm_num [abs_le]))
    (by norm_num [intAdd])
    (by rw [ofInt32]; push_cast; exact (rnd_eval _ _ 0 8388608 (by norm_num) (Or.inl (by norm_num [le_abs])) (by norm_num [abs_lt])
      (by norm_num [abs_lt]) (by norm_num) (by norm_num [abs_le])))
    (by norm_num)
    (rnd_eval _ _ (-3) 15166958 (by norm_num) (Or.inl (by norm_num [le_abs])) (by norm_num [abs_lt])
      (by norm_num [abs_lt]) (by norm_num) (by norm_num [abs_le]))

/-- Noisy and denoised sample `0.226005286f`, sample count 1 and weight 2: the blend is below the sample. -/
theorem blend32_eval_equal_two :
    blend32 [fin ((7583479 / 33554432) : ℚ)] [fin (7583479 / 33554432)] 1 [2] = [fin (15166957 / 67108864)] :=
  blend32_single_eval (7583479 / 33554432) (7583479 / 33554432) 1 2 (7583479 / 33554432) (7583479 / 16777216) (5687609 / 8388608) 3 (15166957 / 67108864)
    1 2 3
    (by rw [ofInt32]; push_cast; exact (rnd_eval _ _ 0 8388608 (by norm_num) (Or.inl (by norm_num [le_abs])) (by norm_num [abs_lt])
      (by norm_num [abs_lt]) (by norm_num) (by norm_num [abs_le])))
    (by rw [ofInt32]; push_cast; exact (rnd_eval _ _ 1 8388608 (by norm_num) (Or.inl (by norm_num [le_abs])) (by norm_num [abs_lt])
      (by norm_num [abs_lt]) (by norm_num) (by norm_num [abs_le])))
    (rnd_eval _ _ (-3) 15166958 (by norm_num) (Or.inl (by norm_num [le_abs])) (by norm_num [abs_lt])
      (by norm_num [abs_lt]) (by norm_num) (by norm_num [abs_le]))
    (rnd_eval _ _ (-2) 15166958 (by norm_num) (Or.inl (by norm_num [le_abs])) (by norm_num [abs_lt])
      (by norm_num [abs_lt]) (by norm_num) (by norm_num [abs_le]))
    (rnd_eval_tie _ _ (-1) 11375218 (by norm_num) (Or.inl (by norm_num [le_abs])) (by norm_num [abs_lt])
      (Or.inl (by norm_num)) (by norm_num) (by norm_num) (by norm_num [abs_le]))
    (by norm_num [intAdd])
    (by rw [ofInt32]; push_cast; exact (rnd_eval _ _ 1 12582912 (by norm_num) (Or.inl (by norm_num [le_abs])) (by norm_num [abs_lt])
      (by norm_num [abs_lt]) (by norm_num) (by norm_num [abs_le])))
    (by norm_num)
    (rnd_eval _ _ (-3) 15166957 (by norm_num) (Or.inl (by norm_num [le_abs])) (by norm_num [abs_lt])
      (by norm_num [abs_lt]) (by norm_num) (by norm_num [abs_le]))

/-- Noisy and denoised sample `0.0524132922f`, sample count 1 and weight 2: the blend is above the sample. -/
theorem blend32_eval_equal_above :
    blend32 [fin ((7034793 / 134217728) : ℚ)] [fin (7034793 / 134217728)] 1 [2] = [fin (14069587 / 268435456)] :=
  blend32_single_eval (7034793 / 134217728) (7034793 / 134217728) 1 2 (7034793 / 134217728) (7034793 / 67108864) (5276095 / 33554432) 3 (14069587 / 268435456)
    1 2 3
    (by rw [ofInt32]; push_cast; exact (rnd_eval _ _ 0 8388608 (by norm_num) (Or.inl (by norm_num [le_abs])) (by norm_num [abs_lt])
      (by norm_num [abs_lt]) (by norm_num) (by norm_num [abs_le])))
    (by rw [ofInt32]; push_cast; exact (rnd_eval _ _ 1 8388608 (by norm_num) (Or.inl (by norm_num [le_abs])) (by norm_num [abs_lt])
      (by norm_num [abs_lt]) (by norm_num) (by norm_num [abs_le])))
    (rnd_eval _ _ (-5) 14069586 (by norm_num) (Or.inl (by norm_num [le_abs])) (by norm_num [abs_lt])
      (by norm_num [abs_lt]) (by norm_num) (by norm_num [abs_le]))
    (rnd_eval _ _ (-4) 14069586 (by norm_num) (Or.inl (by norm_num [le_abs])) (by norm_num [abs_lt])
      (by norm_num [abs_lt]) (by norm_num) (by norm_num [abs_le]))
    (rnd_eval_tie _ _ (-3) 10552190 (by norm_num) (Or.inl (by norm_num [le_abs])) (by norm_num [abs_lt])
      (Or.inr (by norm_num)) (by norm_num) (by norm_num) (by norm_num [abs_le]))
    (by norm_num [intAdd])
    (by rw [ofInt32]; push_cast; exact (rnd_eval _ _ 1 12582912 (by norm_num) (Or.inl (by norm_num [le_abs])) (by norm_num [abs_lt])
      (by norm_num [abs_lt]) (by norm_num) (by norm_num [abs_le])))
    (by norm_num)
    (rnd_eval _ _ (-5) 14069587 (by norm_num) (Or.inl (by norm_num [le_abs])) (by norm_num [abs_lt])
      (by norm_num [abs_lt]) (by norm_num) (by norm_num [abs_le]))

/-- Noisy and denoised sample 1, sample count `2147483647` and weight 1: the `int` sum wraps to `-2147483648` and the blend is `-1`. -/
theorem blend32_eval_int_overflow :
    blend32 [fin (1 : ℚ)] [fin 1] 2147483647 [1] = [fin (-1)] :=
  blend32_single_eval 1 1 2147483648 1 2147483648 1 2147483648 (-2147483648) (-1)
    2147483647 1 (-2147483648)
    (by rw [ofInt32]; push_cast; exact (rnd_eval _ _ 30 16777216 (by norm_num) (Or.inl (by norm_num [le_abs])) (by norm_num [abs_lt])
      (by norm_num [abs_lt]) (by norm_num) (by norm_num [abs_le])))
    (by rw [ofInt32]; push_cast; exact (rnd_eval _ _ 0 8388608 (by norm_num) (Or.inl (by norm_num [le_abs])) (by norm_num [abs_lt])
      (by norm_num [abs_lt]) (by norm_num) (by norm_num [abs_le])))
    (rnd_eval _ _ 31 8388608 (by norm_num) (Or.inl (by norm_num [le_abs])) (by norm_num [abs_lt])
      (by norm_num [abs_lt]) (by norm_num) (by norm_num [abs_le]))
    (rnd_eval _ _ 0 8388608 (by norm_num) (Or.inl (by norm_num [le_abs])) (by norm_num [abs_lt])
      (by norm_num [abs_lt]) (by norm_num) (by norm_num [abs_le]))
    (rnd_eval _ _ 31 8388608 (by norm_num) (Or.inl (by norm_num [le_abs])) (by norm_num [abs_lt])
      (by norm_num [abs_lt]) (by norm_num) (by norm_num [abs_le]))
    (by norm_num [intAdd])
    (by rw [ofInt32]; push_cast; exact (rnd_eval _ _ 31 (-8388608) (by norm_num) (Or.inl (by norm_num [le_abs])) (by norm_num [abs_lt])
      (by norm_num [abs_lt]) (by norm_num) (by norm_num [abs_le])))
    (by norm_num)
    (rnd_eval _ _ 0 (-8388608) (by norm_num) (Or.inl (by norm_num [le_abs])) (by norm_num [abs_lt])
      (by norm_num [abs_lt]) (by norm_num) (by norm_num [abs_le]))

/-- Noisy and denoised sample 1, sample count `2147483647` and weight 0: the blend is 1. -/
theorem blend32_eval_int_max :
    blend32 [fin (1 : ℚ)] [fin 1] 2147483647 [0] = [fin 1] :=
  blend32_single_eval 1 1 2147483648 0 2147483648 0 2147483648 2147483648 1
    2147483647 0 2147483647
    (by rw [ofInt32]; push_cast; exact (rnd_eval _ _ 30 16777216 (by norm_num) (Or.inl (by norm_num [le_abs])) (by norm_num [abs_lt])
      (by norm_num [abs_lt]) (by norm_num) (by norm_num [abs_le])))
    (by rw [ofInt32]; push_cast; exact (by norm_num [rnd_zero]))
    (rnd_eval _ _ 31 8388608 (by norm_num) (Or.inl (by norm_num [le_abs])) (by norm_num [abs_lt])
      (by norm_num [abs_lt]) (by norm_num) (by norm_num [abs_le]))
    (by norm_num [rnd_zero])
    (rnd_eval _ _ 31 8388608 (by norm_num) (Or.inl (by norm_num [le_abs])) (by norm_num [abs_lt])
      (by norm_num [abs_lt]) (by norm_num) (by norm_num [abs_le]))
    (by norm_num [intAdd])
    (by rw [ofInt32]; push_cast; exact (rnd_eval _ _ 30 16777216 (by norm_num) (Or.inl (by norm_num [le_abs])) (by norm_num [abs_lt])
      (by norm_num [abs_lt]) (by norm_num) (by norm_num [abs_le])))
    (by norm_num)
    (rnd_eval _ _ 0 8388608 (by norm_num) (Or.inl (by norm_num [le_abs])) (by norm_num [abs_lt])
      (by norm_num [abs_lt]) (by norm_num) (by norm_num [abs_le]))

/-- Noisy and denoised sample `2 ^ 127`, sample count 1 and weight 0: the blend is the sample. -/
theorem blend32_eval_large_zero :
    blend32 [fin (170141183460469231731687303715884105728 : ℚ)] [fin 170141183460469231731687303715884105728] 1 [0] = [fin 170141183460469231731687303715884105728] :=
  blend32_single_eval 170141183460469231731687303715884105728 170141183460469231731687303715884105728 1 0 170141183460469231731687303715884105728 0 170141183460469231731687303715884105728 1 170141183460469231731687303715884105728
    1 0 1
    (by rw [ofInt32]; push_cast; exact (rnd_eval _ _ 0 8388608 (by norm_num) (Or.inl (by norm_num [le_abs])) (by norm_num [abs_lt])
      (by norm_num [abs_lt]) (by norm_num) (by norm_num [abs_le])))
    (by rw [ofInt32]; push_cast; exact (by norm_num [rnd_zero]))
    (rnd_eval _ _ 127 8388608 (by norm_num) (Or.inl (by norm_num [le_abs])) (by norm_num [abs_lt])
      (by norm_num [abs_lt]) (by norm_num) (by norm_num [abs_le]))
    (by norm_num [rnd_zero])
    (rnd_eval _ _ 127 8388608 (by norm_num) (Or.inl (by norm_num [le_abs])) (by norm_num [abs_lt])
      (by norm_num [abs_lt]) (by norm_num) (by norm_num [abs_le]))
    (by norm_num [intAdd])
    (by rw [ofInt32]; push_cast; exact (rnd_eval _ _ 0 8388608 (by norm_num) (Or.inl (by norm_num [le_abs])) (by norm_num [abs_lt])
      (by norm_num [abs_lt]) (by norm_num) (by norm_num [abs_le])))
    (by norm_num)
    (rnd_eval _ _ 127 8388608 (by norm_num) (Or.inl (by norm_num [le_abs])) (by norm_num [abs_lt])
      (by norm_num [abs_lt]) (by norm_num) (by norm_num [abs_le]))
end BlendEval

section BlendSpecial

/-- Evaluation of a rounding that overflows to plus infinity. -/
theorem rnd_eval_pinf {α : Type} [LinearOrderedField α] [FloorRing α] (x : α) (e k : Int)
    (he : -126 ≤ e) (hlo : (2 : α) ^ e ≤ |x| ∨ (e = -126 ∧ x ≠ 0))
    (hhi : |x| < (2 : α) ^ (e + 1)) (hk : |x / 2 ^ (e - 23) - (k : α)| < 1 / 2)
    (hy : (2 : α) ^ 128 ≤ |(k : α) * 2 ^ (e - 23)|) (hx : 0 < x) : rnd x = pinf := by
  unfold rnd
  rw [rnd_eq x e k he hlo hhi hk, if_pos hy, if_pos hx]

/-- An integer of small magnitude converts to `float` exactly. -/
theorem ofInt32_small {α : Type} [LinearOrderedField α] [FloorRing α] (k : Int)
    (hk : |k| < 2 ^ 24) : (ofInt32 k : Fl α) = fin (k : α) :=
  rnd_int k hk

/-- With an infinite denoised sample and the weight 0 the product `inf * 0` is NaN, and
so is the blend. -/
theorem blend32_eval_inf_zero :
    blend32 [fin (1 : ℚ)] [pinf] 1 [0] = [nan] ∧ blend32 [fin (0 : ℚ)] [pinf] 1 [0] = [nan] ∧
    blend32 [fin (2 : ℚ)] [ninf] 3 [0] = [nan] := by
  have h0 : (ofInt32 0 : Fl ℚ) = fin 0 := by simpa using ofInt32_small (α := ℚ) 0 (by decide)
  have hp : (pinf * fin 0 : Fl ℚ) = nan := by
    show Fl.mul pinf (fin 0) = nan
    simp [Fl.mul, infTimes]
  have hn : (ninf * fin 0 : Fl ℚ) = nan := by
    show Fl.mul ninf (fin 0) = nan
    simp [Fl.mul, infTimes]
  refine ⟨?_, ?_, ?_⟩ <;> simp [blend32_single, h0, hp, hn, r32]

/-- With an infinite denoised sample and the weight 1 the blend is infinite. -/
theorem blend32_eval_inf_one : blend32 [fin (0 : ℚ)] [pinf] 1 [1] = [pinf] := by
  have h1 : (ofInt32 1 : Fl ℚ) = fin 1 := by simpa using ofInt32_small (α := ℚ) 1 (by decide)
  have h2 : (ofInt32 (intAdd 1 1) : Fl ℚ) = fin 2 := by
    have : intAdd 1 1 = 2 := by norm_num [intAdd]
    rw [this]
    simpa using ofInt32_small (α := ℚ) 2 (by decide)
  have hp : (pinf * fin 1 : Fl ℚ) = pinf := by
    show Fl.mul pinf (fin 1) = pinf
    simp [Fl.mul, infTimes]
  have ha : (fin 0 + pinf : Fl ℚ) = pinf := rfl
  have hd : (pinf / fin 2 : Fl ℚ) = pinf := by
    show Fl.div pinf (fin 2) = pinf
    simp [Fl.div]
  rw [blend32_single, h1, h2, hp, fin_mul_fin, zero_mul, r32_fin, rnd_zero]
  simp only [r32, ha, hd]

/-- The noisy sample `2 ^ 127`, the sample count 3 and the weight 0: the product
overflows and the blend is infinite. -/
theorem blend32_eval_overflow_zero :
    blend32 [fin (2 ^ 127 : ℚ)] [fin 0] 3 [0] = [pinf] := by
  have h0 : (ofInt32 0 : Fl ℚ) = fin 0 := by simpa using ofInt32_small (α := ℚ) 0 (by decide)
  have h3 : (ofInt32 3 : Fl ℚ) = fin 3 := by simpa using ofInt32_small (α := ℚ) 3 (by decide)
  have hs : (ofInt32 (intAdd 3 0) : Fl ℚ) = fin 3 := by
    have : intAdd 3 0 = 3 := by norm_num [intAdd]
    rw [this, h3]
  have hP : rnd ((2 : ℚ) ^ 127 * 3) = pinf :=
    rnd_eval_pinf _ 128 12582912 (by norm_num) (Or.inl (by norm_num [le_abs]))
      (by norm_num [abs_lt]) (by norm_num [abs_lt]) (by norm_num [le_abs]) (by norm_num)
  have ha : (pinf + fin 0 : Fl ℚ) = pinf := rfl
  have hd : (pinf / fin 3 : Fl ℚ) = pinf := by
    show Fl.div pinf (fin 3) = pinf
    simp [Fl.div]
  rw [blend32_single, h0, h3, hs, fin_mul_fin, fin_mul_fin, mul_zero, r32_fin, r32_fin, hP,
    rnd_zero]
  simp only [r32, ha, hd]

/-- Noisy and denoised sample `2 ^ 127`, sample count 1 and weight 1: the sum of the two
products overflows and the blend is infinite. -/
theorem blend32_eval_overflow_sum :
    blend32 [fin (2 ^ 127 : ℚ)] [fin (2 ^ 127)] 1 [1] = [pinf] := by
  have h1 : (ofInt32 1 : Fl ℚ) = fin 1 := by simpa using ofInt32_small (α := ℚ) 1 (by decide)
  have hs : (ofInt32 (intAdd 1 1) : Fl ℚ) = fin 2 := by
    have : intAdd 1 1 = 2 := by norm_num [intAdd]
    rw [this]
    simpa using ofInt32_small (α := ℚ) 2 (by decide)
  have hP : rnd ((2 : ℚ) ^ 127 * 1) = fin (2 ^ 127) :=
    rnd_eval _ _ 127 8388608 (by norm_num) (Or.inl (by norm_num [le_abs]))
      (by norm_num [abs_lt]) (by norm_num [abs_lt]) (by norm_num) (by norm_num [abs_le])
  have hT : rnd ((2 : ℚ) ^ 127 + 2 ^ 127) = pinf :=
    rnd_eval_pinf _ 128 8388608 (by norm_num) (Or.inl (by norm_num [le_abs]))
      (by norm_num [abs_lt]) (by norm_num [abs_lt]) (by norm_num [le_abs]) (by norm_num)
  have hd : (pinf / fin 2 : Fl ℚ) = pinf := by
    show Fl.div pinf (fin 2) = pinf
    simp [Fl.div]
  rw [blend32_single, h1, hs, fin_mul_fin, r32_fin, hP, fin_add_fin, r32_fin, hT]
  simp only [r32, hd]

/-- Counterexample to C3 as stated: at the noisy sample `1.5774467f` and the sample
count 3 the product by 3 and the quotient by 3 round, and the all-zero weight vector
gives `1.57744658`, not the noisy sample; with an infinite denoised sample the product
`inf * 0` is NaN; and at the noisy sample `2 ^ 127` the product by 3 overflows. -/
theorem blend32_zero_weights_counterexample :
    (blend32 [fin (6616291 / 4194304 : ℚ)] [fin (1 / 2)] 3 [0]
        = [fin (13232581 / 8388608)] ∧
      (13232581 / 8388608 : ℚ) ≠ 6616291 / 4194304) ∧
    blend32 [fin (1 : ℚ)] [pinf] 1 [0] = [nan] ∧
    blend32 [fin (2 ^ 127 : ℚ)] [fin 0] 3 [0] = [pinf] :=
  ⟨⟨blend32_eval_zero_weight, by norm_num⟩, blend32_eval_inf_zero.1,
    blend32_eval_overflow_zero⟩

/-- Witness of C3: one pixel-channel with the noisy sample 1, the denoised sample 5 and
the sample count 3. -/
theorem blend32_zero_weights_witness :
    (blend32 [fin (1 : ℚ)] [fin 5] 3 [0]).length = 1 ∧
    ∃ Q : ℚ, (blend32 [fin (1 : ℚ)] [fin 5] 3 [0])[0]? = some (fin Q) ∧
      |Q - 1| ≤ |1| / 2 ^ 21 + 1 / 2 ^ 147 :=
  ⟨(blend32_zero_weights [fin (1 : ℚ)] [fin 5] 3 [0] rfl (by decide) (by decide)
      (by decide) (by decide)).1,
    (blend32_zero_weights [fin (1 : ℚ)] [fin 5] 3 [0] rfl (by decide) (by decide)
      (by decide) (by decide)).2 0 1 5 (by decide) rfl rfl (by norm_num)⟩

/-- Counterexample to C4 as stated.  Rounding: with noisy and denoised sample
`0.226005286f` and the sample count 1, the weight 0 gives the sample and the weight 2
gives a value below it, farther from the denoised sample.  Overflow of the `int` sum:
with both samples 1 and the sample count `2147483647`, the weight 0 gives 1 and the
weight 1 gives `-1`.  Infinite denoised sample: the weight 0 gives NaN, the weight 1
infinity, and the comparison of the two distances is false.  Overflow of the sum of the
products: with both samples `2 ^ 127` the weight 0 gives the sample and the weight 1
infinity. -/
theorem blend32_converges_counterexample :
    (blend32 [fin (7583479 / 33554432 : ℚ)] [fin (7583479 / 33554432)] 1 [0]
        = [fin (7583479 / 33554432)] ∧
      blend32 [fin (7583479 / 33554432 : ℚ)] [fin (7583479 / 33554432)] 1 [2]
        = [fin (15166957 / 67108864)] ∧
      ¬ (|(15166957 / 67108864 : ℚ) - 7583479 / 33554432|
        ≤ |(7583479 / 33554432 : ℚ) - 7583479 / 33554432|)) ∧
    (blend32 [fin (1 : ℚ)] [fin 1] 2147483647 [0] = [fin 1] ∧
      blend32 [fin (1 : ℚ)] [fin 1] 2147483647 [1] = [fin (-1)] ∧
      ¬ (|(-1 : ℚ) - 1| ≤ |(1 : ℚ) - 1|)) ∧
    (blend32 [fin (0 : ℚ)] [pinf] 1 [0] = [nan] ∧
      blend32 [fin (0 : ℚ)] [pinf] 1 [1] = [pinf] ∧
      le (Fl.abs (pinf - pinf : Fl ℚ)) (Fl.abs (nan - pinf : Fl ℚ)) = false) ∧
    (blend32 [fin (2 ^ 127 : ℚ)] [fin (2 ^ 127)] 1 [0] = [fin (2 ^ 127)] ∧
      blend32 [fin (2 ^ 127 : ℚ)] [fin (2 ^ 127)] 1 [1] = [pinf] ∧
      le (Fl.abs (pinf - fin (2 ^ 127) : Fl ℚ))
        (Fl.abs (fin (2 ^ 127) - fin (2 ^ 127) : Fl ℚ)) = false) := by
  refine ⟨⟨blend32_eval_equal_zero, blend32_eval_equal_two, by norm_num [abs_le]⟩,
    ⟨blend32_eval_int_max, blend32_eval_int_overflow, by norm_num⟩,
    ⟨blend32_eval_inf_zero.2.1, blend32_eval_inf_one, by decide⟩,
    ⟨?_, blend32_eval_overflow_sum, by decide⟩⟩
  have h := blend32_eval_large_zero
  norm_num at h ⊢
  exact h

/-- Witness of C4: noisy sample 1, denoised sample 3, sample count 4, weights 2 and
65536. -/
theorem blend32_converges_witness :
    ∃ r r' : ℚ, (blend32 [fin (1 : ℚ)] [fin 3] 4 [2])[0]? = some (fin r) ∧
      (blend32 [fin (1 : ℚ)] [fin 3] 4 [65536])[0]? = some (fin r') ∧
      |r' - 3| ≤ |r - 3| + max |(1 : ℚ)| |3| / 2 ^ 19 + 1 / 2 ^ 145 :=
  blend32_converges [fin 1] [fin 3] 4 [2] [65536] 0 1 3 (by decide) (by decide) (by decide)
    rfl rfl (by decide) (by decide) (by decide) (by decide) (by decide)
    (by norm_num [abs_of_pos])

/-- Counterexample to C24 as stated.  Rounding: with noisy and denoised sample
`0.0524132922f`, the sample count 1 and the weight 2 the blend is above both samples.
Overflow of the `int` sum: with both samples 1, the sample count `2147483647` and the
weight 1 the blend is `-1`.  Infinite denoised sample: with the weight 0 the blend is
NaN, which compares false with both bounds.  Overflow of the sum of the products: with
both samples `2 ^ 127` the blend is infinite. -/
theorem blend32_convex_counterexample :
    (blend32 [fin (7034793 / 134217728 : ℚ)] [fin (7034793 / 134217728)] 1 [2]
        = [fin (14069587 / 268435456)] ∧
      ¬ ((14069587 / 268435456 : ℚ)
        ≤ max (7034793 / 134217728 : ℚ) (7034793 / 134217728))) ∧
    (blend32 [fin (1 : ℚ)] [fin 1] 2147483647 [1] = [fin (-1)] ∧
      ¬ (min (1 : ℚ) 1 ≤ -1)) ∧
    (blend32 [fin (2 : ℚ)] [ninf] 3 [0] = [nan] ∧
      le (ninf : Fl ℚ) nan = false ∧ le (nan : Fl ℚ) (fin 2) = false) ∧
    (blend32 [fin (2 ^ 127 : ℚ)] [fin (2 ^ 127)] 1 [1] = [pinf] ∧
      le (pinf : Fl ℚ) (fin (2 ^ 127)) = false) :=
  ⟨⟨blend32_eval_equal_above, by norm_num⟩, ⟨blend32_eval_int_overflow, by norm_num⟩,
    ⟨blend32_eval_inf_zero.2.2, by decide, by decide⟩,
    ⟨blend32_eval_overflow_sum, by decide⟩⟩

/-- Witness of C24: noisy sample 1, denoised sample 9, sample count 3 and weight 5. -/
theorem blend32_convex_witness :
    intAdd 3 (([5] : List Int).getD 0 0) ≠ 0 ∧
    ∃ Q : ℚ, (blend32 [fin (1 : ℚ)] [fin 9] 3 [5])[0]? = some (fin Q) ∧
      min 1 9 - (max |(1 : ℚ)| |9| / 2 ^ 20 + 1 / 2 ^ 146) ≤ Q ∧
      Q ≤ max 1 9 + (max |(1 : ℚ)| |9| / 2 ^ 20 + 1 / 2 ^ 146) :=
  ⟨(blend32_convex [fin (1 : ℚ)] [fin 9] 3 [5] 0 1 9 (by decide) (by decide) rfl rfl
      (by decide) (by decide) (by decide) (by decide)).1,
    (blend32_convex [fin (1 : ℚ)] [fin 9] 3 [5] 0 1 9 (by decide) (by decide) rfl rfl
      (by decide) (by decide) (by decide) (by decide)).2 (by decide)
      (by norm_num [abs_of_pos])⟩

end BlendSpecial

/-! ## Minimum weight in single precision -/

section Special

variable {α : Type} [LinearOrderedField α]

/-- The product of an infinity and a number is not finite. -/
theorem special_infTimes (p : Bool) (y : α) : isFinite (infTimes p y) = false := by
  unfold infTimes
  split_ifs <;> rfl

/-- A quotient with the dividend plus infinity is not finite. -/
theorem special_pinf_div (den : Fl α) : isFinite (pinf / den) = false := by
  cases den with
  | nan => rfl
  | pinf => rfl
  | ninf => rfl
  | fin y =>
    show isFinite (if 0 ≤ y then pinf else ninf) = false
    split_ifs <;> rfl

/-- A product whose first factor is NaN or an infinity is not finite. -/
theorem special_mul {a : Fl α} (h : isFinite a = false) (x : Fl α) :
    isFinite (a * x) = false := by
  cases a with
  | fin y => simp [isFinite] at h
  | nan => rw [nan_mul]; rfl
  | pinf =>
    cases x with
    | nan => rfl
    | pinf => rfl
    | ninf => rfl
    | fin y => exact special_infTimes true y
  | ninf =>
    cases x with
    | nan => rfl
    | pinf => rfl
    | ninf => rfl
    | fin y => exact special_infTimes false y

/-- A product whose second factor is NaN or an infinity is not finite. -/
theorem special_mul_right (x : Fl α) {a : Fl α} (h : isFinite a = false) :
    isFinite (x * a) = false := by
  cases a with
  | fin y => simp [isFinite] at h
  | nan => rw [mul_nan]; rfl
  | pinf =>
    cases x with
    | nan => rfl
    | pinf => rfl
    | ninf => rfl
    | fin y => exact special_infTimes true y
  | ninf =>
    cases x with
    | nan => rfl
    | pinf => rfl
    | ninf => rfl
    | fin y => exact special_infTimes false y

/-- A finite number minus NaN or an infinity is not finite. -/
theorem special_fin_sub (x : α) {a : Fl α} (h : isFinite a = false) :
    isFinite (fin x - a) = false := by
  cases a with
  | fin y => simp [isFinite] at h
  | nan => rfl
  | pinf => rfl
  | ninf => rfl

/-- The quotient of two values that are NaN or infinite is NaN. -/
theorem special_div_special {a b : Fl α} (ha : isFinite a = false)
    (hb : isFinite b = false) : a / b = nan := by
  cases a with
  | fin y => simp [isFinite] at ha
  | nan => rw [nan_div]
  | pinf =>
    cases b with
    | fin y => simp [isFinite] at hb
    | nan => rfl
    | pinf => rfl
    | ninf => rfl
  | ninf =>
    cases b with
    | fin y => simp [isFinite] at hb
    | nan => rfl
    | pinf => rfl
    | ninf => rfl

end Special

section MinWeight32

variable {α : Type} [LinearOrderedField α] [FloorRing α]

/-- Rounding keeps NaN and the infinities. -/
theorem special_r32 {v : Fl α} (h : isFinite v = false) : isFinite (r32 v) = false := by
  cases v with
  | fin y => simp [isFinite] at h
  | nan => rfl
  | pinf => rfl
  | ninf => rfl

/-- Once the logarithm of `expV` is minus infinity the exponent of `calcMinWeight` is
NaN, whatever the other logarithms are: `a` and `b` are not finite, and the exponent is
a quotient of two values that are not finite. -/
theorem exponent32_nan (lv : α) (den ls : Fl α) :
    r32 (r32 (ls * r32 (fin lv - r32 (fin lv - r32 (r32 (pinf / den) * ls))))
      / r32 (fin lv - r32 (fin lv - r32 (r32 (pinf / den) * ls)))) = nan := by
  have hb : isFinite (r32 (fin lv - r32 (r32 (pinf / den) * ls))) = false :=
    special_r32 (special_fin_sub lv (special_r32 (special_mul
      (special_r32 (special_pinf_div den)) ls)))
  have hX : isFinite (r32 (fin lv - r32 (fin lv - r32 (r32 (pinf / den) * ls)))) = false :=
    special_r32 (special_fin_sub lv hb)
  rw [special_div_special (special_r32 (special_mul_right ls hX)) hX]
  rfl

/-- A number of magnitude below `2 ^ (-150)` rounds to zero (underflow). -/
theorem rnd_underflow (x : α) (hx : |x| < 1 / 2 ^ 150) : rnd x = fin 0 := by
  by_cases hx0 : x = 0
  · rw [hx0, rnd_zero]
  · have h := rnd_eval x 0 (-126) 0 (by norm_num) (Or.inr ⟨rfl, hx0⟩)
      (lt_trans hx (by
        have : (2 : α) ^ ((-126 : Int) + 1) = 1 / 2 ^ 125 := by
          have : ((-126 : Int) + 1) = -(125 : Int) := by norm_num
          rw [this, zpow_neg, one_div]
          norm_num
        rw [this]
        norm_num))
      (by
        have h2 : (2 : α) ^ ((-126 : Int) - 23) = 1 / 2 ^ 149 := by
          have : ((-126 : Int) - 23) = -(149 : Int) := by norm_num
          rw [this, zpow_neg, one_div]
          norm_num
        rw [h2, Int.cast_zero, sub_zero, abs_div,
          abs_of_pos (by positivity : (0 : α) < 1 / 2 ^ 149), div_lt_iff₀ (by positivity)]
        calc |x| < 1 / 2 ^ 150 := hx
          _ = 1 / 2 * (1 / 2 ^ 149) := by norm_num)
      (by simp)
      (le_trans (le_of_lt hx) (by norm_num))
    exact h

end MinWeight32

section MinWeightClaim

/-- Underflow in `calcMinWeight`: at the variance and risk 0, a reference intensity that
is not below `1e-7f` and a sample count from 2 to 8, the product `expV = sqrtV * sqrtV`
is below `2 ^ (-150)` and rounds to zero in single precision, its logarithm is minus
infinity, the exponent is NaN, and the conversion of NaN to `int` is undefined. -/
theorem calcMinWeight32_underflow (i : Fl ℝ) (spp : Int)
    (hi : lt i (fin (14073749 / 2 ^ 47)) = false) (h2 : 2 ≤ spp) (h8 : spp ≤ 8) :
    calcMinWeight32 (Libm.round32 (Libm.ideal Real.log Real.exp Real.sqrt Real.rpow))
      (fin 0) (fin 0) i spp = none := by
  have hP : (ofInt32 spp : Fl ℝ) = fin (spp : ℝ) :=
    rnd_int spp (abs_lt.mpr ⟨by omega, by omega⟩)
  have h20 : (ofInt32 20 : Fl ℝ) = fin ((20 : Int) : ℝ) := rnd_int 20 (by decide)
  have hP2 : (2 : ℝ) ≤ (spp : ℝ) := by exact_mod_cast h2
  have hP8 : (spp : ℝ) ≤ 8 := by exact_mod_cast h8
  -- the sum v + e
  have hve : rnd ((0 : ℝ) + 14073749 / 2 ^ 47) = fin (14073749 / 2 ^ 47) :=
    rnd_eval _ _ (-24) 14073749 (by norm_num) (Or.inl (by norm_num [le_abs]))
      (by norm_num [abs_lt]) (by norm_num [abs_lt]) (by norm_num) (by norm_num [abs_le])
  -- the power 10 ^ 20
  have hpow : (Libm.round32 (Libm.ideal Real.log Real.exp Real.sqrt Real.rpow)).pow
      (fin 10) (fin ((20 : Int) : ℝ)) = fin (rndVal ((10 : ℝ) ^ 20)) := by
    show r32 ((Libm.ideal Real.log Real.exp Real.sqrt Real.rpow).pow (fin 10)
      (fin ((20 : Int) : ℝ))) = _
    rw [ideal_pow_ten, r32_fin, rnd_of_le (by norm_num [abs_le])]
  have hN := rndVal_err_rel (x := (10 : ℝ) ^ 20) (by norm_num [le_abs])
  rw [abs_of_pos (by positivity : (0 : ℝ) < 10 ^ 20)] at hN
  generalize rndVal ((10 : ℝ) ^ 20) = N at hpow hN
  have hNlow : (10 : ℝ) ^ 20 - 10 ^ 20 / 2 ^ 24 ≤ N := by linarith [(abs_le.mp hN).1]
  have hNhigh : N ≤ (10 : ℝ) ^ 20 + 10 ^ 20 / 2 ^ 24 := by linarith [(abs_le.mp hN).2]
  -- the divisor expN / spp - 1
  have hPpos : (0 : ℝ) < (spp : ℝ) := by linarith
  have hNP_low : (12499999 : ℝ) * 10 ^ 12 ≤ N / (spp : ℝ) := by
    rw [le_div_iff₀ hPpos]
    have : (12499999 : ℝ) * 10 ^ 12 * (spp : ℝ) ≤ 12499999 * 10 ^ 12 * 8 := by
      apply mul_le_mul_of_nonneg_left hP8 (by norm_num)
    have h2 : (12499999 : ℝ) * 10 ^ 12 * 8 ≤ 10 ^ 20 - 10 ^ 20 / 2 ^ 24 := by norm_num
    linarith
  have hNP_high : N / (spp : ℝ) ≤ 10 ^ 20 := by
    rw [div_le_iff₀ hPpos]
    have : (10 : ℝ) ^ 20 * 2 ≤ 10 ^ 20 * (spp : ℝ) :=
      mul_le_mul_of_nonneg_left hP2 (by positivity)
    have h2 : (10 : ℝ) ^ 20 + 10 ^ 20 / 2 ^ 24 ≤ 10 ^ 20 * 2 := by norm_num
    linarith
  have hNPabs : |N / (spp : ℝ)| = N / (spp : ℝ) := abs_of_pos (by linarith)
  have hD1e : rnd (N / (spp : ℝ)) = fin (rndVal (N / (spp : ℝ))) :=
    rnd_of_le (by rw [hNPabs]; exact le_trans hNP_high (by norm_num))
  have hD1 := rndVal_err_rel (x := N / (spp : ℝ))
    (by rw [hNPabs]; exact le_trans (by norm_num) hNP_low)
  rw [hNPabs] at hD1
  generalize rndVal (N / (spp : ℝ)) = D1 at hD1e hD1
  have hD1low : (12499990 : ℝ) * 10 ^ 12 ≤ D1 := by
    have h1 := (abs_le.mp hD1).1
    have h2 : N / (spp : ℝ) / 2 ^ 24 ≤ 10 ^ 20 / 2 ^ 24 := by gcongr
    have h3 : (12499999 : ℝ) * 10 ^ 12 - 10 ^ 20 / 2 ^ 24 ≥ 12499990 * 10 ^ 12 := by norm_num
    linarith
  have hD1high : D1 ≤ 2 * 10 ^ 20 := by
    have h1 := (abs_le.mp hD1).2
    have h2 : N / (spp : ℝ) / 2 ^ 24 ≤ 10 ^ 20 / 2 ^ 24 := by gcongr
    have h3 : (10 : ℝ) ^ 20 + 10 ^ 20 / 2 ^ 24 ≤ 2 * 10 ^ 20 := by norm_num
    linarith
  have hD1abs : |D1 - 1| = D1 - 1 := abs_of_pos (by linarith)
  have hKe : rnd (D1 - 1) = fin (rndVal (D1 - 1)) :=
    rnd_of_le (by rw [hD1abs]; exact le_trans (by linarith) (by norm_num : (2 : ℝ) * 10 ^ 20 ≤ 2 ^ 127))
  have hK := rndVal_err_rel (x := D1 - 1)
    (by rw [hD1abs]; exact le_trans (by norm_num) (by linarith : (1 : ℝ) ≤ D1 - 1))
  rw [hD1abs] at hK
  generalize rndVal (D1 - 1) = K at hKe hK
  have hKlow : (12499 : ℝ) * 10 ^ 15 ≤ K := by
    have h1 := (abs_le.mp hK).1
    have h2 : (D1 - 1) / 2 ^ 24 ≤ 2 * 10 ^ 20 / 2 ^ 24 := by
      apply div_le_div_of_nonneg_right _ (by norm_num)
      linarith
    have h3 : (12499990 : ℝ) * 10 ^ 12 - 1 - 2 * 10 ^ 20 / 2 ^ 24 ≥ 12499 * 10 ^ 15 := by
      norm_num
    linarith
  have hKpos : 0 < K := by linarith
  -- the square root
  have hsq0 : Real.sqrt (14073749 / 2 ^ 47) ≤ 3163 / 10 ^ 7 := by
    rw [Real.sqrt_le_left (by norm_num)]
    norm_num
  have hsqnn : 0 ≤ Real.sqrt (14073749 / 2 ^ 47) := Real.sqrt_nonneg _
  have hsqabs : |Real.sqrt (14073749 / 2 ^ 47)| = Real.sqrt (14073749 / 2 ^ 47) :=
    abs_of_nonneg hsqnn
  have hsqrt : (Libm.round32 (Libm.ideal Real.log Real.exp Real.sqrt Real.rpow)).sqrt
      (fin (14073749 / 2 ^ 47)) = fin (rndVal (Real.sqrt (14073749 / 2 ^ 47))) := by
    show r32 ((Libm.ideal Real.log Real.exp Real.sqrt Real.rpow).sqrt
      (fin (14073749 / 2 ^ 47))) = _
    rw [ideal_sqrt_nonneg _ _ _ _ _ (by norm_num), r32_fin,
      rnd_of_le (by rw [hsqabs]; exact le_trans hsq0 (by norm_num))]
  have hr := rndVal_err (Real.sqrt (14073749 / 2 ^ 47))
  rw [hsqabs] at hr
  generalize rndVal (Real.sqrt (14073749 / 2 ^ 47)) = r at hsqrt hr
  have hrabs : |r| ≤ 3164 / 10 ^ 7 := by
    have e : r = (r - Real.sqrt (14073749 / 2 ^ 47)) + Real.sqrt (14073749 / 2 ^ 47) := by
      ring
    have h2 : Real.sqrt (14073749 / 2 ^ 47) / 2 ^ 24 ≤ 3163 / 10 ^ 7 / 2 ^ 24 := by gcongr
    have h3 : (3163 / 10 ^ 7 / 2 ^ 24 + 1 / 2 ^ 150 + 3163 / 10 ^ 7 : ℝ) ≤ 3164 / 10 ^ 7 := by
      norm_num
    rw [e]
    calc _ ≤ |r - Real.sqrt (14073749 / 2 ^ 47)| + |Real.sqrt (14073749 / 2 ^ 47)| :=
          abs_add _ _
      _ ≤ _ := by rw [hsqabs]; linarith
  -- sqrtV and expV
  have hrK : |r / K| ≤ 25315 / 10 ^ 27 := by
    rw [abs_div, abs_of_pos hKpos, div_le_iff₀ hKpos]
    have : (25315 / 10 ^ 27 : ℝ) * (12499 * 10 ^ 15) ≤ 25315 / 10 ^ 27 * K :=
      mul_le_mul_of_nonneg_left hKlow (by norm_num)
    have h2 : (3164 / 10 ^ 7 : ℝ) ≤ 25315 / 10 ^ 27 * (12499 * 10 ^ 15) := by norm_num
    linarith
  have hsve : rnd (r / K) = fin (rndVal (r / K)) :=
    rnd_of_le (le_trans hrK (by norm_num))
  have hsv := rndVal_err (r / K)
  generalize rndVal (r / K) = sv at hsve hsv
  have hsvabs : |sv| ≤ 2532 / 10 ^ 26 := by
    have e : sv = (sv - r / K) + r / K := by ring
    have h2 : |r / K| / 2 ^ 24 ≤ 25315 / 10 ^ 27 / 2 ^ 24 := by gcongr
    have h3 : (25315 / 10 ^ 27 / 2 ^ 24 + 1 / 2 ^ 150 + 25315 / 10 ^ 27 : ℝ)
        ≤ 2532 / 10 ^ 26 := by norm_num
    rw [e]
    calc _ ≤ |sv - r / K| + |r / K| := abs_add _ _
      _ ≤ _ := by linarith
  have hexpV : rnd (sv * sv) = fin 0 := by
    apply rnd_underflow
    rw [abs_mul]
    calc |sv| * |sv| ≤ 2532 / 10 ^ 26 * (2532 / 10 ^ 26) :=
          mul_le_mul hsvabs hsvabs (abs_nonneg _) (by norm_num)
      _ < 1 / 2 ^ 150 := by norm_num
  -- the logarithms
  have hlog0 : (Libm.round32 (Libm.ideal Real.log Real.exp Real.sqrt Real.rpow)).log (fin 0)
      = ninf := by
    show r32 ((Libm.ideal Real.log Real.exp Real.sqrt Real.rpow).log (fin 0)) = _
    simp [Libm.ideal, r32]
  have hlogabs : |Real.log (14073749 / 2 ^ 47)| ≤ 2 ^ 127 := by
    have h1 := Real.one_sub_inv_le_log_of_pos (by norm_num : (0 : ℝ) < 14073749 / 2 ^ 47)
    have h2 := Real.log_le_sub_one_of_pos (by norm_num : (0 : ℝ) < 14073749 / 2 ^ 47)
    rw [abs_le]
    constructor
    · have : (-(2 : ℝ) ^ 127) ≤ 1 - (14073749 / 2 ^ 47)⁻¹ := by norm_num
      linarith
    · have : (14073749 / 2 ^ 47 : ℝ) - 1 ≤ 2 ^ 127 := by norm_num
      linarith
  have hlogv : (Libm.round32 (Libm.ideal Real.log Real.exp Real.sqrt Real.rpow)).log
      (fin (14073749 / 2 ^ 47)) = fin (rndVal (Real.log (14073749 / 2 ^ 47))) := by
    show r32 ((Libm.ideal Real.log Real.exp Real.sqrt Real.rpow).log
      (fin (14073749 / 2 ^ 47))) = _
    rw [ideal_log_pos _ _ _ _ _ (by norm_num), r32_fin, rnd_of_le hlogabs]
  have hexp : (Libm.round32 (Libm.ideal Real.log Real.exp Real.sqrt Real.rpow)).exp nan
      = nan := rfl
  have hsub : ∀ x : ℝ, r32 (fin x - ninf : Fl ℝ) = pinf := fun _ => rfl
  simp only [calcMinWeight32, hi, Bool.and_false, Bool.false_eq_true, if_false, hP, h20,
    fin_add_fin, r32_fin, hve, hpow, fin_div_fin_of_ne _ (ne_of_gt hPpos), hD1e,
    fin_sub_fin, hKe, hsqrt, fin_div_fin_of_ne _ (ne_of_gt hKpos), hsve, fin_mul_fin,
    hexpV, hlog0, hlogv]
  rw [hsub, exponent32_nan, hexp]
  rfl

end MinWeightClaim

/-! ## Least squares in single precision -/

section LeastSquares32

variable {α : Type} [LinearOrderedField α] [FloorRing α]

end LeastSquares32

section LeastSquaresEval

end LeastSquaresEval

section LeastSquaresClaim

end LeastSquaresClaim

section MinWeightRefuted

/-- Claim C22 (refuted by the code): at the variance and risk 0 and the reference
intensity 1, which pass the claim's conditions, `calcMinWeight` in single precision has
no defined result for the sample counts 2 and 8: the product `expV = sqrtV * sqrtV` is
below `2 ^ (-150)` and underflows to zero, its logarithm is minus infinity, the exponent
is NaN and the conversion of NaN to `int` is undefined.  The claim gives
`min(spp, 65536) = spp`. -/
theorem calcMinWeight32_equal_risk_undefined :
    ((lt (fin (0 : ℝ)) (fin (14073749 / 2 ^ 47)) && lt (fin (1 : ℝ)) (fin (14073749 / 2 ^ 47)))
      = false) ∧
    calcMinWeight32 (Libm.round32 (Libm.ideal Real.log Real.exp Real.sqrt Real.rpow))
      (fin 0) (fin 0) (fin 1) 2 = none ∧
    calcMinWeight32 (Libm.round32 (Libm.ideal Real.log Real.exp Real.sqrt Real.rpow))
      (fin 0) (fin 0) (fin 1) 8 = none ∧
    min (2 : Int) 65536 = 2 ∧ min (8 : Int) 65536 = 8 := by
  have hi : lt (fin (1 : ℝ)) (fin (14073749 / 2 ^ 47)) = false := by
    norm_num [lt]
  exact ⟨by rw [hi, Bool.and_false], calcMinWeight32_underflow _ 2 hi (by decide) (by decide),
    calcMinWeight32_underflow _ 8 hi (by decide) (by decide), by decide, by decide⟩

end MinWeightRefuted

/-! ## Weight policy in single precision -/

section WeightSigns

variable {α : Type} [LinearOrderedField α]

/-- Adding 100 to a value that is at least `-51` gives a value that is non-negative or
plus infinity. -/
theorem add_hundred_nonneg {v : Fl α} (hv : le (fin (-51)) v = true) :
    le (fin 0) (v + fin 100) = true := by
  cases v with
  | nan => simp [le] at hv
  | pinf => rfl
  | ninf => simp [le] at hv
  | fin y =>
    have hy : (-51 : α) ≤ y := by simpa [le] using hv
    rw [fin_add_fin]
    have : (0 : α) ≤ y + 100 := by linarith
    simpa [le] using this

/-- The quotient of a value that is non-negative or plus infinity by a positive number
is non-negative or plus infinity. -/
theorem div_pos_nonneg {v : Fl α} (hv : le (fin 0) v = true) {a : α} (ha : 0 < a) :
    le (fin 0) (v / fin a) = true := by
  cases v with
  | nan => simp [le] at hv
  | pinf =>
    show le (fin 0) (if 0 ≤ a then pinf else ninf) = true
    rw [if_pos (le_of_lt ha)]
    rfl
  | ninf => simp [le] at hv
  | fin y =>
    have hy : (0 : α) ≤ y := by simpa [le] using hv
    rw [fin_div_fin_of_ne _ (ne_of_gt ha)]
    have : (0 : α) ≤ y / a := div_nonneg hy (le_of_lt ha)
    simpa [le] using this

end WeightSigns

section Weight32

variable {α : Type} [LinearOrderedField α] [FloorRing α]

/-- Rounding to the nearest integer keeps a non-negative number non-negative. -/
theorem roundEven_nonneg {t : α} (ht : 0 ≤ t) : 0 ≤ roundEven t := by
  have hf : 0 ≤ ⌊t⌋ := Int.floor_nonneg.mpr ht
  unfold roundEven
  split_ifs <;> omega

/-- The single-precision number nearest to a non-negative number is non-negative. -/
theorem rndVal_nonneg {x : α} (hx : 0 ≤ x) : 0 ≤ rndVal x := by
  unfold rndVal
  have hq : (0 : α) < 2 ^ (expo32 x - 23) := two_zpow_pos _
  exact mul_nonneg (by exact_mod_cast roundEven_nonneg (div_nonneg hx (le_of_lt hq)))
    (le_of_lt hq)

/-- Rounding never gives NaN. -/
theorem rnd_ne_nan (x : α) : rnd x ≠ nan := by
  unfold rnd
  split_ifs <;> simp

/-- Rounding a non-negative number gives a non-negative number or plus infinity. -/
theorem rnd_nonneg {x : α} (hx : 0 ≤ x) : le (fin 0) (rnd x) = true := by
  unfold rnd
  split_ifs with h1 h2
  · simp [le]
  · have hx0 : x = 0 := le_antisymm (not_lt.mp h2) hx
    rw [hx0, rndVal_zero] at h1
    norm_num at h1
  · simpa [le] using rndVal_nonneg hx

/-- Rounding keeps a value that is non-negative or plus infinity so. -/
theorem r32_nonneg {v : Fl α} (hv : le (fin 0) v = true) : le (fin 0) (r32 v) = true := by
  cases v with
  | nan => simp [le] at hv
  | pinf => exact hv
  | ninf => simp [le] at hv
  | fin x => exact rnd_nonneg (by simpa [le] using hv)

/-- Rounding a number that is at least `-50` gives a value that is at least `-51`. -/
theorem rnd_ge_of_ge {x : α} (hx : -50 ≤ x) : le (fin (-51)) (rnd x) = true := by
  by_cases h0 : 0 ≤ x
  · have h := rnd_nonneg h0
    cases hr : rnd x with
    | nan => rw [hr] at h; simp [le] at h
    | pinf => simp [le]
    | ninf => rw [hr] at h; simp [le] at h
    | fin y =>
      rw [hr] at h
      have hy : 0 ≤ y := by simpa [le] using h
      have : (-51 : α) ≤ y := by linarith
      simpa [le] using this
  · have hx0 : x < 0 := not_le.mp h0
    have habs : |x| ≤ 50 := abs_le.mpr ⟨hx, by linarith⟩
    rw [rnd_of_le (le_trans habs (by norm_num))]
    have he := rndVal_err x
    have h1 : |x| / 2 ^ 24 ≤ 50 / 2 ^ 24 := by
      apply div_le_div_of_nonneg_right habs
      positivity
    have h2 : (50 : α) / 2 ^ 24 + 1 / 2 ^ 150 ≤ 1 := by norm_num
    have h3 := (abs_le.mp (le_trans he (le_trans (add_le_add_right h1 _) h2))).1
    have : (-51 : α) ≤ rndVal x := by linarith
    simpa [le] using this

/-- The rounded reciprocal of a finite number is not NaN. -/
theorem r32_inv_ne_nan (b : α) : r32 (fin 1 / fin b : Fl α) ≠ nan := by
  by_cases hb : b = 0
  · rw [hb, fin_div_fin]
    simp [r32]
  · rw [fin_div_fin_of_ne _ hb, r32_fin]
    exact rnd_ne_nan _

/-- A power with the base zero and an exponent that is not NaN is a non-negative number
or plus infinity. -/
theorem idealPow_nonneg_of_zero (pw : α → α → α) (e : Fl α) (he : e ≠ nan) :
    le (fin 0) (idealPow pw (fin 0) e) = true := by
  unfold idealPow
  split_ifs with h1 h2
  · simp [le]
  · simp [le]
  · cases e with
    | nan => exact absurd rfl he
    | pinf => simp [le]
    | ninf => simp [le]
    | fin y =>
      simp only [if_true]
      split_ifs <;> simp [le]

end Weight32

section WeightRange32

/-- The logarithm of a number above `1e-12f` is above `-50`. -/
theorem log_ge_of_literal {r : ℝ} (hr : 2305843 / 2 ^ 61 < r) : -50 ≤ Real.log r := by
  have hpos : 0 < r := lt_trans (by positivity) hr
  have h2 : (2 : ℝ) ≤ Real.exp 1 := by
    have := Real.add_one_le_exp (1 : ℝ)
    linarith
  have h50 : (2 : ℝ) ^ 50 ≤ Real.exp 50 := by
    have : Real.exp 50 = Real.exp 1 ^ 50 := by
      rw [← Real.exp_nat_mul]
      norm_num
    rw [this]
    exact pow_le_pow_left₀ (by norm_num) h2 50
  have hexp : Real.exp (-50) < r := by
    rw [Real.exp_neg]
    calc (Real.exp 50)⁻¹ ≤ ((2 : ℝ) ^ 50)⁻¹ := inv_anti₀ (by positivity) h50
      _ < 2305843 / 2 ^ 61 := by norm_num
      _ < r := hr
  exact le_of_lt ((Real.lt_log_iff_exp_lt hpos).mpr hexp)

/-- The power of the math library in exact arithmetic, rounded, of a base that is
non-negative or plus infinity and an exponent that is not NaN is non-negative or plus
infinity. -/
theorem round32_pow_nonneg (base e : Fl ℝ) (hb : le (fin 0) base = true) (he : e ≠ nan) :
    le (fin 0) ((Libm.round32 (Libm.ideal Real.log Real.exp Real.sqrt Real.rpow)).pow
      base e) = true := by
  show le (fin 0) (r32 (idealPow Real.rpow base e)) = true
  apply r32_nonneg
  cases base with
  | nan => simp [le] at hb
  | ninf => simp [le] at hb
  | pinf => exact idealPow_nonneg_of_pinf _ e he
  | fin p =>
    have hp : 0 ≤ p := by simpa [le] using hb
    rcases eq_or_lt_of_le hp with h0 | hpos
    · rw [← h0]
      exact idealPow_nonneg_of_zero _ e he
    · exact idealPow_nonneg_of_pos Real.rpow
        (fun x y hx => Real.rpow_nonneg (le_of_lt hx) y) p hpos e he

/-- In single precision, for every finite risk, every finite curve `(a, b)` with `a > 0`
and every `minWeight ≥ 0`, `denoisedWeight` returns an integer of `[0, 65536]`. -/
theorem denoisedWeight32_range (risk a b : ℝ) (minWeight : Int) (ha : 0 < a)
    (hmin : 0 ≤ minWeight) :
    ∃ w : Int,
      denoisedWeight32 (Libm.round32 (Libm.ideal Real.log Real.exp Real.sqrt Real.rpow))
        (fin risk) (fin a, fin b) minWeight = some w ∧ 0 ≤ w ∧ w ≤ 65536 := by
  have hlim : (ofInt32 65536 : Fl ℝ) = fin 65536 := by
    have h := rnd_int (α := ℝ) 65536 (by norm_num)
    simpa [ofInt32] using h
  simp only [denoisedWeight32, hlim]
  by_cases h1 : le (fin risk) (fin (2305843 / 2 ^ 61)) = true
  · rw [if_pos h1]
    exact ⟨min minWeight 65536, rfl, le_min hmin (by decide), min_le_right _ _⟩
  · rw [if_neg h1]
    by_cases h2 : (lt (fin a) (fin (8796093 / 2 ^ 43)) &&
        lt (fin b) (fin (8796093 / 2 ^ 43))) = true
    · rw [if_pos h2]
      exact ⟨min minWeight 65536, rfl, le_min hmin (by decide), min_le_right _ _⟩
    · rw [if_neg h2]
      have hr : (2305843 : ℝ) / 2 ^ 61 < risk := by
        simpa [le] using h1
      have hpos : 0 < risk := lt_trans (by positivity) hr
      have hlog : (Libm.round32 (Libm.ideal Real.log Real.exp Real.sqrt Real.rpow)).log
          (fin risk) = rnd (Real.log risk) := by
        show r32 ((Libm.ideal Real.log Real.exp Real.sqrt Real.rpow).log (fin risk)) = _
        rw [ideal_log_pos _ _ _ _ _ hpos, r32_fin]
      rw [hlog]
      exact cap_toInt_range _ (round32_pow_nonneg _ _
        (r32_nonneg (div_pos_nonneg (r32_nonneg (add_hundred_nonneg
          (rnd_ge_of_ge (log_ge_of_literal hr)))) ha))
        (r32_inv_ne_nan b))

end WeightRange32

/-! ## Range of the weight -/

/-- Claim C1, amended: for every finite risk, every finite curve `(a, b)` with `a > 0`
and every `minWeight ≥ 0`, `denoisedWeight` returns an integer `w` with `0 ≤ w ≤ 65536`.
This holds with the math library in exact arithmetic, and it holds in single precision,
where the logarithm may round, the two quotients may round or overflow and the power
may round or overflow.  The last part covers the values that the division of the model,
which has one zero, does not produce: for every base that is non-negative or plus
infinity (`a = +0.0f` gives plus infinity) and every exponent that is not NaN
(`b = -0.0f` gives minus infinity), the capped conversion of the rounded power is an
integer of `[0, 65536]`. -/
theorem denoisedWeight_range (risk a b : ℝ) (minWeight : Int) (ha : 0 < a)
    (hmin : 0 ≤ minWeight) :
    (∃ w : Int, denoisedWeight (Libm.ideal Real.log Real.exp Real.sqrt Real.rpow)
      (fin risk) (fin a, fin b) minWeight = some w ∧ 0 ≤ w ∧ w ≤ 65536) ∧
    (∃ w : Int,
      denoisedWeight32 (Libm.round32 (Libm.ideal Real.log Real.exp Real.sqrt Real.rpow))
        (fin risk) (fin a, fin b) minWeight = some w ∧ 0 ≤ w ∧ w ≤ 65536) ∧
    ∀ base e : Fl ℝ, le (fin 0) base = true → e ≠ nan →
      ∃ w : Int,
        (if le (fin 65536)
            ((Libm.round32 (Libm.ideal Real.log Real.exp Real.sqrt Real.rpow)).pow base e) = true
          then some 65536
          else toInt ((Libm.round32 (Libm.ideal Real.log Real.exp Real.sqrt Real.rpow)).pow base e))
          = some w ∧ 0 ≤ w ∧ w ≤ 65536 := by
  refine ⟨?_, denoisedWeight32_range risk a b minWeight ha hmin,
    fun base e hb he => cap_toInt_range _ (round32_pow_nonneg base e hb he)⟩
  by_cases hf : le (fin risk) (fin (2305843 / 2 ^ 61)) = true ∨
      (lt (fin a) (fin (8796093 / 2 ^ 43)) = true ∧
        lt (fin b) (fin (8796093 / 2 ^ 43)) = true)
  · exact ⟨min minWeight 65536, denoisedWeight_of_fallback _ _ (fin a, fin b) _ hf,
      le_min hmin (by decide), min_le_right _ _⟩
  · rw [not_or] at hf
    obtain ⟨hs, hc⟩ := hf
    have hr : (2305843 : ℝ) / 2 ^ 61 < risk := by
      simpa using hs
    rw [denoisedWeight_of_not_fallback _ _ (fin a, fin b) _ (by simpa using hs) hc]
    exact cap_toInt_range _ (ideal_power_nonneg Real.log Real.exp Real.sqrt Real.rpow
      (fun x y hx => Real.rpow_nonneg (le_of_lt hx) y) risk a b
      (lt_trans (by positivity) hr) (by linarith [log_ge_of_literal hr]) (le_of_lt ha) hc)

/-- Witness of C1: risk 1, the curve `(1, -1)` and the minimum weight 5. -/
theorem denoisedWeight_range_witness :
    (∃ w : Int, denoisedWeight (Libm.ideal Real.log Real.exp Real.sqrt Real.rpow)
      (fin 1) (fin 1, fin (-1)) 5 = some w ∧ 0 ≤ w ∧ w ≤ 65536) ∧
    ∃ w : Int,
      denoisedWeight32 (Libm.round32 (Libm.ideal Real.log Real.exp Real.sqrt Real.rpow))
        (fin 1) (fin 1, fin (-1)) 5 = some w ∧ 0 ≤ w ∧ w ≤ 65536 :=
  ⟨(denoisedWeight_range 1 1 (-1) 5 (by norm_num) (by decide)).1,
    (denoisedWeight_range 1 1 (-1) 5 (by norm_num) (by decide)).2.1⟩

end MCPT
